import Mathlib

/-!
Verification of the JSON i18n translator (`translator.py`) against its
natural-language specification.

The development shallowly embeds the core of the program:

* `Json`         — the JSON data model (dicts as insertion-ordered
  association lists, mirroring Python dicts loaded by `json.load`);
* the tree walker (`collect`, `setAtPath`, `getAtPath`) used by
  `JSONTranslator.translate_json` / `_collect_all_strings`;
* the scheduler (`runSeq`, `runFlat`, `runSuper`) covering sequential,
  flat-parallel and two-level super-batched dispatch, with the
  nondeterministic completion order of the thread pools made explicit as a
  permutation parameter;
* the placeholder codec (`extractPlaceholders`, `restorePlaceholders`)
  over `List Char`, together with executable models of the seven compiled
  regular expressions of `PLACEHOLDER_PATTERNS_COMPILED`;
* the translation worker (`translateText`, `translateSingleIndexed`) with
  the cache modelled as explicit state and fallible operations modelled
  with `Except`;
* the structural-diff logic of `translate_file` (`getStructure`,
  `newKeys`, `removedKeys`) and the diff-mode decision; and
* a heap (store) model of `translate_json`'s deep copy and in-place
  write-backs, used for the frame property that the caller's tree is
  never mutated.

Python trees loaded from JSON have no internal sharing and no duplicate
dictionary keys; where a proof needs that fact it takes an explicit
well-formedness hypothesis.  Machine-level details that the claims do not
touch (exact float representation of JSON numbers, Unicode classes beyond
ASCII in `\w`/`\s`/`str.strip`) are modelled with `Int` numbers and ASCII
character classes; these choices are noted next to the definitions.
-/

/-- The JSON data model of the program: `json.load` produces `None`, `bool`,
numbers, `str`, `list` and insertion-ordered `dict`.  Numbers are modelled
as `Int` (no claim computes with numeric values). -/
inductive Json where
  | null : Json
  | bool (b : Bool) : Json
  | num (n : Int) : Json
  | str (s : String) : Json
  | arr (items : List Json) : Json
  | obj (fields : List (String × Json)) : Json

/-- A step of a path from the root to a node: a dict key or a list index.
The source stores `('dict', parent, key)` / `('list', parent, i)` triples;
the parent references are recovered by navigating from the root. -/
inductive Step where
  | key (k : String) : Step
  | idx (i : Nat) : Step
deriving DecidableEq, Repr

/-- Python whitespace characters as used by `str.strip()` (ASCII part). -/
def pySpace (c : Char) : Bool :=
  c = ' ' ∨ c = '\t' ∨ c = '\n' ∨ c = '\r' ∨ c = '\x0b' ∨ c = '\x0c'

/-- `not text or not text.strip()`: true iff the string is empty or
whitespace-only, i.e. every character is whitespace. -/
def pyStripEmpty (s : String) : Bool :=
  s.data.all pySpace

/-- Python truthiness of a JSON value (`bool(x)` for values produced by
`json.load`): `None`, `False`, `0`, `""`, `[]`, `{}` are falsy. -/
def Json.truthy : Json → Bool
  | .null => false
  | .bool b => b
  | .num n => n != 0
  | .str s => s != ""
  | .arr items => !items.isEmpty
  | .obj fields => !fields.isEmpty

mutual

/-- `JSONTranslator._collect_all_strings`: flatten a tree into the list of
(path, string) pairs for every non-empty-after-strip string leaf, in
traversal order (dict insertion order, then array index order). -/
def collect : Json → List (List Step × String)
  | .str s => if pyStripEmpty s then [] else [([], s)]
  | .obj fs => collectObj fs
  | .arr xs => collectArr 0 xs
  | _ => []

/-- Dict part of `collect`: fields in insertion order. -/
def collectObj : List (String × Json) → List (List Step × String)
  | [] => []
  | (k, v) :: es =>
      (collect v).map (fun pr => (Step.key k :: pr.1, pr.2)) ++ collectObj es

/-- Array part of `collect`: items in index order, `i` the index of the
first element of the remaining list. -/
def collectArr : Nat → List Json → List (List Step × String)
  | _, [] => []
  | i, c :: cs =>
      (collect c).map (fun pr => (Step.idx i :: pr.1, pr.2)) ++ collectArr (i + 1) cs

end

/-- Replace the element at position `i` (by applying `f`), leaving the list
unchanged when the index is out of range — Python `xs[i] = v` for the valid
indices that the collected paths produce. -/
def listModify (f : α → α) : Nat → List α → List α
  | _, [] => []
  | 0, x :: xs => f x :: xs
  | n + 1, x :: xs => x :: listModify f n xs

/-- Apply `f` to the value stored under key `k`.  Python dicts have unique
keys; on the association lists of the model every binding of `k` is
updated, which agrees with Python on well-formed (duplicate-free) trees. -/
def objModify (f : Json → Json) (k : String) : List (String × Json) → List (String × Json)
  | [] => []
  | e :: es =>
      if e.1 = k then (e.1, f e.2) :: objModify f k es
      else e :: objModify f k es

/-- The write-back of `translate_json` (`parent[key] = translated_strings[i]`):
set the value at a collected path.  The empty path is skipped, mirroring the
`if path:` guard (a bare string at the root is never written back). -/
def setAtPath (v : Json) : Json → List Step → Json
  | t, [] => t
  | .obj fs, .key k :: p =>
      .obj (objModify (fun c => if p.isEmpty then v else setAtPath v c p) k fs)
  | .arr xs, .idx i :: p =>
      .arr (listModify (fun c => if p.isEmpty then v else setAtPath v c p) i xs)
  | t, _ => t

/-- Read the value at a path (Python `parent[key]` navigation from the
root; dict lookup returns the binding of the key, list indexing must be in
range). -/
def getAtPath : Json → List Step → Option Json
  | t, [] => some t
  | .obj fs, .key k :: p =>
      match fs.find? (fun e => e.1 = k) with
      | some e => getAtPath e.2 p
      | none => none
  | .arr xs, .idx i :: p =>
      match xs[i]? with
      | some c => getAtPath c p
      | none => none
  | _, _ => none

mutual

/-- Well-formedness of a tree produced by `json.load`: no duplicate keys in
any dict (Python dicts cannot have duplicates). -/
def Json.WF : Json → Prop
  | .obj fs => (fs.map Prod.fst).Nodup ∧ Json.WFObj fs
  | .arr xs => Json.WFArr xs
  | _ => True

/-- `Json.WF` for the fields of a dict. -/
def Json.WFObj : List (String × Json) → Prop
  | [] => True
  | e :: es => Json.WF e.2 ∧ Json.WFObj es

/-- `Json.WF` for the items of an array. -/
def Json.WFArr : List Json → Prop
  | [] => True
  | c :: cs => Json.WF c ∧ Json.WFArr cs

end

/-! ### Scheduler / pipeline (`translate_json`, `_process_super_batch`)

The thread pools of the source complete futures in a nondeterministic
order; `as_completed` yields them in that order and the loop body writes
each result into the pre-sized `translated_strings` array at the result's
own index.  The completion order is made explicit as a list of indices
(`flatOrder`, `outerOrder`, `innerOrders`); a run of the program
corresponds to orders that are permutations of the respective ranges. -/

/-- Sequential fallback (`max_workers == 1`): `translated_strings[idx]`
is assigned for `idx = 0, 1, ...` in order. -/
def runSeq (w : Nat → String → String) (strs : List String) : List (Option String) :=
  (List.range strs.length).foldl
    (fun arr i => arr.set i (some (w i (strs.getD i ""))))
    (List.replicate strs.length none)

/-- Flat parallel mode: all units are submitted to one pool; results are
collected in completion order `order` and written at their own index into
the pre-sized array. -/
def runFlat (w : Nat → String → String) (strs : List String) (order : List Nat) :
    List (Option String) :=
  order.foldl
    (fun arr i => arr.set i (some (w i (strs.getD i ""))))
    (List.replicate strs.length none)

/-- Recursion core of `superBatches`, structural on a fuel bound. -/
def superBatchesGo (b : Nat) : Nat → Nat → List String → List (Nat × List String)
  | _, _, [] => []
  | 0, _, _ :: _ => []
  | fuel + 1, start, c :: cs =>
      if b = 0 then []
      else (start, (c :: cs).take b) :: superBatchesGo b fuel (start + b) ((c :: cs).drop b)

/-- `translate_json`'s super-batch partition: `(i, strings[i:i+b])` for
`i = 0, b, 2b, ...` (the `batch_id` component is dropped; it is only used
for log messages).  The fuel `strs.length` always suffices. -/
def superBatches (b : Nat) (start : Nat) (strs : List String) : List (Nat × List String) :=
  superBatchesGo b strs.length start strs

/-- `_process_super_batch`: the units of one super-batch are submitted to
an inner pool; the returned list holds `(start + idx, translated)` pairs in
inner completion order `innerOrder`. -/
def processSuperBatch (w : Nat → String → String) (start : Nat) (chunk : List String)
    (innerOrder : List Nat) : List (Nat × String) :=
  innerOrder.map (fun i => (start + i, w (start + i) (chunk.getD i "")))

/-- Two-level super-batched mode: super-batches complete in `outerOrder`;
each batch's result pairs are written at their absolute indices. -/
def runSuper (w : Nat → String → String) (b : Nat) (strs : List String)
    (outerOrder : List Nat) (innerOrders : List (List Nat)) : List (Option String) :=
  outerOrder.foldl
    (fun arr k =>
      ((processSuperBatch w ((superBatches b 0 strs).getD k (0, [])).1
          ((superBatches b 0 strs).getD k (0, [])).2 (innerOrders.getD k [])).foldl
        (fun a r => a.set r.1 (some r.2)) arr))
    (List.replicate strs.length none)

/-- Mode selection of `translate_json`: two-level batching when
`batch_size > 0` and there are more strings than one batch, flat parallel
when `max_workers > 1`, sequential otherwise. -/
def runScheduler (w : Nat → String → String) (maxWorkers batchSize : Nat)
    (flatOrder outerOrder : List Nat) (innerOrders : List (List Nat))
    (strs : List String) : List (Option String) :=
  if batchSize > 0 ∧ strs.length > batchSize then
    runSuper w batchSize strs outerOrder innerOrders
  else if maxWorkers > 1 then
    runFlat w strs flatOrder
  else
    runSeq w strs

/-- The value written back into the tree slot: the Python assignment
`parent[key] = translated_strings[i]` stores `None` (JSON null) for a
never-filled slot and the translated string otherwise. -/
def jsonOfOptStr : Option String → Json
  | some s => .str s
  | none => .null

/-- The `translated_strings` list that `translate_json` builds for a tree:
the scheduler applied to the collected strings. -/
def translatedStrings (w : Nat → String → String) (maxWorkers batchSize : Nat)
    (flatOrder outerOrder : List Nat) (innerOrders : List (List Nat))
    (data : Json) : List (Option String) :=
  runScheduler w maxWorkers batchSize flatOrder outerOrder innerOrders
    ((collect data).map (·.2))

/-- `translate_json` (value level): deep-copy the input (a pure value
copy), collect the strings, run the scheduler, and write each result back
at its collected path.  `deepcopy` preserves the tree as a value, so the
copy is the input itself here; the heap-level model below covers the
mutation discipline. -/
def translateJson (w : Nat → String → String) (maxWorkers batchSize : Nat)
    (flatOrder outerOrder : List Nat) (innerOrders : List (List Nat))
    (data : Json) : Json :=
  (List.range (collect data).length).foldl
    (fun t i =>
      if i < (translatedStrings w maxWorkers batchSize flatOrder outerOrder
            innerOrders data).length ∧
          ¬((collect data).getD i ([], "")).1.isEmpty then
        setAtPath
          (jsonOfOptStr ((translatedStrings w maxWorkers batchSize flatOrder outerOrder
            innerOrders data).getD i none))
          t ((collect data).getD i ([], "")).1
      else t)
    data

/-! ### Structural diff and the diff-mode decision (`translate_file`) -/

mutual

/-- `get_structure` from `translate_file`: the set of dotted/bracketed
path strings of every dict key and list index, at every level (modelled as
a list; only membership matters, as the source builds a Python set). -/
def getStructure : String → Json → List String
  | path, .obj fs => structObj path fs
  | path, .arr xs => structArr path 0 xs
  | _, _ => []

/-- Dict part of `get_structure`: `new_path = f"{path}.{key}" if path else key`. -/
def structObj : String → List (String × Json) → List String
  | _, [] => []
  | path, (k, v) :: es =>
      (if path = "" then k else path ++ "." ++ k) ::
        (getStructure (if path = "" then k else path ++ "." ++ k) v ++ structObj path es)

/-- Array part of `get_structure`: `new_path = f"{path}[{i}]"`. -/
def structArr : String → Nat → List Json → List String
  | _, _, [] => []
  | path, i, c :: cs =>
      (path ++ "[" ++ Nat.repr i ++ "]") ::
        (getStructure (path ++ "[" ++ Nat.repr i ++ "]") c ++ structArr path (i + 1) cs)

end

/-- `new_keys = source_keys - existing_keys` (as a list of the paths of
the source tree not present in the existing tree). -/
def newKeys (data existing : Json) : List String :=
  (getStructure "" data).filter (fun p => !(getStructure "" existing).contains p)

/-- `removed_keys = existing_keys - source_keys`. -/
def removedKeys (data existing : Json) : List String :=
  (getStructure "" existing).filter (fun p => !(getStructure "" data).contains p)

mutual

/-- Structural route paths of the *leaves* only (scalar positions), in the
same dotted/bracketed format.  Modelled from the spec: the claim about the
structural diff speaks of "leaf paths"; this definition follows the
claim's words and is compared against `get_structure`, which the source
actually uses. -/
def leafPaths : String → Json → List String
  | path, .obj fs => leafObj path fs
  | path, .arr xs => leafArr path 0 xs
  | path, _ => [path]

/-- Dict part of `leafPaths`. -/
def leafObj : String → List (String × Json) → List String
  | _, [] => []
  | path, (k, v) :: es =>
      leafPaths (if path = "" then k else path ++ "." ++ k) v ++ leafObj path es

/-- Array part of `leafPaths`. -/
def leafArr : String → Nat → List Json → List String
  | _, _, [] => []
  | path, i, c :: cs =>
      leafPaths (path ++ "[" ++ Nat.repr i ++ "]") c ++ leafArr path (i + 1) cs

end

/-- A scalar (non-container) JSON value. -/
def Json.isScalar : Json → Bool
  | .obj _ => false
  | .arr _ => false
  | _ => true

mutual

/-- Two trees have the same structural shape — identical dict keys (in
order) and array lengths at every level — and may differ only in the
scalar values at the leaves. -/
inductive ShapeEq : Json → Json → Prop where
  | scalar {a b : Json} : a.isScalar → b.isScalar → ShapeEq a b
  | arr {xs ys : List Json} : ShapeEqArr xs ys → ShapeEq (.arr xs) (.arr ys)
  | obj {fs gs : List (String × Json)} : ShapeEqObj fs gs → ShapeEq (.obj fs) (.obj gs)

/-- `ShapeEq`, pointwise on array items. -/
inductive ShapeEqArr : List Json → List Json → Prop where
  | nil : ShapeEqArr [] []
  | cons {x y : Json} {xs ys : List Json} :
      ShapeEq x y → ShapeEqArr xs ys → ShapeEqArr (x :: xs) (y :: ys)

/-- `ShapeEq`, pointwise on dict fields with equal keys in order. -/
inductive ShapeEqObj : List (String × Json) → List (String × Json) → Prop where
  | nil : ShapeEqObj [] []
  | cons {e f : String × Json} {es fs : List (String × Json)} :
      e.1 = f.1 → ShapeEq e.2 f.2 → ShapeEqObj es fs → ShapeEqObj (e :: es) (f :: fs)

end

/-- The diff-mode decision of `translate_file` (after language detection):
`if self.diff_mode and existing_data:` — note the Python *truthiness* test
on the loaded prior output — then skip the pipeline when there are no new
keys, else run the full pipeline `pipe`.  The second component counts the
translatable units dispatched to the worker (`_translate_single_indexed`
calls); each dispatched non-cached, non-whitespace unit performs one
backend translation call, and the skip path dispatches none. -/
def translateFileCore (pipe : Json → Json) (diffMode : Bool) (existing : Option Json)
    (data : Json) : Json × Nat :=
  match existing with
  | some e =>
      if diffMode ∧ e.truthy then
        if (newKeys data e).isEmpty then (e, 0)
        else (pipe data, (collect data).length)
      else (pipe data, (collect data).length)
  | none => (pipe data, (collect data).length)

/-! ### Placeholder codec (`_extract_placeholders` / `_restore_placeholders`)

Strings are handled as `List Char` (Python `str.replace` and `re` operate
on sequences of code points).  Each compiled regex of
`PLACEHOLDER_PATTERNS_COMPILED` is modelled as a matcher returning the
length of the match starting at the given position; all seven patterns are
deterministic (their greedy character classes cannot backtrack past their
closing delimiters), so maximal-munch scanning coincides with Python's
regex engine.  `\w` and `\s` are modelled with their ASCII classes. -/

/-- Character strings of the codec model. -/
abbrev Str := List Char

/-- `p` is a prefix of `s` (Boolean). -/
def pfx : Str → Str → Bool
  | [], _ => true
  | _ :: _, [] => false
  | a :: as, b :: bs => a == b && pfx as bs

/-- Python `s.replace(old, new, 1)`: replace the first occurrence of
`old`, if any. -/
def replaceFirst (s old new : Str) : Str :=
  match s with
  | [] => if old.isEmpty then new else []
  | c :: cs =>
      if pfx old (c :: cs) then new ++ (c :: cs).drop old.length
      else c :: replaceFirst cs old new

/-- Recursion core of `replaceAll` for a non-empty pattern `o :: os`,
structural on a fuel bound. -/
def replAllGo (o : Char) (os new : Str) : Nat → Str → Str
  | _, [] => []
  | 0, s => s
  | fuel + 1, c :: cs =>
      if pfx (o :: os) (c :: cs) then
        new ++ replAllGo o os new fuel ((c :: cs).drop (o :: os).length)
      else c :: replAllGo o os new fuel cs

/-- Python `s.replace(old, new)`: replace every (non-overlapping,
left-to-right) occurrence of `old`.  The codec only ever replaces the
non-empty markers, so the empty-`old` case is immaterial (modelled as the
identity).  The fuel `s.length` always suffices. -/
def replaceAll (old new s : Str) : Str :=
  match old with
  | [] => s
  | o :: os => replAllGo o os new s.length s

/-- Recursion core of `findAll`, structural on a fuel bound. -/
def findAllGo (m : Str → Option Nat) : Nat → Str → List Str
  | _, [] => []
  | 0, _ :: _ => []
  | fuel + 1, c :: cs =>
      match m (c :: cs) with
      | some n =>
          if n = 0 then findAllGo m fuel cs
          else (c :: cs).take n :: findAllGo m fuel ((c :: cs).drop n)
      | none => findAllGo m fuel cs

/-- `re.findall` for a deterministic matcher `m`: scan left to right; on a
match of length `n` emit it and continue after it, otherwise advance one
character.  The seven patterns below never produce empty matches.  The
fuel `s.length` always suffices. -/
def findAll (m : Str → Option Nat) (s : Str) : List Str :=
  findAllGo m s.length s

/-- Length of the maximal run of characters satisfying `p`. -/
def countWhile (p : Char → Bool) : Str → Nat
  | [] => 0
  | c :: cs => if p c then countWhile p cs + 1 else 0

/-- `[a-zA-Z_]` (first character of a named-brace placeholder). -/
def isAlphaUnd (c : Char) : Bool := c.isAlpha || c == '_'

/-- `[a-zA-Z0-9_]`, and the ASCII class of `\w`. -/
def isWordCh (c : Char) : Bool := c.isAlpha || c.isDigit || c == '_'

/-- `[\w\s]` (ASCII). -/
def isWordSpaceCh (c : Char) : Bool := isWordCh c || pySpace c

/-- Pattern 1: `\{\{[^}]+\}\}` — `{{variable}}`. -/
def mat1 : Str → Option Nat
  | '{' :: '{' :: rest =>
      let n := countWhile (fun c => c != '}') rest
      if n = 0 then none
      else
        match rest.drop n with
        | '}' :: '}' :: _ => some (n + 4)
        | _ => none
  | _ => none

/-- Pattern 2: `\{[0-9]+\}` — `{0}`, `{1}`. -/
def mat2 : Str → Option Nat
  | '{' :: rest =>
      let n := countWhile Char.isDigit rest
      if n = 0 then none
      else
        match rest.drop n with
        | '}' :: _ => some (n + 2)
        | _ => none
  | _ => none

/-- Pattern 3: `\{[a-zA-Z_][a-zA-Z0-9_]*\}` — `{name}`. -/
def mat3 : Str → Option Nat
  | '{' :: c :: rest =>
      if isAlphaUnd c then
        let n := countWhile isWordCh rest
        match rest.drop n with
        | '}' :: _ => some (n + 3)
        | _ => none
      else none
  | _ => none

/-- Pattern 4: `%[sd]` — `%s`, `%d`. -/
def mat4 : Str → Option Nat
  | '%' :: c :: _ => if c == 's' || c == 'd' then some 2 else none
  | _ => none

/-- Pattern 5: `%\([^)]+\)[sd]` — `%(name)s`. -/
def mat5 : Str → Option Nat
  | '%' :: '(' :: rest =>
      let n := countWhile (fun c => c != ')') rest
      if n = 0 then none
      else
        match rest.drop n with
        | ')' :: c :: _ => if c == 's' || c == 'd' then some (n + 4) else none
        | _ => none
  | _ => none

/-- Pattern 6: `\$\{[^}]+\}` — `${variable}`. -/
def mat6 : Str → Option Nat
  | '$' :: '{' :: rest =>
      let n := countWhile (fun c => c != '}') rest
      if n = 0 then none
      else
        match rest.drop n with
        | '}' :: _ => some (n + 3)
        | _ => none
  | _ => none

/-- Pattern 7: `\[\[[\w\s]+\]\]` — `[[key]]` (`\w`, `\s` as ASCII classes). -/
def mat7 : Str → Option Nat
  | '[' :: '[' :: rest =>
      let n := countWhile isWordSpaceCh rest
      if n = 0 then none
      else
        match rest.drop n with
        | ']' :: ']' :: _ => some (n + 4)
        | _ => none
  | _ => none

/-- `PLACEHOLDER_PATTERNS_COMPILED`, in source order. -/
def patterns : List (Str → Option Nat) := [mat1, mat2, mat3, mat4, mat5, mat6, mat7]

/-- Recursion core of `natStr`, structural on a fuel bound. -/
def natStrGo : Nat → Nat → Str
  | 0, n => [Char.ofNat (48 + n % 10)]
  | fuel + 1, n =>
      if n < 10 then [Char.ofNat (48 + n)]
      else natStrGo fuel (n / 10) ++ [Char.ofNat (48 + n % 10)]

/-- Decimal digits of a natural number (Python `f"{i}"`).  The fuel `n`
always suffices. -/
def natStr (n : Nat) : Str :=
  natStrGo n n

/-- The marker `f"__PLACEHOLDER_{i}__"`. -/
def marker (i : Nat) : Str := "__PLACEHOLDER_".data ++ natStr i ++ "__".data

/-- One pattern round of `_extract_placeholders`: `findall` on the text as
it stands at the start of the round, then each match is replaced (first
occurrence, one at a time) by the next marker while the match is appended
to the placeholder list. -/
def extractStep (m : Str → Option Nat) (st : Str × List Str) : Str × List Str :=
  (findAll m st.1).foldl
    (fun st mt => (replaceFirst st.1 mt (marker st.2.length), st.2 ++ [mt]))
    st

/-- `_extract_placeholders`: run the seven pattern rounds in order. -/
def extractPlaceholders (text : Str) : Str × List Str :=
  patterns.foldl (fun st m => extractStep m st) (text, [])

/-- `_restore_placeholders`: for `i = 0, 1, ...` replace every occurrence
of marker `i` by placeholder `i` (by index, not by content). -/
def restorePlaceholders (text : Str) (ps : List Str) : Str :=
  (List.range ps.length).foldl (fun t i => replaceAll (marker i) (ps.getD i []) t) text

/-- `_extract_placeholders` on `String`s (worker interface). -/
def extractPlaceholdersS (s : String) : String × List String :=
  let pr := extractPlaceholders s.data
  (String.mk pr.1, pr.2.map String.mk)

/-- `_restore_placeholders` on `String`s (worker interface). -/
def restorePlaceholdersS (s : String) (ps : List String) : String :=
  String.mk (restorePlaceholders s.data (ps.map String.data))

/-! ### Glossary post-processor (`_apply_glossary`)

`re.sub(r'\b' + re.escape(term) + r'\b', target, text, flags=IGNORECASE)`:
case-insensitive whole-word replacement, scanning left to right over the
original text.  Word characters and case folding use the ASCII classes. -/

/-- Case-insensitive character comparison (`re.IGNORECASE`, ASCII). -/
def ciEq (a b : Char) : Bool := a.toLower == b.toLower

/-- Case-insensitive prefix test. -/
def ciPfx : Str → Str → Bool
  | [], _ => true
  | _ :: _, [] => false
  | a :: as, b :: bs => ciEq a b && ciPfx as bs

/-- One `re.sub` pass for glossary entry `src → tgt`.  `prevW` records
whether the character just before the current position is a word
character (`\b` is a transition between word and non-word, with the
positions before the start and past the end counting as non-word). -/
def glossGoF (src tgt : Str) : Nat → Bool → Str → Str
  | _, _, [] => []
  | 0, _, s => s
  | fuel + 1, prevW, c :: cs =>
      if src.isEmpty then c :: cs
      else
        let boundaryStart := prevW != isWordCh c
        let matched := (c :: cs).take src.length
        let after := (c :: cs).drop src.length
        let boundaryEnd :=
          (isWordCh (matched.getLastD c)) !=
            (match after with | [] => false | d :: _ => isWordCh d)
        if ciPfx src (c :: cs) && boundaryStart && boundaryEnd then
          tgt ++ glossGoF src tgt fuel (isWordCh (matched.getLastD c)) after
        else c :: glossGoF src tgt fuel (isWordCh c) cs

/-- One `re.sub` pass (wrapper; the fuel `s.length` always suffices). -/
def glossGo (src tgt : Str) (prevW : Bool) (s : Str) : Str :=
  glossGoF src tgt s.length prevW s

/-- `_apply_glossary`: apply the entries in iteration order, each as a
whole-word case-insensitive substitution on the result so far. -/
def applyGlossary (glossary : List (String × String)) (s : String) : String :=
  glossary.foldl (fun r e => String.mk (glossGo e.1.data e.2.data false r.data)) s

/-! ### Translation cache (`TranslationCache`) and the worker

The SQLite store is modelled as an association list keyed by
`(text, source_lang, target_lang)`; the MD5 digest of the original text is
modelled as the text itself (the digest is deterministic and
collision-free in the model).  `get`/`set` may raise (`sqlite3` errors);
fallible operations are modelled with `Except` through a `CacheOps`
record, with `realCacheOps` the non-raising behavior. -/

/-- The rows of the `translations` table, newest binding first. -/
def CacheStore := List ((String × String × String) × String)

/-- `TranslationCache.get`: `SELECT translated_text ... fetchone()`,
`result[0] if result else None` — a stored row is returned even when the
stored translation is the empty string (a one-element tuple is truthy). -/
def cacheLookup (st : CacheStore) (text src tgt : String) : Option String :=
  (List.find? (fun e => e.1 == (text, src, tgt)) st).map (·.2)

/-- `TranslationCache.set`: `INSERT OR REPLACE` (idempotent overwrite). -/
def cacheInsert (st : CacheStore) (text src tgt tr : String) : CacheStore :=
  (((text, src, tgt), tr) : (String × String × String) × String) :: st

/-- The fallible cache interface seen by the worker: `get`/`set` may
raise. -/
structure CacheOps where
  getE : CacheStore → String → String → String → Except Unit (Option String)
  setE : CacheStore → String → String → String → String → Except Unit CacheStore

/-- The non-raising cache behavior. -/
def realCacheOps : CacheOps where
  getE st t s g := .ok (cacheLookup st t s g)
  setE st t s g tr := .ok (cacheInsert st t s g tr)

/-- The shared mutable state of a translator instance: the cache store and
the two lock-guarded counters. -/
structure WState where
  cache : CacheStore
  cacheHits : Nat
  translationCount : Nat

/-- Cache-miss path of `_translate_single_indexed`: extract placeholders
(outside the `try`), then inside the `try`: backend translate, restore
placeholders (`if placeholders:`), apply glossary (`if self.glossary:`),
`cache.set` (`if self.cache:`), bump the counter and return; any exception
inside the `try` yields `(index, text)` — the original, untranslated
text. -/
def workerMiss (ops : CacheOps) (backend : String → Except Unit String) (useCache : Bool)
    (glossary : List (String × String)) (srcLang tgtLang : String)
    (st : WState) (index : Nat) (text : String) : (Nat × String) × WState :=
  let pr := extractPlaceholdersS text
  match backend pr.1 with
  | .error _ => ((index, text), st)
  | .ok translated =>
      let t1 := if pr.2.isEmpty then translated else restorePlaceholdersS translated pr.2
      let t2 := if glossary.isEmpty then t1 else applyGlossary glossary t1
      match (if useCache then ops.setE st.cache text srcLang tgtLang t2 else .ok st.cache) with
      | .error _ => ((index, text), st)
      | .ok cache' =>
          ((index, t2), { st with cache := cache', translationCount := st.translationCount + 1 })

/-- `JSONTranslator._translate_single_indexed`.  Whitespace-only input is
returned unchanged; `cache.get` runs *outside* the `try` block, so an
exception it raises propagates out of the worker (`Except.error`); the
`if cached:` test is Python truthiness, so a cached empty string is not a
hit; otherwise the miss path runs. -/
def translateSingleIndexed (ops : CacheOps) (backend : String → Except Unit String)
    (useCache : Bool) (glossary : List (String × String)) (srcLang tgtLang : String)
    (st : WState) (index : Nat) (text : String) :
    Except Unit ((Nat × String) × WState) :=
  if pyStripEmpty text then .ok ((index, text), st)
  else
    match (if useCache then ops.getE st.cache text srcLang tgtLang else .ok none) with
    | .error e => .error e
    | .ok (some c) =>
        if c = "" then .ok (workerMiss ops backend useCache glossary srcLang tgtLang st index text)
        else .ok ((index, c), { st with cacheHits := st.cacheHits + 1 })
    | .ok none => .ok (workerMiss ops backend useCache glossary srcLang tgtLang st index text)

/-- Cache-miss path of `translate_text`: identical to the indexed worker's
miss path except that the glossary post-processor is *not* applied. -/
def textMiss (ops : CacheOps) (backend : String → Except Unit String) (useCache : Bool)
    (srcLang tgtLang : String) (st : WState) (text : String) : String × WState :=
  let pr := extractPlaceholdersS text
  match backend pr.1 with
  | .error _ => (text, st)
  | .ok translated =>
      let t1 := if pr.2.isEmpty then translated else restorePlaceholdersS translated pr.2
      match (if useCache then ops.setE st.cache text srcLang tgtLang t1 else .ok st.cache) with
      | .error _ => (text, st)
      | .ok cache' =>
          (t1, { st with cache := cache', translationCount := st.translationCount + 1 })

/-- `JSONTranslator.translate_text` (the public single-string worker):
same structure as `_translate_single_indexed`, without the index and
without the glossary step. -/
def translateText (ops : CacheOps) (backend : String → Except Unit String)
    (useCache : Bool) (srcLang tgtLang : String) (st : WState) (text : String) :
    Except Unit (String × WState) :=
  if pyStripEmpty text then .ok (text, st)
  else
    match (if useCache then ops.getE st.cache text srcLang tgtLang else .ok none) with
    | .error e => .error e
    | .ok (some c) =>
        if c = "" then .ok (textMiss ops backend useCache srcLang tgtLang st text)
        else .ok (c, { st with cacheHits := st.cacheHits + 1 })
    | .ok none => .ok (textMiss ops backend useCache srcLang tgtLang st text)

/-- The per-unit translation function realized by a worker on a cache miss
(deterministic backend, no raising cache): used to instantiate the
scheduler.  On backend failure the original text is returned. -/
def wOf (backend : String → Except Unit String) (glossary : List (String × String))
    (text : String) : String :=
  if pyStripEmpty text then text
  else
    let pr := extractPlaceholdersS text
    match backend pr.1 with
    | .error _ => text
    | .ok translated =>
        let t1 := if pr.2.isEmpty then translated else restorePlaceholdersS translated pr.2
        if glossary.isEmpty then t1 else applyGlossary glossary t1

/-- The sequential loop of `translate_json` over a worker that may raise:
`_translate_single_indexed` is called directly, so an exception aborts the
whole pass. -/
def runSeqE (wE : Nat → String → Except Unit String) (strs : List String) :
    Except Unit (List (Option String)) :=
  (List.range strs.length).foldlM
    (fun arr i => (wE i (strs.getD i "")).map (fun t => arr.set i (some t)))
    (List.replicate strs.length none)

/-- The flat-parallel loop over a worker that may raise: the pool calls
`future.result()` inside a `try`, and on an exception stores the original
string at the unit's index — the pass continues. -/
def runFlatE (wE : Nat → String → Except Unit String) (strs : List String)
    (order : List Nat) : List (Option String) :=
  order.foldl
    (fun arr i =>
      match wE i (strs.getD i "") with
      | .ok t => arr.set i (some t)
      | .error _ => arr.set i (some (strs.getD i "")))
    (List.replicate strs.length none)

/-! ### Heap model of `translate_json`'s mutation discipline

Python objects live on a heap; `translate_json` deep-copies the caller's
tree (`copy.deepcopy`), collects parent references into the copy, and
mutates only slots of the copy (`parent[key] = translated_strings[i]`).
The heap is modelled as a store of numbered nodes: container nodes hold
the addresses of their children.  `copy.deepcopy` of an acyclic JSON tree
produces an all-fresh tree with the same value; it is modelled by reading
the tree back as a value and allocating it at fresh addresses. -/

/-- A heap node: scalars carry their value, containers the addresses of
their children. -/
inductive HVal where
  | null : HVal
  | bool (b : Bool) : HVal
  | num (n : Int) : HVal
  | str (s : String) : HVal
  | arr (elems : List Nat) : HVal
  | obj (fields : List (String × Nat)) : HVal

/-- The child addresses of a node. -/
def HVal.children : HVal → List Nat
  | .arr as => as
  | .obj ps => ps.map (·.2)
  | _ => []

/-- The heap: bindings (newest first) and the next fresh address. -/
structure Heap where
  store : List (Nat × HVal)
  next : Nat

/-- Read the node at an address. -/
def heapGet (h : Heap) (a : Nat) : Option HVal :=
  (List.find? (fun e => e.1 == a) h.store).map (·.2)

/-- Rebind the node at an address (mutation of an existing object). -/
def heapSet (h : Heap) (a : Nat) (v : HVal) : Heap :=
  { h with store := (a, v) :: h.store }

/-- Allocate a fresh node holding `v`. -/
def heapAlloc (h : Heap) (v : HVal) : Heap × Nat :=
  ({ store := (h.next, v) :: h.store, next := h.next + 1 }, h.next)

mutual

/-- Allocate a JSON value as an all-fresh tree of nodes (children before
parents); models both `json.load` and the fresh structure built by
`copy.deepcopy`. -/
def allocJson : Json → Heap → Heap × Nat
  | .null, h => heapAlloc h .null
  | .bool b, h => heapAlloc h (.bool b)
  | .num n, h => heapAlloc h (.num n)
  | .str s, h => heapAlloc h (.str s)
  | .arr xs, h =>
      let pr := allocArr xs h
      heapAlloc pr.1 (.arr pr.2)
  | .obj fs, h =>
      let pr := allocObj fs h
      heapAlloc pr.1 (.obj pr.2)

/-- `allocJson` over array items. -/
def allocArr : List Json → Heap → Heap × List Nat
  | [], h => (h, [])
  | c :: cs, h =>
      let pr := allocJson c h
      let pr2 := allocArr cs pr.1
      (pr2.1, pr.2 :: pr2.2)

/-- `allocJson` over dict fields. -/
def allocObj : List (String × Json) → Heap → Heap × List (String × Nat)
  | [], h => (h, [])
  | e :: es, h =>
      let pr := allocJson e.2 h
      let pr2 := allocObj es pr.1
      (pr2.1, (e.1, pr.2) :: pr2.2)

end

/-- Turn a list of optional values into an optional list. -/
def optList : List (Option α) → Option (List α)
  | [] => some []
  | o :: os =>
      match o, optList os with
      | some a, some as => some (a :: as)
      | _, _ => none

/-- Read the JSON value rooted at an address (with fuel; a loaded tree is
read completely whenever the fuel exceeds its depth). -/
def readBack : Nat → Heap → Nat → Option Json
  | 0, _, _ => none
  | fuel + 1, h, a =>
      match heapGet h a with
      | some .null => some .null
      | some (.bool b) => some (.bool b)
      | some (.num n) => some (.num n)
      | some (.str s) => some (.str s)
      | some (.arr as) => (optList (as.map (fun x => readBack fuel h x))).map Json.arr
      | some (.obj ps) =>
          (optList (ps.map (fun e => (readBack fuel h e.2).map (fun j => (e.1, j))))).map
            Json.obj
      | none => none

/-- `_collect_all_strings` on the heap: paths carry the parent object's
address with the key/index, exactly what the source's
`('dict', parent, key)` / `('list', parent, i)` triples record. -/
def heapCollect : Nat → Heap → Nat → List (Nat × Step) → List (List (Nat × Step) × String)
  | 0, _, _, _ => []
  | fuel + 1, h, a, path =>
      match heapGet h a with
      | some (.str s) => if pyStripEmpty s then [] else [(path, s)]
      | some (.arr as) =>
          (as.enum).flatMap
            (fun pr => heapCollect fuel h pr.2 (path ++ [(a, .idx pr.1)]))
      | some (.obj ps) =>
          ps.flatMap (fun e => heapCollect fuel h e.2 (path ++ [(a, .key e.1)]))
      | _ => []

/-- `parent[key] = value`: allocate the new string object and rebind the
parent's slot to it. -/
def heapWriteBack (h : Heap) (parentAddr : Nat) (st : Step) (v : HVal) : Heap :=
  let pr := heapAlloc h v
  match heapGet pr.1 parentAddr, st with
  | some (.obj ps), .key k =>
      heapSet pr.1 parentAddr (.obj (ps.map (fun e => if e.1 == k then (e.1, pr.2) else e)))
  | some (.arr as), .idx i => heapSet pr.1 parentAddr (.arr (as.set i pr.2))
  | _, _ => pr.1

/-- `translate_json` at the heap level: deep-copy the tree at `root`,
collect the strings of the copy, and write every translated string back
into the copy (the scheduler modes produce the same result values, shown
at the value level; the sequential order is used here).  The empty-path
guard `if path:` skips a bare string at the root. -/
def heapTranslateJson (fuel : Nat) (w : Nat → String → String) (h : Heap) (root : Nat) :
    Heap × Option Nat :=
  match readBack fuel h root with
  | none => (h, none)
  | some j =>
      let pr := allocJson j h
      let sd := heapCollect fuel pr.1 pr.2 []
      let h2 := (List.range sd.length).foldl
        (fun hh i =>
          let u := sd.getD i ([], "")
          match u.1.getLast? with
          | some pa => heapWriteBack hh pa.1 pa.2 (.str (w i u.2))
          | none => hh)
        pr.1
      (h2, some pr.2)

/-- Every binding of the store sits below `next` and points only below
`next` (true of any heap built by `allocJson` from an empty heap). -/
def Heap.closed (h : Heap) : Bool :=
  h.store.all (fun e => e.1 < h.next && (e.2.children).all (· < h.next))

/-- Every binding at address `n` or above points only to addresses `n` or
above: the freshly copied region is closed upward and never reaches back
into the caller's part of the heap. -/
def regionClosed (h : Heap) (n : Nat) : Prop :=
  ∀ e ∈ h.store, n ≤ e.1 → ∀ c ∈ e.2.children, n ≤ c

/-- The distinguishing token of the placeholder markers. -/
def PH : Str := "PLACEHOLDER".data

/-- `p` occurs as a contiguous substring of `s` (Boolean). -/
def infx (p : Str) : Str → Bool
  | [] => p.isEmpty
  | c :: cs => pfx p (c :: cs) || infx p cs

/-- Characters a recognized placeholder can start with. -/
def startCh (c : Char) : Bool := c == '{' || c == '%' || c == '$' || c == '['

/-- Characters a recognized placeholder can end with. -/
def endCh (c : Char) : Bool := c == '}' || c == ')' || c == ']' || c == 's' || c == 'd'

/-- The shape every pattern match has: at least two characters, a start
character first and an end character last. -/
def shaped (c : Str) : Prop :=
  ∃ a mid z, c = a :: mid ++ [z] ∧ startCh a = true ∧ endCh z = true

/-- The ten decimal digit characters. -/
def decDigits : Str := "0123456789".data

/-- The constant prefix of every marker. -/
def mpre : Str := "__PLACEHOLDER_".data

/-- The constant suffix of every marker. -/
def msuf : Str := "__".data

/-- Decimal value of a digit string (left inverse of `natStr`). -/
def parseDec (s : Str) : Nat := s.foldl (fun a c => 10 * a + (c.toNat - 48)) 0

/-- The alternating state of the text during extraction and restoration:
literal chunks, each followed by one marker, and a final literal. -/
def rendM : List (Str × Nat) → Str → Str
  | [], last => last
  | (s, i) :: rest, last => s ++ marker i ++ rendM rest last

/-- The same alternation with each marker replaced by the placeholder it
stands for. -/
def rendP (ps : List Str) : List (Str × Nat) → Str → Str
  | [], last => last
  | (s, i) :: rest, last => s ++ ps.getD i [] ++ rendP ps rest last

/-- The marker indices of the alternation. -/
def marks (segs : List (Str × Nat)) : List Nat := segs.map (·.2)

/-- Substitute `p` for every mark `i`, merging the adjacent literals. -/
def mergeMark (i : Nat) (p : Str) : List (Str × Nat) → Str → List (Str × Nat) × Str
  | [], last => ([], last)
  | (s, j) :: rest, last =>
      let pr := mergeMark i p rest last
      if j = i then
        match pr.1 with
        | [] => ([], s ++ p ++ pr.2)
        | (s2, j2) :: rest2 => ((s ++ p ++ s2, j2) :: rest2, pr.2)
      else ((s, j) :: pr.1, pr.2)

/-- `m` recognizes exactly `c` at the start of any continuation. -/
def MatchesAt (m : Str → Option Nat) (c : Str) : Prop :=
  c ≠ [] ∧ ∀ t, m (c ++ t) = some c.length

/-- Continuation-free consequence of a gap of the scan: no match starts at
any position of `g` within sight of `d` (the text that originally followed
the gap, up to and including the next match). -/
def GapFree (m : Str → Option Nat) (g d : Str) : Prop :=
  ∀ u v, g = u ++ v → v ≠ [] → ∀ c, MatchesAt m c → pfx c (v ++ d) = false

/-- Weaker per-gap fact that survives the replacement of what followed:
no match fits inside a suffix of the gap. -/
def GapFit (m : Str → Option Nat) (g : Str) : Prop :=
  ∀ u v, g = u ++ v → v ≠ [] → ∀ c, MatchesAt m c → pfx c v = false

/-- No position of `g`, continued by `rest`, starts a match. -/
def NoMatchSplit (m : Str → Option Nat) (g rest : Str) : Prop :=
  ∀ u v, g = u ++ v → v ≠ [] → m (v ++ rest) = none ∨ m (v ++ rest) = some 0

/-- `findall`'s gap/match decomposition of a string. -/
inductive FindSpans (m : Str → Option Nat) : Str → List Str → Prop where
  | last (g : Str) : NoMatchSplit m g [] → FindSpans m g []
  | step (g c rest : Str) (ms : List Str) :
      NoMatchSplit m g (c ++ rest) → MatchesAt m c →
      FindSpans m rest ms → FindSpans m (g ++ c ++ rest) (c :: ms)

/-- What the seven pattern matchers guarantee: every match is non-empty,
within bounds, insensitive to the continuation past its end, and shaped;
no match starts on a non-start character or at the end of the text. -/
def matcherGood (m : Str → Option Nat) : Prop :=
  (∀ s n, m s = some n →
    0 < n ∧ n ≤ s.length ∧ (∀ t, m (s.take n ++ t) = some n) ∧ shaped (s.take n)) ∧
  (∀ c s, startCh c = false → m (c :: s) = none) ∧ m [] = none

/-! ## Theorems -/

section SchedulerLemmas

/-- Writing `some (v i)` at every index of `order` into `arr` yields, at
`j`, the value `v j` when `j` was written (and in range), and leaves `arr`
unchanged at `j` otherwise. -/
theorem foldl_set_getD (v : Nat → α) (order : List Nat) (arr : List (Option α)) (j : Nat) :
    (order.foldl (fun a i => a.set i (some (v i))) arr).getD j none =
      if j ∈ order ∧ j < arr.length then some (v j) else arr.getD j none := by
  induction order generalizing arr with
  | nil => simp
  | cons i rest ih =>
      simp only [List.foldl_cons, ih, List.length_set]
      by_cases hjr : j ∈ rest ∧ j < arr.length
      · simp [hjr, List.mem_cons, hjr.1, hjr.2]
      · simp only [if_neg hjr]
        by_cases hij : j = i
        · subst hij
          by_cases hlt : j < arr.length
          · have : (arr.set j (some (v j))).getD j none = some (v j) := by
              simp [List.getD_eq_getElem?_getD, List.getElem?_set_self', hlt]
            simp [this, hlt]
          · have : arr.set j (some (v j)) = arr := List.set_eq_of_length_le (by omega)
            simp [this, hlt]
        · have : (arr.set i (some (v i))).getD j none = arr.getD j none := by
            simp [List.getD_eq_getElem?_getD, List.getElem?_set_ne (fun h => hij h.symm)]
          rw [this]
          by_cases hjm : j ∈ i :: rest
          · rcases List.mem_cons.mp hjm with h | h
            · exact absurd h hij
            · have : ¬ j < arr.length := fun hl => hjr ⟨h, hl⟩
              simp [hjm, this]
          · simp [hjm]

/-- The result array keeps the pre-sized length. -/
theorem foldl_set_length (v : Nat → α) (order : List Nat) (arr : List (Option α)) :
    (order.foldl (fun a i => a.set i (some (v i))) arr).length = arr.length := by
  induction order generalizing arr with
  | nil => rfl
  | cons i rest ih => simp [ih, List.length_set]

end SchedulerLemmas

section SchedulerLemmas2

/-- Pair-write version of `foldl_set_getD`, for result lists whose value
is determined by the index (`hv`). -/
theorem foldl_setPairs_getD (v : Nat → α) (writes : List (Nat × α)) (arr : List (Option α))
    (j : Nat) (hv : ∀ pr ∈ writes, pr.2 = v pr.1) :
    (writes.foldl (fun a r => a.set r.1 (some r.2)) arr).getD j none =
      if j ∈ writes.map Prod.fst ∧ j < arr.length then some (v j)
      else arr.getD j none := by
  induction writes generalizing arr with
  | nil => simp
  | cons pr rest ih =>
      have hpr : pr.2 = v pr.1 := hv pr (List.mem_cons_self pr rest)
      simp only [List.foldl_cons, ih _ (fun q hq => hv q (List.mem_cons_of_mem pr hq)),
        List.length_set]
      by_cases hjr : j ∈ rest.map Prod.fst ∧ j < arr.length
      · have : j ∈ (pr :: rest).map Prod.fst ∧ j < arr.length := by
          simp only [List.map_cons, List.mem_cons]
          exact ⟨Or.inr hjr.1, hjr.2⟩
        simp [hjr, this]
      · simp only [if_neg hjr]
        by_cases hij : j = pr.1
        · subst hij
          by_cases hlt : pr.1 < arr.length
          · have hget : (arr.set pr.1 (some pr.2)).getD pr.1 none = some pr.2 := by
              simp [List.getD_eq_getElem?_getD, List.getElem?_set_self', hlt]
            have hmem : pr.1 ∈ (pr :: rest).map Prod.fst ∧ pr.1 < arr.length :=
              ⟨by simp, hlt⟩
            simp [hget, hmem, hpr]
          · have : arr.set pr.1 (some pr.2) = arr := List.set_eq_of_length_le (by omega)
            simp [this, hlt]
        · have hget : (arr.set pr.1 (some pr.2)).getD j none = arr.getD j none := by
            simp [List.getD_eq_getElem?_getD, List.getElem?_set_ne (fun h => hij h.symm)]
          rw [hget]
          have hneg : ¬(j ∈ List.map Prod.fst (pr :: rest) ∧ j < arr.length) := by
            intro hc
            have hm := hc.1
            rw [List.map_cons, List.mem_cons] at hm
            rcases hm with h | h
            · exact hij h
            · exact hjr ⟨h, hc.2⟩
          rw [if_neg hneg]

/-- Pair-writes keep the array length. -/
theorem foldl_setPairs_length (writes : List (Nat × α)) (arr : List (Option α)) :
    (writes.foldl (fun a r => a.set r.1 (some r.2)) arr).length = arr.length := by
  induction writes generalizing arr with
  | nil => rfl
  | cons pr rest ih => simp [ih, List.length_set]

/-- `superBatchesGo` is independent of the fuel once it covers the list
length. -/
theorem superBatchesGo_fuel (b : Nat) :
    ∀ (f₁ f₂ : Nat) (strs : List String) (start : Nat),
      strs.length ≤ f₁ → strs.length ≤ f₂ →
      superBatchesGo b f₁ start strs = superBatchesGo b f₂ start strs := by
  intro f₁
  induction f₁ with
  | zero =>
      intro f₂ strs start h1 _
      cases strs with
      | nil => cases f₂ <;> rfl
      | cons c cs => simp at h1
  | succ f ih =>
      intro f₂ strs start h1 h2
      cases strs with
      | nil => cases f₂ <;> rfl
      | cons c cs =>
          cases f₂ with
          | zero => simp at h2
          | succ g =>
              by_cases hb : b = 0
              · simp [superBatchesGo, hb]
              · have hd : ((c :: cs).drop b).length ≤ f := by
                  simp only [List.length_drop, List.length_cons] at *
                  omega
                have hd2 : ((c :: cs).drop b).length ≤ g := by
                  simp only [List.length_drop, List.length_cons] at *
                  omega
                simp only [superBatchesGo, hb, if_false]
                rw [ih g _ _ hd hd2]

/-- Unfolding of `superBatches` on a non-empty list. -/
theorem superBatches_cons (b start : Nat) (c : String) (cs : List String) (hb : b ≠ 0) :
    superBatches b start (c :: cs) =
      (start, (c :: cs).take b) :: superBatches b (start + b) ((c :: cs).drop b) := by
  show superBatchesGo b (c :: cs).length start (c :: cs) = _
  have hstep : superBatchesGo b (c :: cs).length start (c :: cs) =
      (start, (c :: cs).take b) ::
        superBatchesGo b cs.length (start + b) ((c :: cs).drop b) := by
    simp only [List.length_cons, superBatchesGo, hb, if_false]
  rw [hstep, superBatchesGo_fuel b cs.length ((c :: cs).drop b).length _ _
    (by simp only [List.length_drop, List.length_cons]; omega) (Nat.le_refl _)]
  rfl

/-- Soundness of the super-batch partition: batch `k` starts at
`start + k * b`, and its `i`-th string is the `(k * b + i)`-th of the
whole list. -/
theorem superBatches_sound (b : Nat) (hb : b ≠ 0) :
    ∀ (k : Nat) (strs : List String) (start : Nat),
      k < (superBatches b start strs).length →
      ((superBatches b start strs).getD k (0, [])).1 = start + k * b ∧
      ∀ i, i < ((superBatches b start strs).getD k (0, [])).2.length →
        k * b + i < strs.length ∧
        ((superBatches b start strs).getD k (0, [])).2.getD i "" =
          strs.getD (k * b + i) "" := by
  intro k
  induction k with
  | zero =>
      intro strs start hk
      cases strs with
      | nil => simp [superBatches, superBatchesGo] at hk
      | cons c cs =>
          rw [superBatches_cons b start c cs hb] at hk ⊢
          refine ⟨by simp, ?_⟩
          intro i hi
          simp only [List.getD_cons_zero] at hi ⊢
          have hib : i < b := by
            have := List.length_take_le b (c :: cs)
            have h2 : (List.take b (c :: cs)).length = min b (c :: cs).length := by
              simp [List.length_take]
            omega
          have hilen : i < (c :: cs).length := by
            have h2 : (List.take b (c :: cs)).length = min b (c :: cs).length := by
              simp [List.length_take]
            omega
          constructor
          · simpa using hilen
          · simp only [Nat.zero_mul, Nat.zero_add]
            simp [List.getD_eq_getElem?_getD, List.getElem?_take, hib]
  | succ k ih =>
      intro strs start hk
      cases strs with
      | nil => simp [superBatches, superBatchesGo] at hk
      | cons c cs =>
          rw [superBatches_cons b start c cs hb] at hk ⊢
          simp only [List.length_cons, Nat.succ_lt_succ_iff] at hk
          simp only [List.getD_cons_succ]
          obtain ⟨h1, h2⟩ := ih ((c :: cs).drop b) (start + b) hk
          refine ⟨by rw [h1]; ring, ?_⟩
          intro i hi
          obtain ⟨h3, h4⟩ := h2 i hi
          have hdlen : ((c :: cs).drop b).length = (c :: cs).length - b := by
            simp [List.length_drop]
          have hm : (k + 1) * b = k * b + b := by ring
          constructor
          · omega
          · rw [h4]
            have : (((c :: cs).drop b).getD (k * b + i) "") =
                (c :: cs).getD (b + (k * b + i)) "" := by
              simp [List.getD_eq_getElem?_getD, List.getElem?_drop]
            rw [this]
            congr 1
            ring

/-- Coverage of the super-batch partition: every index `j` of the list
falls into some batch slot. -/
theorem superBatches_cover (b : Nat) (hb : b ≠ 0) :
    ∀ (j : Nat) (strs : List String) (start : Nat), j < strs.length →
      ∃ k i, k < (superBatches b start strs).length ∧
        i < ((superBatches b start strs).getD k (0, [])).2.length ∧ k * b + i = j := by
  intro j
  induction j using Nat.strong_induction_on with
  | _ j ih =>
      intro strs start hj
      cases strs with
      | nil => simp at hj
      | cons c cs =>
          by_cases hjb : j < b
          · have hlen0 : 0 < (superBatches b start (c :: cs)).length := by
              rw [superBatches_cons b start c cs hb]; simp
            have htk : (List.take b (c :: cs)).length = min b (c :: cs).length := by
              simp [List.length_take]
            refine ⟨0, j, hlen0, ?_, by simp⟩
            rw [superBatches_cons b start c cs hb]
            simp only [List.getD_cons_zero]
            omega
          · have hb1 : 1 ≤ b := Nat.one_le_iff_ne_zero.mpr hb
            have hcc : (c :: cs).length = cs.length + 1 := by simp
            have hjlt : j - b < j := by omega
            have hdrop : j - b < ((c :: cs).drop b).length := by
              rw [List.length_drop]; omega
            obtain ⟨k, i, hk, hi, hki⟩ := ih (j - b) hjlt ((c :: cs).drop b) (start + b) hdrop
            have hm : (k + 1) * b = k * b + b := by ring
            refine ⟨k + 1, i, ?_, ?_, by omega⟩
            · rw [superBatches_cons b start c cs hb]
              simpa using hk
            · rw [superBatches_cons b start c cs hb]
              simpa using hi

end SchedulerLemmas2

section RunCharacterization

/-- Sequential mode: position `j` holds the translation of unit `j`. -/
theorem runSeq_getD (w : Nat → String → String) (strs : List String) (j : Nat)
    (hj : j < strs.length) :
    (runSeq w strs).getD j none = some (w j (strs.getD j "")) := by
  unfold runSeq
  rw [foldl_set_getD]
  simp [List.mem_range, hj]

/-- Sequential mode keeps the pre-sized length. -/
theorem runSeq_length (w : Nat → String → String) (strs : List String) :
    (runSeq w strs).length = strs.length := by
  unfold runSeq
  rw [foldl_set_length]
  simp

/-- Flat-parallel mode: whatever the completion order, as long as every
unit index was completed, position `j` holds the translation of unit
`j`. -/
theorem runFlat_getD (w : Nat → String → String) (strs : List String) (order : List Nat)
    (j : Nat) (hj : j < strs.length) (hcov : j ∈ order) :
    (runFlat w strs order).getD j none = some (w j (strs.getD j "")) := by
  unfold runFlat
  rw [foldl_set_getD]
  simp [hcov, hj]

/-- Flat-parallel mode keeps the pre-sized length. -/
theorem runFlat_length (w : Nat → String → String) (strs : List String) (order : List Nat) :
    (runFlat w strs order).length = strs.length := by
  unfold runFlat
  rw [foldl_set_length]
  simp

/-- The outer super-batch fold, characterized pointwise: index `j` holds
the translation of unit `j` as soon as some completed batch slot covers
it; slots only ever carry the value determined by their absolute index. -/
theorem runSuper_fold_getD (w : Nat → String → String) (b : Nat) (strs : List String)
    (io : List (List Nat)) (hb : b ≠ 0) (oo : List Nat) (arr : List (Option String))
    (hoo : ∀ k ∈ oo, k < (superBatches b 0 strs).length ∧
        ∀ i ∈ io.getD k [], i < ((superBatches b 0 strs).getD k (0, [])).2.length)
    (j : Nat) :
    (oo.foldl
      (fun a k =>
        ((processSuperBatch w ((superBatches b 0 strs).getD k (0, [])).1
            ((superBatches b 0 strs).getD k (0, [])).2 (io.getD k [])).foldl
          (fun a r => a.set r.1 (some r.2)) a))
      arr).getD j none =
    if (∃ k ∈ oo, ∃ i ∈ io.getD k [],
          ((superBatches b 0 strs).getD k (0, [])).1 + i = j) ∧ j < arr.length
    then some (w j (strs.getD j "")) else arr.getD j none := by
  induction oo generalizing arr with
  | nil => simp
  | cons k rest ih =>
      obtain ⟨hklen, hkio⟩ := hoo k (List.mem_cons_self k rest)
      obtain ⟨hstart, hchunk⟩ := superBatches_sound b hb k strs 0 hklen
      have hstart' : ((superBatches b 0 strs).getD k (0, [])).1 = k * b := by omega
      have hv : ∀ pr ∈ processSuperBatch w ((superBatches b 0 strs).getD k (0, [])).1
          ((superBatches b 0 strs).getD k (0, [])).2 (io.getD k []),
          pr.2 = w pr.1 (strs.getD pr.1 "") := by
        intro pr hpr
        rcases List.mem_map.mp hpr with ⟨i, hi, rfl⟩
        obtain ⟨hlt, hval⟩ := hchunk i (hkio i hi)
        simp only [hstart', hval]
      simp only [List.foldl_cons]
      rw [ih _ (fun k' hk' => hoo k' (List.mem_cons_of_mem k hk')),
        foldl_setPairs_length, foldl_setPairs_getD (fun j => w j (strs.getD j "")) _ _ _ hv]
      have hmemiff : (j ∈ (processSuperBatch w ((superBatches b 0 strs).getD k (0, [])).1
            ((superBatches b 0 strs).getD k (0, [])).2 (io.getD k [])).map Prod.fst) ↔
          ∃ i ∈ io.getD k [], ((superBatches b 0 strs).getD k (0, [])).1 + i = j := by
        unfold processSuperBatch
        rw [List.map_map]
        simp [List.mem_map]
      by_cases hrest : (∃ k' ∈ rest, ∃ i ∈ io.getD k' [],
          ((superBatches b 0 strs).getD k' (0, [])).1 + i = j) ∧ j < arr.length
      · have hcons : (∃ k' ∈ k :: rest, ∃ i ∈ io.getD k' [],
            ((superBatches b 0 strs).getD k' (0, [])).1 + i = j) ∧ j < arr.length := by
          obtain ⟨⟨k', hk', hex⟩, hlt⟩ := hrest
          exact ⟨⟨k', List.mem_cons_of_mem k hk', hex⟩, hlt⟩
        rw [if_pos hrest, if_pos hcons]
      · rw [if_neg hrest]
        by_cases hhere : j ∈ (processSuperBatch w ((superBatches b 0 strs).getD k (0, [])).1
            ((superBatches b 0 strs).getD k (0, [])).2 (io.getD k [])).map Prod.fst ∧
            j < arr.length
        · have hcons : (∃ k' ∈ k :: rest, ∃ i ∈ io.getD k' [],
              ((superBatches b 0 strs).getD k' (0, [])).1 + i = j) ∧ j < arr.length := by
            obtain ⟨hmem, hlt⟩ := hhere
            obtain ⟨i, hi, heq⟩ := hmemiff.mp hmem
            exact ⟨⟨k, List.mem_cons_self k rest, i, hi, heq⟩, hlt⟩
          rw [if_pos hhere, if_pos hcons]
        · have hcons : ¬ ((∃ k' ∈ k :: rest, ∃ i ∈ io.getD k' [],
              ((superBatches b 0 strs).getD k' (0, [])).1 + i = j) ∧ j < arr.length) := by
            intro hc
            obtain ⟨⟨k', hk', i, hi, heq⟩, hlt⟩ := hc
            rcases List.mem_cons.mp hk' with h | h
            · subst h
              exact hhere ⟨hmemiff.mpr ⟨i, hi, heq⟩, hlt⟩
            · exact hrest ⟨⟨k', h, i, hi, heq⟩, hlt⟩
          rw [if_neg hhere, if_neg hcons]

/-- The outer fold keeps the array length. -/
theorem runSuper_fold_length (w : Nat → String → String) (b : Nat) (strs : List String)
    (io : List (List Nat)) (oo : List Nat) (arr : List (Option String)) :
    (oo.foldl
      (fun a k =>
        ((processSuperBatch w ((superBatches b 0 strs).getD k (0, [])).1
            ((superBatches b 0 strs).getD k (0, [])).2 (io.getD k [])).foldl
          (fun a r => a.set r.1 (some r.2)) a))
      arr).length = arr.length := by
  induction oo generalizing arr with
  | nil => rfl
  | cons k rest ih =>
      simp only [List.foldl_cons]
      rw [ih, foldl_setPairs_length]

/-- Super-batched mode: with completed permutations at both levels,
position `j` holds the translation of unit `j`. -/
theorem runSuper_getD (w : Nat → String → String) (b : Nat) (strs : List String)
    (oo : List Nat) (io : List (List Nat)) (hb : b ≠ 0)
    (ho₁ : ∀ k ∈ oo, k < (superBatches b 0 strs).length)
    (ho₂ : ∀ k, k < (superBatches b 0 strs).length → k ∈ oo)
    (hi₁ : ∀ k, k < (superBatches b 0 strs).length →
        ∀ i ∈ io.getD k [], i < ((superBatches b 0 strs).getD k (0, [])).2.length)
    (hi₂ : ∀ k, k < (superBatches b 0 strs).length →
        ∀ i, i < ((superBatches b 0 strs).getD k (0, [])).2.length → i ∈ io.getD k [])
    (j : Nat) (hj : j < strs.length) :
    (runSuper w b strs oo io).getD j none = some (w j (strs.getD j "")) := by
  unfold runSuper
  rw [runSuper_fold_getD w b strs io hb oo _ (fun k hk => ⟨ho₁ k hk, hi₁ k (ho₁ k hk)⟩)]
  have hcov : ∃ k ∈ oo, ∃ i ∈ io.getD k [],
      ((superBatches b 0 strs).getD k (0, [])).1 + i = j := by
    obtain ⟨k, i, hk, hi, hki⟩ := superBatches_cover b hb j strs 0 hj
    obtain ⟨hstart, _⟩ := superBatches_sound b hb k strs 0 hk
    exact ⟨k, ho₂ k hk, i, hi₂ k hk i hi, by omega⟩
  have hlen : j < (List.replicate strs.length (none : Option String)).length := by
    simp [hj]
  rw [if_pos ⟨hcov, hlen⟩]

/-- Super-batched mode keeps the pre-sized length. -/
theorem runSuper_length (w : Nat → String → String) (b : Nat) (strs : List String)
    (oo : List Nat) (io : List (List Nat)) :
    (runSuper w b strs oo io).length = strs.length := by
  unfold runSuper
  rw [runSuper_fold_length]
  simp

end RunCharacterization

/-- Claim C1: for every JSON tree whose flattening yields `N` non-empty
(after trimming) string leaves, and for every concurrency configuration
(`max_workers = 1` sequential, `max_workers > 1` flat parallel, or
`batch_size > 0` two-level super-batching), `translate_json` produces a
translated-strings list of length `N` in which position `i` holds the
translation of the `i`-th leaf in deterministic traversal order (dict
insertion order, then array index order), independent of worker completion
order (the completion orders appear only in the hypotheses stating that
the pools completed every submitted unit, never in the conclusion);
results are written into the pre-sized index-addressed array
(`[None] * N` with writes `translated_strings[idx] = ...`), never
appended. -/
theorem C1_order_preservation (w : Nat → String → String) (maxWorkers batchSize : Nat)
    (flatOrder outerOrder : List Nat) (innerOrders : List (List Nat)) (data : Json)
    (hflat : ∀ j, j < (collect data).length → j ∈ flatOrder)
    (ho₁ : ∀ k ∈ outerOrder,
        k < (superBatches batchSize 0 ((collect data).map (·.2))).length)
    (ho₂ : ∀ k, k < (superBatches batchSize 0 ((collect data).map (·.2))).length →
        k ∈ outerOrder)
    (hi₁ : ∀ k, k < (superBatches batchSize 0 ((collect data).map (·.2))).length →
        ∀ i ∈ innerOrders.getD k [],
          i < ((superBatches batchSize 0 ((collect data).map (·.2))).getD k (0, [])).2.length)
    (hi₂ : ∀ k, k < (superBatches batchSize 0 ((collect data).map (·.2))).length →
        ∀ i, i < ((superBatches batchSize 0 ((collect data).map (·.2))).getD k (0, [])).2.length →
          i ∈ innerOrders.getD k []) :
    (translatedStrings w maxWorkers batchSize flatOrder outerOrder innerOrders data).length =
        (collect data).length ∧
    ∀ i, i < (collect data).length →
      (translatedStrings w maxWorkers batchSize flatOrder outerOrder innerOrders data).getD
          i none =
        some (w i (((collect data).map (·.2)).getD i "")) := by
  unfold translatedStrings runScheduler
  have hmaplen : ((collect data).map (·.2)).length = (collect data).length :=
    List.length_map _ _
  by_cases hsup : batchSize > 0 ∧ ((collect data).map (·.2)).length > batchSize
  · rw [if_pos hsup]
    refine ⟨by rw [runSuper_length, hmaplen], ?_⟩
    intro i hi
    exact runSuper_getD w batchSize _ outerOrder innerOrders (by omega) ho₁ ho₂ hi₁ hi₂ i
      (by omega)
  · rw [if_neg hsup]
    by_cases hmw : maxWorkers > 1
    · rw [if_pos hmw]
      refine ⟨by rw [runFlat_length, hmaplen], ?_⟩
      intro i hi
      exact runFlat_getD w _ flatOrder i (by omega) (hflat i hi)
    · rw [if_neg hmw]
      refine ⟨by rw [runSeq_length, hmaplen], ?_⟩
      intro i hi
      exact runSeq_getD w _ i (by omega)

/-- Witness for C1 at a concrete tree, in super-batched mode with both
pools completing out of order. -/
theorem C1_order_preservation_witness :
    (translatedStrings (fun _ s => s ++ "!") 5 1 [1, 0] [1, 0] [[0], [0]]
        (Json.obj [("a", .str "x"), ("b", .arr [.str "y", .num 3])])).length = 2 ∧
    (translatedStrings (fun _ s => s ++ "!") 5 1 [1, 0] [1, 0] [[0], [0]]
        (Json.obj [("a", .str "x"), ("b", .arr [.str "y", .num 3])])).getD 1 none =
      some "y!" := by
  obtain ⟨hlen, hall⟩ := C1_order_preservation (fun _ s => s ++ "!") 5 1 [1, 0] [1, 0]
    [[0], [0]] (Json.obj [("a", .str "x"), ("b", .arr [.str "y", .num 3])])
    (by decide) (by decide) (by decide) (by decide) (by decide)
  refine ⟨by rw [hlen]; rfl, ?_⟩
  have h1 := hall 1 (by decide)
  rw [h1]
  rfl

section CollectLemmas

mutual

/-- Every collected string is non-empty after stripping. -/
theorem collect_clean : ∀ (t : Json) (pr : List Step × String),
    pr ∈ collect t → pyStripEmpty pr.2 = false
  | .null, _, h => by simp [collect] at h
  | .bool _, _, h => by simp [collect] at h
  | .num _, _, h => by simp [collect] at h
  | .str s, pr, h => by
      by_cases hs : pyStripEmpty s
      · simp [collect, hs] at h
      · simp only [collect] at h
        rw [if_neg hs] at h
        have hpr : pr = (([] : List Step), s) := List.mem_singleton.mp h
        rw [hpr]
        simpa using hs
  | .obj fs, pr, h => collectObj_clean fs pr (by simpa [collect] using h)
  | .arr xs, pr, h => collectArr_clean 0 xs pr (by simpa [collect] using h)

/-- `collect_clean` for dict fields. -/
theorem collectObj_clean : ∀ (fs : List (String × Json)) (pr : List Step × String),
    pr ∈ collectObj fs → pyStripEmpty pr.2 = false
  | [], _, h => by simp [collectObj] at h
  | (k, v) :: es, pr, h => by
      rw [collectObj] at h
      rcases List.mem_append.mp h with h | h
      · rcases List.mem_map.mp h with ⟨q, hq, he⟩
        have := collect_clean v q hq
        subst he
        simpa using this
      · exact collectObj_clean es pr h

/-- `collect_clean` for array items. -/
theorem collectArr_clean : ∀ (i : Nat) (xs : List Json) (pr : List Step × String),
    pr ∈ collectArr i xs → pyStripEmpty pr.2 = false
  | _, [], _, h => by simp [collectArr] at h
  | i, c :: cs, pr, h => by
      rw [collectArr] at h
      rcases List.mem_append.mp h with h | h
      · rcases List.mem_map.mp h with ⟨q, hq, he⟩
        have := collect_clean c q hq
        subst he
        simpa using this
      · exact collectArr_clean (i + 1) cs pr h

end

end CollectLemmas

section PathLemmas

/-- Every path collected from dict fields starts with a key of one of the
fields. -/
theorem collectObj_shape : ∀ (fs : List (String × Json)) (pr : List Step × String),
    pr ∈ collectObj fs → ∃ k q, pr.1 = Step.key k :: q ∧ k ∈ fs.map Prod.fst := by
  intro fs
  induction fs with
  | nil => intro pr h; simp [collectObj] at h
  | cons e es ih =>
      intro pr h
      obtain ⟨k, v⟩ := e
      rw [collectObj] at h
      rcases List.mem_append.mp h with h | h
      · rcases List.mem_map.mp h with ⟨q, _, he⟩
        exact ⟨k, q.1, by rw [← he], by simp⟩
      · obtain ⟨k', q', hq', hk'⟩ := ih pr h
        exact ⟨k', q', hq', by simp [hk']⟩

mutual

/-- With unique dict keys, every collected (path, string) pair resolves in
the tree to exactly that string leaf. -/
theorem collect_correct : ∀ (t : Json), Json.WF t → ∀ pr ∈ collect t,
    getAtPath t pr.1 = some (.str pr.2)
  | .null, _, _, h => by simp [collect] at h
  | .bool _, _, _, h => by simp [collect] at h
  | .num _, _, _, h => by simp [collect] at h
  | .str s, _, pr, h => by
      by_cases hs : pyStripEmpty s
      · simp [collect, hs] at h
      · simp only [collect] at h
        rw [if_neg hs] at h
        have hpr : pr = (([] : List Step), s) := List.mem_singleton.mp h
        rw [hpr]
        rfl
  | .obj fs, hwf, pr, h => by
      have hwf' : (fs.map Prod.fst).Nodup ∧ Json.WFObj fs := by
        simpa [Json.WF] using hwf
      exact collectObj_correct fs hwf'.1 hwf'.2 pr (by simpa [collect] using h)
  | .arr xs, hwf, pr, h => by
      have hwf' : Json.WFArr xs := by simpa [Json.WF] using hwf
      obtain ⟨j, c, p, hj, hpath, hget⟩ :=
        collectArr_correct 0 xs hwf' pr (by simpa [collect] using h)
      rw [Nat.zero_add] at hpath
      rw [hpath]
      simp only [getAtPath, hj]
      exact hget

/-- `collect_correct` for dict fields. -/
theorem collectObj_correct : ∀ (fs : List (String × Json)),
    (fs.map Prod.fst).Nodup → Json.WFObj fs → ∀ pr ∈ collectObj fs,
    getAtPath (.obj fs) pr.1 = some (.str pr.2)
  | [], _, _, pr, h => by simp [collectObj] at h
  | (k, v) :: es, hnd, hwf, pr, h => by
      have hwfv : Json.WF v := hwf.1
      have hwfe : Json.WFObj es := hwf.2
      have hnd' : (es.map Prod.fst).Nodup := by
        rw [List.map_cons] at hnd
        exact (List.nodup_cons.mp hnd).2
      have hknot : k ∉ es.map Prod.fst := by
        rw [List.map_cons] at hnd
        exact (List.nodup_cons.mp hnd).1
      rw [collectObj] at h
      rcases List.mem_append.mp h with h | h
      · rcases List.mem_map.mp h with ⟨q, hq, he⟩
        have hc := collect_correct v hwfv q hq
        rw [← he]
        simp only [getAtPath]
        rw [List.find?_cons_of_pos _ (by simp)]
        exact hc
      · obtain ⟨k', q', hq', hk'⟩ := collectObj_shape es pr h
        have hne : k ≠ k' := fun hkk => hknot (hkk ▸ hk')
        have hrec := collectObj_correct es hnd' hwfe pr h
        rw [hq'] at hrec ⊢
        simp only [getAtPath] at hrec ⊢
        rw [List.find?_cons_of_neg _ (by simp [hne])]
        exact hrec

/-- `collect_correct` for array items: paths carry the absolute index. -/
theorem collectArr_correct : ∀ (i : Nat) (xs : List Json), Json.WFArr xs →
    ∀ pr ∈ collectArr i xs,
    ∃ j c p, xs[j]? = some c ∧ pr.1 = Step.idx (i + j) :: p ∧
      getAtPath c p = some (.str pr.2)
  | _, [], _, pr, h => by simp [collectArr] at h
  | i, c :: cs, hwf, pr, h => by
      rw [collectArr] at h
      rcases List.mem_append.mp h with h | h
      · rcases List.mem_map.mp h with ⟨q, hq, he⟩
        refine ⟨0, c, q.1, by simp, ?_, ?_⟩
        · rw [← he]
          simp
        · have := collect_correct c hwf.1 q hq
          rw [← he]
          exact this
      · obtain ⟨j, c', p, hj, hpath, hget⟩ := collectArr_correct (i + 1) cs hwf.2 pr h
        refine ⟨j + 1, c', p, by simpa using hj, ?_, hget⟩
        rw [hpath]
        have heq : i + 1 + j = i + (j + 1) := by omega
        rw [heq]

end

end PathLemmas

section FrameLemmas

/-- `objModify` leaves the binding found for a different key unchanged. -/
theorem objModify_find_ne (f : Json → Json) (k k' : String) (hne : k ≠ k') :
    ∀ fs : List (String × Json),
      List.find? (fun e => e.1 = k') (objModify f k fs) =
        List.find? (fun e => e.1 = k') fs := by
  intro fs
  induction fs with
  | nil => rfl
  | cons e es ih =>
      rw [objModify]
      by_cases hek : e.1 = k
      · rw [if_pos hek]
        rw [List.find?_cons_of_neg _ (by simp [hek, hne]),
          List.find?_cons_of_neg _ (by simp [hek, hne])]
        exact ih
      · rw [if_neg hek]
        by_cases hek' : e.1 = k'
        · rw [List.find?_cons_of_pos _ (by simp [hek']),
            List.find?_cons_of_pos _ (by simp [hek'])]
        · rw [List.find?_cons_of_neg _ (by simp [hek']),
            List.find?_cons_of_neg _ (by simp [hek'])]
          exact ih

/-- `objModify` applies `f` to the binding found for the modified key. -/
theorem objModify_find_eq (f : Json → Json) (k : String) :
    ∀ fs : List (String × Json),
      List.find? (fun e => e.1 = k) (objModify f k fs) =
        (List.find? (fun e => e.1 = k) fs).map (fun e => (e.1, f e.2)) := by
  intro fs
  induction fs with
  | nil => rfl
  | cons e es ih =>
      rw [objModify]
      by_cases hek : e.1 = k
      · rw [if_pos hek]
        rw [List.find?_cons_of_pos _ (by simp [hek]),
          List.find?_cons_of_pos _ (by simp [hek])]
        rfl
      · rw [if_neg hek]
        rw [List.find?_cons_of_neg _ (by simp [hek]),
          List.find?_cons_of_neg _ (by simp [hek])]
        exact ih

/-- Pointwise effect of `listModify`. -/
theorem listModify_getElem (f : α → α) :
    ∀ (i : Nat) (xs : List α) (m : Nat),
      (listModify f i xs)[m]? = if i = m then (xs[m]?).map f else xs[m]? := by
  intro i xs
  induction xs generalizing i with
  | nil => intro m; simp [listModify]
  | cons x xs ih =>
      intro m
      cases i with
      | zero =>
          cases m with
          | zero => simp [listModify]
          | succ m => simp [listModify]
      | succ i =>
          cases m with
          | zero => simp [listModify, Nat.succ_ne_zero]
          | succ m =>
              simp only [listModify, List.getElem?_cons_succ]
              rw [ih i m]
              by_cases him : i = m
              · simp [him]
              · simp [him, fun h => him (Nat.succ_injective h)]

/-- Reading a concatenated path is sequential reading. -/
theorem getAtPath_append : ∀ (q r : List Step) (t : Json),
    getAtPath t (q ++ r) = (getAtPath t q).bind (fun u => getAtPath u r) := by
  intro q
  induction q with
  | nil => intro r t; cases t <;> rfl
  | cons a q' ih =>
      intro r t
      cases t with
      | obj fs =>
          cases a with
          | key k =>
              simp only [List.cons_append, getAtPath]
              cases List.find? (fun e => e.1 = k) fs with
              | none => rfl
              | some e => exact ih r e.2
          | idx i => rfl
      | arr xs =>
          cases a with
          | key k => rfl
          | idx i =>
              simp only [List.cons_append, getAtPath]
              cases xs[i]? with
              | none => rfl
              | some c => exact ih r c
      | null => rfl
      | bool b => rfl
      | num n => rfl
      | str s => rfl

/-- Reading the empty path returns the node itself. -/
theorem getAtPath_nil (t : Json) : getAtPath t [] = some t := by
  cases t <;> rfl

/-- A scalar has no children. -/
theorem getAtPath_scalar (t : Json) (h : t.isScalar = true) (a : Step) (r : List Step) :
    getAtPath t (a :: r) = none := by
  cases t with
  | obj fs => simp [Json.isScalar] at h
  | arr xs => simp [Json.isScalar] at h
  | null => cases a <;> rfl
  | bool b => cases a <;> rfl
  | num n => cases a <;> rfl
  | str s => cases a <;> rfl

/-- Frame property of the write-back: a write at path `p` does not change
the value read at any path `q` that neither extends nor is extended by
`p`. -/
theorem setAtPath_frame (v : Json) : ∀ (q : List Step) (t : Json) (p : List Step),
    p ≠ [] → ¬ p <+: q → ¬ q <+: p →
    getAtPath (setAtPath v t p) q = getAtPath t q := by
  intro q
  induction q with
  | nil => intro t p _ _ hqp; exact absurd (List.nil_prefix) hqp
  | cons a q' ih =>
      intro t p hp hpq hqp
      cases p with
      | nil => exact absurd rfl hp
      | cons b p' =>
          cases t with
          | obj fs =>
              cases b with
              | key k =>
                  cases a with
                  | key k' =>
                      simp only [setAtPath, getAtPath]
                      by_cases hkk : k = k'
                      · subst hkk
                        rw [objModify_find_eq]
                        have hp' : p' ≠ [] := by
                          intro hnil
                          subst hnil
                          exact hpq ⟨q', rfl⟩
                        have hpq' : ¬ p' <+: q' := by
                          intro hpre
                          rcases hpre with ⟨ext, hext⟩
                          exact hpq ⟨ext, by rw [← hext]; rfl⟩
                        have hqp' : ¬ q' <+: p' := by
                          intro hpre
                          rcases hpre with ⟨ext, hext⟩
                          exact hqp ⟨ext, by rw [← hext]; rfl⟩
                        cases hfind : List.find? (fun e => e.1 = k) fs with
                        | none => rfl
                        | some e =>
                            simp only [Option.map_some]
                            have hpe : p'.isEmpty = false := by
                              cases p' with
                              | nil => exact absurd rfl hp'
                              | cons _ _ => rfl
                            rw [hpe]
                            simp only [Bool.false_eq_true, if_false]
                            exact ih e.2 p' hp' hpq' hqp'
                      · rw [objModify_find_ne _ _ _ hkk]
                  | idx i => simp only [setAtPath, getAtPath]
              | idx i => rfl
          | arr xs =>
              cases b with
              | key k => rfl
              | idx i =>
                  cases a with
                  | key k' => simp only [setAtPath, getAtPath]
                  | idx i' =>
                      simp only [setAtPath, getAtPath]
                      rw [listModify_getElem]
                      by_cases hii : i = i'
                      · subst hii
                        have hp' : p' ≠ [] := by
                          intro hnil
                          subst hnil
                          exact hpq ⟨q', rfl⟩
                        have hpq' : ¬ p' <+: q' := by
                          intro hpre
                          rcases hpre with ⟨ext, hext⟩
                          exact hpq ⟨ext, by rw [← hext]; rfl⟩
                        have hqp' : ¬ q' <+: p' := by
                          intro hpre
                          rcases hpre with ⟨ext, hext⟩
                          exact hqp ⟨ext, by rw [← hext]; rfl⟩
                        rw [if_pos rfl]
                        cases hx : xs[i]? with
                        | none => rfl
                        | some c =>
                            simp only [Option.map_some]
                            have hpe : p'.isEmpty = false := by
                              cases p' with
                              | nil => exact absurd rfl hp'
                              | cons _ _ => rfl
                            rw [hpe]
                            simp only [Bool.false_eq_true, if_false]
                            exact ih c p' hp' hpq' hqp'
                      · rw [if_neg hii]
          | null => rfl
          | bool b' => rfl
          | num n => rfl
          | str s => rfl

end FrameLemmas

section TranslateJsonFrame

/-- The write-back fold of `translate_json` never changes the value read
at a path whose target is a scalar that was not collected (a non-string
scalar or a whitespace-only string). -/
theorem translateJson_frame (w : Nat → String → String) (maxWorkers batchSize : Nat)
    (flatOrder outerOrder : List Nat) (innerOrders : List (List Nat)) (data : Json)
    (hwf : Json.WF data) (q : List Step) (v : Json) (hq : getAtPath data q = some v)
    (hv : v.isScalar = true) (hvs : ∀ s, v = .str s → pyStripEmpty s = true) :
    getAtPath (translateJson w maxWorkers batchSize flatOrder outerOrder innerOrders data)
      q = some v := by
  have key : ∀ (l : List Nat) (t : Json), getAtPath t q = some v →
      getAtPath (l.foldl
        (fun t i =>
          if i < (translatedStrings w maxWorkers batchSize flatOrder outerOrder
                innerOrders data).length ∧
              ¬((collect data).getD i ([], "")).1.isEmpty then
            setAtPath
              (jsonOfOptStr ((translatedStrings w maxWorkers batchSize flatOrder outerOrder
                innerOrders data).getD i none))
              t ((collect data).getD i ([], "")).1
          else t)
        t) q = some v := by
    intro l
    induction l with
    | nil => intro t ht; exact ht
    | cons i rest ih =>
        intro t ht
        rw [List.foldl_cons]
        apply ih
        by_cases hcond : i < (translatedStrings w maxWorkers batchSize flatOrder outerOrder
            innerOrders data).length ∧ ¬((collect data).getD i ([], "")).1.isEmpty
        · rw [if_pos hcond]
          have hi : i < (collect data).length := by
            by_contra hge
            have hdef : (collect data).getD i ([], "") = ([], "") :=
              List.getD_eq_default _ _ (by omega)
            rw [hdef] at hcond
            exact hcond.2 rfl
          have hmem : (collect data).getD i ([], "") ∈ collect data := by
            rw [List.getD_eq_getElem _ _ hi]
            exact List.getElem_mem hi
          have hcorrect := collect_correct data hwf _ hmem
          have hclean := collect_clean data _ hmem
          have hp : ((collect data).getD i ([], "")).1 ≠ [] := by
            intro hnil
            rw [hnil] at hcond
            exact hcond.2 rfl
          have hnpq : ¬ ((collect data).getD i ([], "")).1 <+: q := by
            rintro ⟨ext, hext⟩
            rw [← hext, getAtPath_append, hcorrect] at hq
            cases ext with
            | nil =>
                simp only [List.append_nil, Option.some_bind] at hq
                have hveq : v = Json.str ((collect data).getD i ([], "")).2 := by
                  cases hq
                  rfl
                have := hvs _ hveq
                rw [this] at hclean
                cases hclean
            | cons a ext' =>
                rw [Option.some_bind,
                  getAtPath_scalar (Json.str ((collect data).getD i ([], "")).2) rfl] at hq
                cases hq
          have hnqp : ¬ q <+: ((collect data).getD i ([], "")).1 := by
            rintro ⟨ext, hext⟩
            rw [← hext, getAtPath_append, hq] at hcorrect
            cases ext with
            | nil =>
                simp only [List.append_nil, Option.some_bind, getAtPath_nil] at hcorrect
                have hveq : v = Json.str ((collect data).getD i ([], "")).2 :=
                  Option.some.inj hcorrect
                have := hvs _ hveq
                rw [this] at hclean
                cases hclean
            | cons a ext' =>
                rw [Option.some_bind, getAtPath_scalar v hv] at hcorrect
                cases hcorrect
          rw [setAtPath_frame _ q t _ hp hnpq hnqp]
          exact ht
        · rw [if_neg hcond]
          exact ht
  exact key (List.range (collect data).length) data hq

end TranslateJsonFrame

/-- Claim C9: only non-empty (after trimming) string leaves are collected
into the translatable unit list — numbers, booleans, nulls and
whitespace-only strings never appear in it — and every such non-collected
leaf reads back bit-identical from the output tree of `translate_json`:
only the collected string leaves can differ. -/
theorem C9_structural_passthrough (w : Nat → String → String) (maxWorkers batchSize : Nat)
    (flatOrder outerOrder : List Nat) (innerOrders : List (List Nat)) (data : Json)
    (hwf : Json.WF data) (q : List Step) (v : Json) (hq : getAtPath data q = some v)
    (hv : v = .null ∨ (∃ b, v = .bool b) ∨ (∃ n, v = .num n) ∨
      (∃ s, v = .str s ∧ pyStripEmpty s = true)) :
    (∀ pr ∈ collect data, pyStripEmpty pr.2 = false) ∧
    getAtPath (translateJson w maxWorkers batchSize flatOrder outerOrder innerOrders data)
      q = some v := by
  have hscalar : v.isScalar = true := by
    rcases hv with h | ⟨b, h⟩ | ⟨n, h⟩ | ⟨s, h, _⟩ <;> rw [h] <;> rfl
  have hvs : ∀ s, v = .str s → pyStripEmpty s = true := by
    intro s hs
    rcases hv with h | ⟨b, h⟩ | ⟨n, h⟩ | ⟨s', h, hws⟩ <;> rw [hs] at h
    · cases h
    · cases h
    · cases h
    · cases h
      exact hws
  exact ⟨fun pr hpr => collect_clean data pr hpr,
    translateJson_frame w maxWorkers batchSize flatOrder outerOrder innerOrders data hwf
      q v hq hscalar hvs⟩

/-- Witness for C9 at a concrete tree: the number leaf and the
whitespace-only string leaf survive translation unchanged. -/
theorem C9_structural_passthrough_witness :
    getAtPath
      (translateJson (fun _ s => s ++ "!") 1 0 [] [] []
        (Json.obj [("a", .str "hi"), ("n", .num 7), ("w", .str " ")]))
      [Step.key "n"] = some (.num 7) ∧
    getAtPath
      (translateJson (fun _ s => s ++ "!") 1 0 [] [] []
        (Json.obj [("a", .str "hi"), ("n", .num 7), ("w", .str " ")]))
      [Step.key "w"] = some (.str " ") := by
  constructor
  · exact (C9_structural_passthrough (fun _ s => s ++ "!") 1 0 [] [] []
      (Json.obj [("a", .str "hi"), ("n", .num 7), ("w", .str " ")])
      (by simp [Json.WF, Json.WFObj])
      [Step.key "n"] (.num 7) rfl (Or.inr (Or.inr (Or.inl ⟨7, rfl⟩)))).2
  · exact (C9_structural_passthrough (fun _ s => s ++ "!") 1 0 [] [] []
      (Json.obj [("a", .str "hi"), ("n", .num 7), ("w", .str " ")])
      (by simp [Json.WF, Json.WFObj])
      [Step.key "w"] (.str " ") rfl
      (Or.inr (Or.inr (Or.inr ⟨" ", rfl, by decide⟩)))).2

section WorkerLemmas

/-- Reduction of `_translate_single_indexed` on a cache miss (no stored
row, `get` not raising). -/
theorem tsi_reduce_none (ops : CacheOps) (backend : String → Except Unit String)
    (useCache : Bool) (glossary : List (String × String)) (srcLang tgtLang : String)
    (st : WState) (idx : Nat) (text : String)
    (hstrip : pyStripEmpty text = false)
    (hget : (if useCache then ops.getE st.cache text srcLang tgtLang else .ok none) =
      .ok none) :
    translateSingleIndexed ops backend useCache glossary srcLang tgtLang st idx text =
      .ok (workerMiss ops backend useCache glossary srcLang tgtLang st idx text) := by
  unfold translateSingleIndexed
  rw [if_neg (by simp [hstrip]), hget]

/-- Reduction of `_translate_single_indexed` on a stored row: the Python
truthiness test `if cached:` treats an empty stored string as a miss. -/
theorem tsi_reduce_some (ops : CacheOps) (backend : String → Except Unit String)
    (useCache : Bool) (glossary : List (String × String)) (srcLang tgtLang : String)
    (st : WState) (idx : Nat) (text : String) (c : String)
    (hstrip : pyStripEmpty text = false)
    (hget : (if useCache then ops.getE st.cache text srcLang tgtLang else .ok none) =
      .ok (some c)) :
    translateSingleIndexed ops backend useCache glossary srcLang tgtLang st idx text =
      if c = "" then
        .ok (workerMiss ops backend useCache glossary srcLang tgtLang st idx text)
      else .ok ((idx, c), { st with cacheHits := st.cacheHits + 1 }) := by
  unfold translateSingleIndexed
  rw [if_neg (by simp [hstrip]), hget]

/-- Reduction of `translate_text` on a cache miss. -/
theorem tt_reduce_none (ops : CacheOps) (backend : String → Except Unit String)
    (useCache : Bool) (srcLang tgtLang : String) (st : WState) (text : String)
    (hstrip : pyStripEmpty text = false)
    (hget : (if useCache then ops.getE st.cache text srcLang tgtLang else .ok none) =
      .ok none) :
    translateText ops backend useCache srcLang tgtLang st text =
      .ok (textMiss ops backend useCache srcLang tgtLang st text) := by
  unfold translateText
  rw [if_neg (by simp [hstrip]), hget]

/-- Reduction of `translate_text` on a stored row (empty string rows are
treated as misses by the truthiness test). -/
theorem tt_reduce_some (ops : CacheOps) (backend : String → Except Unit String)
    (useCache : Bool) (srcLang tgtLang : String) (st : WState) (text : String)
    (c : String) (hstrip : pyStripEmpty text = false)
    (hget : (if useCache then ops.getE st.cache text srcLang tgtLang else .ok none) =
      .ok (some c)) :
    translateText ops backend useCache srcLang tgtLang st text =
      if c = "" then .ok (textMiss ops backend useCache srcLang tgtLang st text)
      else .ok (c, { st with cacheHits := st.cacheHits + 1 }) := by
  unfold translateText
  rw [if_neg (by simp [hstrip]), hget]

/-- `realCacheOps` never raises on `get`. -/
theorem realCacheOps_get (useCache : Bool) (st : WState) (text srcLang tgtLang : String) :
    (if useCache then realCacheOps.getE st.cache text srcLang tgtLang else .ok none) =
      .ok (if useCache then cacheLookup st.cache text srcLang tgtLang else none) := by
  cases useCache <;> rfl

end WorkerLemmas

/-- Claim C3: a backend exception never propagates out of
`_translate_single_indexed` (with non-raising cache operations the worker
always returns `.ok`); when the unit misses the cache and the backend
raises, the worker returns the original, untranslated text with the state
unchanged; and the failure does not abort the pool or the pass — in the
parallel pipeline every unit `j` still lands at its own index, with the
failing units carrying their original text. -/
theorem C3_backend_failure_isolated (backend : String → Except Unit String)
    (useCache : Bool) (glossary : List (String × String)) (srcLang tgtLang : String)
    (st : WState) (idx : Nat) (text : String)
    (strs : List String) (order : List Nat) (j : Nat) (hj : j < strs.length)
    (hcov : ∀ m, m < strs.length → m ∈ order) :
    (∃ out, translateSingleIndexed realCacheOps backend useCache glossary srcLang tgtLang
        st idx text = .ok out) ∧
    (pyStripEmpty text = false →
      (if useCache then cacheLookup st.cache text srcLang tgtLang else none) = none →
      backend (extractPlaceholdersS text).1 = .error () →
      translateSingleIndexed realCacheOps backend useCache glossary srcLang tgtLang
        st idx text = .ok ((idx, text), st)) ∧
    ((runFlat (fun _ s => wOf backend glossary s) strs order).getD j none =
      some (wOf backend glossary (strs.getD j ""))) ∧
    (backend (extractPlaceholdersS (strs.getD j "")).1 = .error () →
      (runFlat (fun _ s => wOf backend glossary s) strs order).getD j none =
        some (strs.getD j "")) := by
  refine ⟨?_, ?_, ?_, ?_⟩
  · by_cases hstrip : pyStripEmpty text
    · exact ⟨_, by unfold translateSingleIndexed; rw [if_pos hstrip]⟩
    · have hget := realCacheOps_get useCache st text srcLang tgtLang
      cases hlook : (if useCache then cacheLookup st.cache text srcLang tgtLang
          else none) with
      | none =>
          rw [hlook] at hget
          exact ⟨_, tsi_reduce_none realCacheOps backend useCache glossary srcLang tgtLang
            st idx text (by simpa using hstrip) hget⟩
      | some c =>
          rw [hlook] at hget
          by_cases hc : c = ""
          · exact ⟨_, by
              rw [tsi_reduce_some realCacheOps backend useCache glossary srcLang tgtLang
                st idx text c (by simpa using hstrip) hget, if_pos hc]⟩
          · exact ⟨_, by
              rw [tsi_reduce_some realCacheOps backend useCache glossary srcLang tgtLang
                st idx text c (by simpa using hstrip) hget, if_neg hc]⟩
  · intro hstrip hmiss hfail
    have hget := realCacheOps_get useCache st text srcLang tgtLang
    rw [hmiss] at hget
    rw [tsi_reduce_none realCacheOps backend useCache glossary srcLang tgtLang
      st idx text hstrip hget]
    simp only [workerMiss]
    rw [hfail]
  · exact runFlat_getD _ strs order j hj (hcov j hj)
  · intro hfail
    rw [runFlat_getD _ strs order j hj (hcov j hj)]
    unfold wOf
    by_cases hstrip : pyStripEmpty (strs.getD j "")
    · rw [if_pos hstrip]
    · rw [if_neg hstrip]
      simp only [hfail]

/-- Witness for C3: an always-failing backend leaves both units of a
two-unit pass at their own indices with their original text, and the
worker returns `.ok` with the original text. -/
theorem C3_backend_failure_isolated_witness :
    translateSingleIndexed realCacheOps (fun _ => .error ()) true [] "en" "es"
      ⟨[], 0, 0⟩ 5 "hello" = .ok ((5, "hello"), ⟨[], 0, 0⟩) ∧
    (runFlat (fun _ s => wOf (fun _ => .error ()) [] s) ["a", "b"] [1, 0]).getD 0 none =
      some "a" := by
  have h := C3_backend_failure_isolated (fun _ => .error ()) true [] "en" "es"
    ⟨[], 0, 0⟩ 5 "hello" ["a", "b"] [1, 0] 0 (by decide) (by decide)
  exact ⟨h.2.1 (by rfl) (by rfl) (by rfl), h.2.2.2 (by rfl)⟩

/-- Claim C10: a stored cache row whose translation is the empty string is
treated as a cache miss by both workers — the `if cached:` truthiness test
rejects it — so the cached empty translation is not returned, the
cache-hit counter is not incremented (the miss path never touches it), and
the unit goes through the miss path, which re-invokes the backend. -/
theorem C10_cached_empty_is_miss (backend : String → Except Unit String)
    (glossary : List (String × String)) (srcLang tgtLang : String)
    (st : WState) (idx : Nat) (text : String)
    (hstrip : pyStripEmpty text = false)
    (hlook : cacheLookup st.cache text srcLang tgtLang = some "") :
    translateSingleIndexed realCacheOps backend true glossary srcLang tgtLang st idx text =
      .ok (workerMiss realCacheOps backend true glossary srcLang tgtLang st idx text) ∧
    translateText realCacheOps backend true srcLang tgtLang st text =
      .ok (textMiss realCacheOps backend true srcLang tgtLang st text) ∧
    (workerMiss realCacheOps backend true glossary srcLang tgtLang st idx text).2.cacheHits
      = st.cacheHits ∧
    (textMiss realCacheOps backend true srcLang tgtLang st text).2.cacheHits
      = st.cacheHits := by
  have hget : (if true then realCacheOps.getE st.cache text srcLang tgtLang
      else .ok none) = .ok (some "") := by
    simpa [realCacheOps] using hlook
  refine ⟨?_, ?_, ?_, ?_⟩
  · rw [tsi_reduce_some realCacheOps backend true glossary srcLang tgtLang st idx text ""
      hstrip hget, if_pos rfl]
  · rw [tt_reduce_some realCacheOps backend true srcLang tgtLang st text "" hstrip hget,
      if_pos rfl]
  · simp only [workerMiss]
    cases hb : backend (extractPlaceholdersS text).1 with
    | error e => rfl
    | ok t => simp [realCacheOps]
  · simp only [textMiss]
    cases hb : backend (extractPlaceholdersS text).1 with
    | error e => rfl
    | ok t => simp [realCacheOps]

/-- Witness for C10: with a stored empty translation for "hi", the worker
re-translates through the backend instead of returning the empty row, and
the hit counter stays at 0. -/
theorem C10_cached_empty_is_miss_witness :
    translateSingleIndexed realCacheOps (fun s => .ok (s ++ "X")) true [] "en" "es"
      ⟨[(("hi", "en", "es"), "")], 0, 0⟩ 2 "hi" =
      .ok (workerMiss realCacheOps (fun s => .ok (s ++ "X")) true [] "en" "es"
        ⟨[(("hi", "en", "es"), "")], 0, 0⟩ 2 "hi") ∧
    (workerMiss realCacheOps (fun s => .ok (s ++ "X")) true [] "en" "es"
      ⟨[(("hi", "en", "es"), "")], 0, 0⟩ 2 "hi").2.cacheHits = 0 := by
  have h := C10_cached_empty_is_miss (fun s => .ok (s ++ "X")) [] "en" "es"
    ⟨[(("hi", "en", "es"), "")], 0, 0⟩ 2 "hi" (by rfl) (by rfl)
  exact ⟨h.1, h.2.2.1⟩

/-- C5 counterexample: `translate_text` is a worker entry point whose
cache-miss path does **not** apply the glossary post-processor: with
glossary `{"hello": "bonjour"}` and an identity backend, translating
"hello" returns "hello", not the glossary-applied "bonjour". -/
theorem C5_counterexample :
    translateText realCacheOps (fun s => .ok s) true "en" "fr" ⟨[], 0, 0⟩ "hello" =
      .ok ("hello", ⟨[(("hello", "en", "fr"), "hello")], 0, 1⟩) ∧
    applyGlossary [("hello", "bonjour")] "hello" = "bonjour" ∧
    ("hello" : String) ≠ "bonjour" := by
  refine ⟨by rfl, by rfl, by decide⟩

/-- Claim C5 (amended): the worker follows exactly these steps —
empty/whitespace-only input is returned unchanged without caching; on a
stored non-empty cache row the cached text is returned; on a miss the
worker extracts placeholders, invokes the backend, restores placeholders,
and, *only in `_translate_single_indexed`* (the entry point used by the
pipeline), applies the glossary post-processor, then writes the result to
the cache and returns it.  `translate_text`'s cache-miss path omits the
glossary step (this is the correction: the original claim asserted the
glossary is applied on every cache-miss path of every worker entry
point). -/
theorem C5_worker_steps (backend : String → Except Unit String)
    (glossary : List (String × String)) (srcLang tgtLang : String)
    (st : WState) (idx : Nat) (text : String) :
    (pyStripEmpty text = true →
      translateSingleIndexed realCacheOps backend true glossary srcLang tgtLang st idx
          text = .ok ((idx, text), st) ∧
      translateText realCacheOps backend true srcLang tgtLang st text = .ok (text, st)) ∧
    (∀ c, pyStripEmpty text = false →
      cacheLookup st.cache text srcLang tgtLang = some c → c ≠ "" →
      translateSingleIndexed realCacheOps backend true glossary srcLang tgtLang st idx
          text = .ok ((idx, c), { st with cacheHits := st.cacheHits + 1 }) ∧
      translateText realCacheOps backend true srcLang tgtLang st text =
        .ok (c, { st with cacheHits := st.cacheHits + 1 })) ∧
    (∀ t, pyStripEmpty text = false →
      cacheLookup st.cache text srcLang tgtLang = none →
      backend (extractPlaceholdersS text).1 = .ok t →
      translateSingleIndexed realCacheOps backend true glossary srcLang tgtLang st idx
          text =
        .ok ((idx,
            (if glossary.isEmpty then
              (if (extractPlaceholdersS text).2.isEmpty then t
               else restorePlaceholdersS t (extractPlaceholdersS text).2)
             else applyGlossary glossary
              (if (extractPlaceholdersS text).2.isEmpty then t
               else restorePlaceholdersS t (extractPlaceholdersS text).2))),
          { st with
            cache := cacheInsert st.cache text srcLang tgtLang
              (if glossary.isEmpty then
                (if (extractPlaceholdersS text).2.isEmpty then t
                 else restorePlaceholdersS t (extractPlaceholdersS text).2)
               else applyGlossary glossary
                (if (extractPlaceholdersS text).2.isEmpty then t
                 else restorePlaceholdersS t (extractPlaceholdersS text).2)),
            translationCount := st.translationCount + 1 }) ∧
      translateText realCacheOps backend true srcLang tgtLang st text =
        .ok ((if (extractPlaceholdersS text).2.isEmpty then t
              else restorePlaceholdersS t (extractPlaceholdersS text).2),
          { st with
            cache := cacheInsert st.cache text srcLang tgtLang
              (if (extractPlaceholdersS text).2.isEmpty then t
               else restorePlaceholdersS t (extractPlaceholdersS text).2),
            translationCount := st.translationCount + 1 })) := by
  refine ⟨?_, ?_, ?_⟩
  · intro hstrip
    constructor
    · unfold translateSingleIndexed
      rw [if_pos hstrip]
    · unfold translateText
      rw [if_pos hstrip]
  · intro c hstrip hlook hc
    have hget : (if true then realCacheOps.getE st.cache text srcLang tgtLang
        else .ok none) = .ok (some c) := by
      simpa [realCacheOps] using hlook
    constructor
    · rw [tsi_reduce_some realCacheOps backend true glossary srcLang tgtLang st idx text c
        hstrip hget, if_neg hc]
    · rw [tt_reduce_some realCacheOps backend true srcLang tgtLang st text c hstrip hget,
        if_neg hc]
  · intro t hstrip hlook hb
    have hget : (if true then realCacheOps.getE st.cache text srcLang tgtLang
        else .ok none) = .ok none := by
      simpa [realCacheOps] using hlook
    constructor
    · rw [tsi_reduce_none realCacheOps backend true glossary srcLang tgtLang st idx text
        hstrip hget]
      simp [workerMiss, hb, realCacheOps]
    · rw [tt_reduce_none realCacheOps backend true srcLang tgtLang st text hstrip hget]
      simp [textMiss, hb, realCacheOps]

/-- Witness for C5 at concrete inputs: a placeholder-bearing miss in the
indexed worker gets placeholders restored and the glossary applied; the
same text through `translate_text` keeps the glossary unapplied. -/
theorem C5_worker_steps_witness :
    translateSingleIndexed realCacheOps (fun s => .ok s) true [("hello", "bonjour")]
      "en" "fr" ⟨[], 0, 0⟩ 0 "hello {{name}}" =
      .ok ((0, "bonjour {{name}}"),
        ⟨[(("hello {{name}}", "en", "fr"), "bonjour {{name}}")], 0, 1⟩) ∧
    translateText realCacheOps (fun s => .ok s) true "en" "fr" ⟨[], 0, 0⟩
        "hello {{name}}" =
      .ok ("hello {{name}}", ⟨[(("hello {{name}}", "en", "fr"), "hello {{name}}")], 0, 1⟩) := by
  have h := (C5_worker_steps (fun s => .ok s) [("hello", "bonjour")] "en" "fr"
    ⟨[], 0, 0⟩ 0 "hello {{name}}").2.2 "hello __PLACEHOLDER_0__" (by rfl) (by rfl) (by rfl)
  refine ⟨?_, ?_⟩
  · rw [h.1]
    rfl
  · rw [h.2]
    rfl

/-- C6 counterexample: a raising cache `get` is *not* treated as a cache
miss — `cache.get` runs outside the worker's `try` block, so the
exception propagates out of `_translate_single_indexed`, and a sequential
pass is aborted by it. -/
theorem C6_counterexample :
    translateSingleIndexed ⟨fun _ _ _ _ => .error (), fun c _ _ _ _ => .ok c⟩
      (fun s => .ok s) true [] "en" "es" ⟨[], 0, 0⟩ 0 "hello" = .error () ∧
    runSeqE
      (fun i s =>
        (translateSingleIndexed ⟨fun _ _ _ _ => .error (), fun c _ _ _ _ => .ok c⟩
          (fun s => .ok s) true [] "en" "es" ⟨[], 0, 0⟩ i s).map (fun r => r.1.2))
      ["hello"] = .error () := by
  exact ⟨by rfl, by rfl⟩

/-- Helper for C6: the sequential `foldlM` loop aborts as soon as any unit
raises. -/
theorem runSeqE_fold_error (wE : Nat → String → Except Unit String) (strs : List String) :
    ∀ (l : List Nat) (arr : List (Option String)),
      (∃ m ∈ l, wE m (strs.getD m "") = .error ()) →
      (l.foldlM (fun arr i => (wE i (strs.getD i "")).map (fun t => arr.set i (some t)))
        arr : Except Unit (List (Option String))) = .error () := by
  intro l
  induction l with
  | nil => intro arr h; rcases h with ⟨m, hm, _⟩; cases hm
  | cons i rest ih =>
      intro arr h
      rw [List.foldlM_cons]
      cases hw : wE i (strs.getD i "") with
      | error e => rfl
      | ok t =>
          show (rest.foldlM _ (arr.set i (some t)) : Except Unit _) = .error ()
          apply ih
          rcases h with ⟨m, hm, herr⟩
          rcases List.mem_cons.mp hm with rfl | hm'
          · rw [hw] at herr
            cases herr
          · exact ⟨m, hm', herr⟩

/-- Claim C6 (amended): a cache error is *not* uniformly treated as a
cache miss.  A raising `get` (which runs outside the worker's `try`)
propagates out of the worker: the parallel pool's `try` around
`future.result()` catches it and substitutes the unit's original text, so
the pass continues, but the sequential loop calls the worker directly and
the pass is aborted.  A raising `set` (inside the `try`, after a
successful backend translation) makes the worker return the original,
untranslated text for that unit, uncached, without aborting the pass.
(The original claim said any cache error is treated as a miss with
translation still proceeding through the backend and the pass never
aborted.) -/
theorem C6_cache_error_behavior (ops : CacheOps) (backend : String → Except Unit String)
    (glossary : List (String × String)) (srcLang tgtLang : String)
    (st : WState) (idx : Nat) (text : String)
    (wE : Nat → String → Except Unit String) (strs : List String) (order : List Nat)
    (j : Nat) :
    (pyStripEmpty text = false → ops.getE st.cache text srcLang tgtLang = .error () →
      translateSingleIndexed ops backend true glossary srcLang tgtLang st idx text =
        .error ()) ∧
    (j < strs.length → j ∈ order →
      (runFlatE wE strs order).getD j none =
        some (match wE j (strs.getD j "") with
          | .ok t => t
          | .error _ => strs.getD j "")) ∧
    ((∃ m, m < strs.length ∧ wE m (strs.getD m "") = .error ()) →
      runSeqE wE strs = .error ()) ∧
    (∀ t, pyStripEmpty text = false →
      ops.getE st.cache text srcLang tgtLang = .ok none →
      backend (extractPlaceholdersS text).1 = .ok t →
      ops.setE st.cache text srcLang tgtLang
        (if glossary.isEmpty then
          (if (extractPlaceholdersS text).2.isEmpty then t
           else restorePlaceholdersS t (extractPlaceholdersS text).2)
         else applyGlossary glossary
          (if (extractPlaceholdersS text).2.isEmpty then t
           else restorePlaceholdersS t (extractPlaceholdersS text).2)) = .error () →
      translateSingleIndexed ops backend true glossary srcLang tgtLang st idx text =
        .ok ((idx, text), st)) := by
  refine ⟨?_, ?_, ?_, ?_⟩
  · intro hstrip herr
    unfold translateSingleIndexed
    rw [if_neg (by simp [hstrip])]
    rw [if_pos rfl, herr]
  · intro hj horder
    unfold runFlatE
    have hbody : ∀ (arr : List (Option String)) (i : Nat),
        (match wE i (strs.getD i "") with
          | .ok t => arr.set i (some t)
          | .error _ => arr.set i (some (strs.getD i ""))) =
        arr.set i (some (match wE i (strs.getD i "") with
          | .ok t => t
          | .error _ => strs.getD i "")) := by
      intro arr i
      cases wE i (strs.getD i "") <;> rfl
    have hfun : (fun (arr : List (Option String)) i =>
        match wE i (strs.getD i "") with
        | .ok t => arr.set i (some t)
        | .error _ => arr.set i (some (strs.getD i ""))) =
      (fun arr i => arr.set i (some (match wE i (strs.getD i "") with
        | .ok t => t
        | .error _ => strs.getD i ""))) := by
      funext arr i
      exact hbody arr i
    rw [hfun, foldl_set_getD]
    simp [horder, hj]
  · intro ⟨m, hm, herr⟩
    unfold runSeqE
    exact runSeqE_fold_error wE strs _ _ ⟨m, by simp [List.mem_range, hm], herr⟩
  · intro t hstrip hlook hb hset
    have hget : (if true then ops.getE st.cache text srcLang tgtLang else .ok none) =
        .ok none := by simpa using hlook
    rw [tsi_reduce_none ops backend true glossary srcLang tgtLang st idx text hstrip hget]
    simp only [workerMiss, hb]
    rw [hset]
    simp

/-- Witness for C6: a raising `set` leaves the unit at its original text
without raising; a raising worker unit in the parallel pool falls back to
the original text while the neighbouring unit is still translated. -/
theorem C6_cache_error_behavior_witness :
    translateSingleIndexed ⟨fun _ _ _ _ => .ok none, fun _ _ _ _ _ => .error ()⟩
      (fun s => .ok (s ++ "X")) true [] "en" "es" ⟨[], 0, 0⟩ 4 "hi" =
      .ok ((4, "hi"), ⟨[], 0, 0⟩) ∧
    (runFlatE (fun i s => if i = 0 then .error () else .ok (s ++ "X")) ["a", "b"]
      [0, 1]).getD 0 none = some "a" ∧
    (runFlatE (fun i s => if i = 0 then .error () else .ok (s ++ "X")) ["a", "b"]
      [0, 1]).getD 1 none = some "bX" ∧
    runSeqE (fun i s => if i = 0 then .error () else .ok (s ++ "X")) ["a", "b"] =
      .error () := by
  have h1 := (C6_cache_error_behavior
    ⟨fun _ _ _ _ => .ok none, fun _ _ _ _ _ => .error ()⟩ (fun s => .ok (s ++ "X"))
    [] "en" "es" ⟨[], 0, 0⟩ 4 "hi"
    (fun i s => if i = 0 then .error () else .ok (s ++ "X")) ["a", "b"] [0, 1] 0)
  have h2 := (C6_cache_error_behavior
    ⟨fun _ _ _ _ => .ok none, fun _ _ _ _ _ => .error ()⟩ (fun s => .ok (s ++ "X"))
    [] "en" "es" ⟨[], 0, 0⟩ 4 "hi"
    (fun i s => if i = 0 then .error () else .ok (s ++ "X")) ["a", "b"] [0, 1] 1)
  refine ⟨h1.2.2.2 "hiX" (by rfl) (by rfl) (by rfl) (by rfl), ?_, ?_, ?_⟩
  · rw [h1.2.1 (by decide) (by decide)]
    rfl
  · rw [h2.2.1 (by decide) (by decide)]
    rfl
  · exact h1.2.2.1 ⟨0, by decide, by rfl⟩

section DiffLemmas

mutual

/-- `get_structure` never reads scalar values: trees of equal shape yield
the same path set. -/
theorem shapeEq_struct : ∀ {t1 t2 : Json}, ShapeEq t1 t2 → ∀ (path : String),
    getStructure path t1 = getStructure path t2
  | t1, t2, .scalar ha hb, path => by
      have h1 : getStructure path t1 = [] := by
        cases t1 <;> first | rfl | (simp [Json.isScalar] at ha)
      have h2 : getStructure path t2 = [] := by
        cases t2 <;> first | rfl | (simp [Json.isScalar] at hb)
      rw [h1, h2]
  | _, _, .arr harr, path => shapeEqArr_struct harr path 0
  | _, _, .obj hobj, path => shapeEqObj_struct hobj path

/-- `shapeEq_struct` for array items. -/
theorem shapeEqArr_struct : ∀ {xs ys : List Json}, ShapeEqArr xs ys →
    ∀ (path : String) (i : Nat), structArr path i xs = structArr path i ys
  | _, _, .nil, _, _ => rfl
  | _, _, .cons hx hxs, path, i => by
      rw [structArr, structArr, shapeEq_struct hx, shapeEqArr_struct hxs]

/-- `shapeEq_struct` for dict fields. -/
theorem shapeEqObj_struct : ∀ {fs gs : List (String × Json)}, ShapeEqObj fs gs →
    ∀ (path : String), structObj path fs = structObj path gs
  | _, _, .nil, _ => rfl
  | [], _ :: _, h, _ => by cases h
  | _ :: _, [], h, _ => by cases h
  | e :: es, f :: fs, .cons hk hv hrest, path => by
      obtain ⟨k, v⟩ := e
      obtain ⟨k', v'⟩ := f
      have hkk : k = k' := hk
      subst hkk
      rw [structObj, structObj, shapeEq_struct hv, shapeEqObj_struct hrest]

end

/-- Filtering a list by non-membership in itself leaves nothing. -/
theorem filter_self_contains (l : List String) :
    l.filter (fun p => !l.contains p) = [] := by
  rw [List.filter_eq_nil_iff]
  intro a ha
  simpa using ha

end DiffLemmas

/-- C7 counterexample: the structural diff identifies paths by *all*
structural routes (`get_structure` adds every dict key and list index,
including interior nodes and empty containers), not by leaf paths: these
two trees have exactly the same set of leaf paths (`["a"]`) and differ in
the leaf value at `a`, yet the diff reports the new path `"b"` (an empty
dict), contradicting the claim that it reports zero new and zero removed
paths for such pairs. -/
theorem C7_counterexample :
    leafPaths "" (Json.obj [("a", .str "x"), ("b", .obj [])]) =
      leafPaths "" (Json.obj [("a", .str "y")]) ∧
    getAtPath (Json.obj [("a", .str "x"), ("b", .obj [])]) [.key "a"] =
      some (.str "x") ∧
    getAtPath (Json.obj [("a", .str "y")]) [.key "a"] = some (.str "y") ∧
    ("x" : String) ≠ "y" ∧
    newKeys (Json.obj [("a", .str "x"), ("b", .obj [])]) (Json.obj [("a", .str "y")]) =
      ["b"] := by
  exact ⟨rfl, rfl, rfl, by decide, rfl⟩

/-- Claim C7 (amended): the structural diff identifies a path only by its
structural route over *all* node paths (every dict key and array index at
every level, as built by `get_structure`) and set-differences the two
trees' path sets without comparing leaf values: for every pair of trees of
equal shape — identical keys and array lengths everywhere, hence the same
node-path set — that differ only in scalar leaf values, the diff reports
zero new paths and zero removed paths.  (The original claim's
"same set of leaf paths" is not sufficient: paths of empty containers and
interior nodes also count.) -/
theorem C7_structural_diff (t1 t2 : Json) (h : ShapeEq t1 t2) :
    newKeys t1 t2 = [] ∧ removedKeys t1 t2 = [] := by
  have hs := shapeEq_struct h ""
  unfold newKeys removedKeys
  rw [hs]
  exact ⟨filter_self_contains _, filter_self_contains _⟩

/-- Witness for C7: same shape, different scalar leaf values (including a
type change), empty diff in both directions. -/
theorem C7_structural_diff_witness :
    newKeys (Json.obj [("a", .str "x"), ("b", .num 1)])
      (Json.obj [("a", .str "y"), ("b", .null)]) = [] ∧
    removedKeys (Json.obj [("a", .str "x"), ("b", .num 1)])
      (Json.obj [("a", .str "y"), ("b", .null)]) = [] := by
  exact C7_structural_diff _ _
    (.obj (.cons rfl (.scalar rfl rfl) (.cons rfl (.scalar rfl rfl) .nil)))

/-- C4 counterexample: the diff-mode guard is the Python truthiness test
`if self.diff_mode and existing_data:`.  With a prior output that loads
fine but is falsy (here the JSON document `""`), and a source whose
structural diff against it reports zero new paths, the pipeline is *not*
skipped: the source is re-translated (one unit dispatched) and the prior
output is not reused. -/
theorem C4_counterexample :
    newKeys (.str "hello") (.str "") = [] ∧
    translateFileCore (translateJson (fun _ s => s ++ "!") 1 0 [] [] []) true
      (some (.str "")) (.str "hello") = (.str "hello", 1) ∧
    Json.str "hello" ≠ Json.str "" := by
  refine ⟨rfl, rfl, by simp⟩

/-- Claim C4 (amended): in diff mode, when a prior output exists, parses
to a *truthy* JSON value (non-null, non-false, non-zero, non-empty — the
`if self.diff_mode and existing_data:` truthiness guard), and the
structural diff reports zero new paths, the pipeline is skipped entirely:
the prior output tree is reused verbatim and zero translatable units are
dispatched (hence zero backend translation calls), even if leaf values
differ or paths were removed. -/
theorem C4_diff_skip (pipe : Json → Json) (data e : Json) (htruthy : e.truthy = true)
    (hnew : newKeys data e = []) :
    translateFileCore pipe true (some e) data = (e, 0) := by
  unfold translateFileCore
  show (if true = true ∧ e.truthy = true then
      if (newKeys data e).isEmpty = true then (e, 0)
      else (pipe data, (collect data).length)
    else (pipe data, (collect data).length)) = (e, 0)
  rw [if_pos ⟨rfl, htruthy⟩, if_pos (by simp [hnew])]

/-- Witness for C4: same structure, changed leaf value, prior output
reused with zero dispatched units. -/
theorem C4_diff_skip_witness :
    translateFileCore (translateJson (fun _ s => s ++ "!") 1 0 [] [] []) true
      (some (.obj [("a", .str "hola")])) (.obj [("a", .str "hello")]) =
      (.obj [("a", .str "hola")], 0) := by
  exact C4_diff_skip _ _ _ (by rfl) (by rfl)

section HeapLemmas

/-- Allocation does not disturb lookups at existing addresses. -/
theorem heapGet_alloc_lt (h : Heap) (v : HVal) (b : Nat) (hb : b < h.next) :
    heapGet (heapAlloc h v).1 b = heapGet h b := by
  have hne : ((h.next, v).1 == b) = false := by
    simp only [beq_eq_false_iff_ne]
    exact fun h' => Nat.ne_of_lt hb h'.symm
  simp [heapGet, heapAlloc, List.find?_cons_of_neg, hne]

/-- Rebinding one address does not disturb lookups at other addresses. -/
theorem heapGet_set_ne (h : Heap) (a b : Nat) (v : HVal) (hne : b ≠ a) :
    heapGet (heapSet h a v) b = heapGet h b := by
  have hne' : ((a, v).1 == b) = false := by
    simp only [beq_eq_false_iff_ne]
    exact fun h' => hne h'.symm
  simp [heapGet, heapSet, List.find?_cons_of_neg, hne']

/-- A successful lookup exhibits a binding of the store. -/
theorem heapGet_mem (h : Heap) (a : Nat) (v : HVal) (hv : heapGet h a = some v) :
    (a, v) ∈ h.store := by
  unfold heapGet at hv
  rcases Option.map_eq_some'.mp hv with ⟨e, he, hev⟩
  have hm := List.mem_of_find?_eq_some he
  have hp := List.find?_some he
  obtain ⟨e1, e2⟩ := e
  simp only at hev
  have h1 : e1 = a := by simpa using hp
  subst h1
  subst hev
  exact hm

/-- Allocating a node whose children lie in the region keeps the region
closed. -/
theorem heapAlloc_region (h : Heap) (v : HVal) (n : Nat) (hreg : regionClosed h n)
    (hv : ∀ c ∈ v.children, n ≤ c) : regionClosed (heapAlloc h v).1 n := by
  intro e he hle c hc
  have he' : e ∈ (h.next, v) :: h.store := he
  rcases List.mem_cons.mp he' with he2 | he2
  · rw [he2] at hc
    exact hv c hc
  · exact hreg e he2 hle c hc

mutual

/-- `allocJson` roots the fresh tree at or above the old `next` and below
the new `next`, preserves every lookup below the old `next`, and adds only
bindings at fresh addresses whose children are themselves fresh. -/
theorem allocJson_spec : ∀ (j : Json) (h : Heap),
    h.next ≤ (allocJson j h).2 ∧ (allocJson j h).2 < (allocJson j h).1.next ∧
    (∀ b, b < h.next → heapGet (allocJson j h).1 b = heapGet h b) ∧
    (∀ e ∈ (allocJson j h).1.store, e ∈ h.store ∨
      (h.next ≤ e.1 ∧ ∀ c ∈ e.2.children, h.next ≤ c))
  | .null, h => by
      refine ⟨Nat.le_refl _, Nat.lt_succ_self _,
        fun b hb => heapGet_alloc_lt h _ b hb, ?_⟩
      intro e he
      have he' : e ∈ (h.next, HVal.null) :: h.store := he
      rcases List.mem_cons.mp he' with he2 | he2
      · refine Or.inr ⟨by rw [he2], ?_⟩
        intro c hc
        rw [he2] at hc
        simp [HVal.children] at hc
      · exact Or.inl he2
  | .bool b0, h => by
      refine ⟨Nat.le_refl _, Nat.lt_succ_self _,
        fun b hb => heapGet_alloc_lt h _ b hb, ?_⟩
      intro e he
      have he' : e ∈ (h.next, HVal.bool b0) :: h.store := he
      rcases List.mem_cons.mp he' with he2 | he2
      · refine Or.inr ⟨by rw [he2], ?_⟩
        intro c hc
        rw [he2] at hc
        simp [HVal.children] at hc
      · exact Or.inl he2
  | .num n0, h => by
      refine ⟨Nat.le_refl _, Nat.lt_succ_self _,
        fun b hb => heapGet_alloc_lt h _ b hb, ?_⟩
      intro e he
      have he' : e ∈ (h.next, HVal.num n0) :: h.store := he
      rcases List.mem_cons.mp he' with he2 | he2
      · refine Or.inr ⟨by rw [he2], ?_⟩
        intro c hc
        rw [he2] at hc
        simp [HVal.children] at hc
      · exact Or.inl he2
  | .str s0, h => by
      refine ⟨Nat.le_refl _, Nat.lt_succ_self _,
        fun b hb => heapGet_alloc_lt h _ b hb, ?_⟩
      intro e he
      have he' : e ∈ (h.next, HVal.str s0) :: h.store := he
      rcases List.mem_cons.mp he' with he2 | he2
      · refine Or.inr ⟨by rw [he2], ?_⟩
        intro c hc
        rw [he2] at hc
        simp [HVal.children] at hc
      · exact Or.inl he2
  | .arr xs, h => by
      obtain ⟨hnle, haddr, hpres, hstore⟩ := allocArr_spec xs h
      refine ⟨?_, ?_, ?_, ?_⟩
      · show h.next ≤ (allocArr xs h).1.next
        exact hnle
      · show (allocArr xs h).1.next < (allocArr xs h).1.next + 1
        exact Nat.lt_succ_self _
      · intro b hb
        show heapGet (heapAlloc (allocArr xs h).1 (.arr (allocArr xs h).2)).1 b =
          heapGet h b
        rw [heapGet_alloc_lt _ _ b (lt_of_lt_of_le hb hnle)]
        exact hpres b hb
      · intro e he
        have he' : e ∈ ((allocArr xs h).1.next, HVal.arr (allocArr xs h).2) ::
            (allocArr xs h).1.store := he
        rcases List.mem_cons.mp he' with he2 | he2
        · refine Or.inr ⟨by rw [he2]; exact hnle, ?_⟩
          intro c hc
          rw [he2] at hc
          exact haddr c hc
        · exact hstore e he2
  | .obj fs, h => by
      obtain ⟨hnle, haddr, hpres, hstore⟩ := allocObj_spec fs h
      refine ⟨?_, ?_, ?_, ?_⟩
      · show h.next ≤ (allocObj fs h).1.next
        exact hnle
      · show (allocObj fs h).1.next < (allocObj fs h).1.next + 1
        exact Nat.lt_succ_self _
      · intro b hb
        show heapGet (heapAlloc (allocObj fs h).1 (.obj (allocObj fs h).2)).1 b =
          heapGet h b
        rw [heapGet_alloc_lt _ _ b (lt_of_lt_of_le hb hnle)]
        exact hpres b hb
      · intro e he
        have he' : e ∈ ((allocObj fs h).1.next, HVal.obj (allocObj fs h).2) ::
            (allocObj fs h).1.store := he
        rcases List.mem_cons.mp he' with he2 | he2
        · refine Or.inr ⟨by rw [he2]; exact hnle, ?_⟩
          intro c hc
          rw [he2] at hc
          exact haddr c hc
        · exact hstore e he2

/-- `allocJson_spec` for array items. -/
theorem allocArr_spec : ∀ (xs : List Json) (h : Heap),
    h.next ≤ (allocArr xs h).1.next ∧
    (∀ a ∈ (allocArr xs h).2, h.next ≤ a) ∧
    (∀ b, b < h.next → heapGet (allocArr xs h).1 b = heapGet h b) ∧
    (∀ e ∈ (allocArr xs h).1.store, e ∈ h.store ∨
      (h.next ≤ e.1 ∧ ∀ c ∈ e.2.children, h.next ≤ c))
  | [], h => ⟨Nat.le_refl _, by intro a ha; simp [allocArr] at ha,
      fun _ _ => rfl, fun e he => Or.inl he⟩
  | c :: cs, h => by
      obtain ⟨h1le, h1lt, h1pres, h1store⟩ := allocJson_spec c h
      obtain ⟨h2next, h2addr, h2pres, h2store⟩ := allocArr_spec cs (allocJson c h).1
      have hmono : h.next ≤ (allocJson c h).1.next := le_trans h1le (le_of_lt h1lt)
      refine ⟨?_, ?_, ?_, ?_⟩
      · show h.next ≤ (allocArr cs (allocJson c h).1).1.next
        exact le_trans hmono h2next
      · intro a ha
        have ha' : a ∈ (allocJson c h).2 :: (allocArr cs (allocJson c h).1).2 := ha
        rcases List.mem_cons.mp ha' with ha2 | ha2
        · rw [ha2]; exact h1le
        · exact le_trans hmono (h2addr a ha2)
      · intro b hb
        show heapGet (allocArr cs (allocJson c h).1).1 b = heapGet h b
        rw [h2pres b (lt_of_lt_of_le hb hmono)]
        exact h1pres b hb
      · intro e he
        have he' : e ∈ (allocArr cs (allocJson c h).1).1.store := he
        rcases h2store e he' with he2 | he2
        · rcases h1store e he2 with he3 | he3
          · exact Or.inl he3
          · exact Or.inr he3
        · exact Or.inr ⟨le_trans hmono he2.1,
            fun c' hc' => le_trans hmono (he2.2 c' hc')⟩

/-- `allocJson_spec` for dict fields. -/
theorem allocObj_spec : ∀ (fs : List (String × Json)) (h : Heap),
    h.next ≤ (allocObj fs h).1.next ∧
    (∀ a ∈ (allocObj fs h).2.map (·.2), h.next ≤ a) ∧
    (∀ b, b < h.next → heapGet (allocObj fs h).1 b = heapGet h b) ∧
    (∀ e ∈ (allocObj fs h).1.store, e ∈ h.store ∨
      (h.next ≤ e.1 ∧ ∀ c ∈ e.2.children, h.next ≤ c))
  | [], h => ⟨Nat.le_refl _, by intro a ha; simp [allocObj] at ha,
      fun _ _ => rfl, fun e he => Or.inl he⟩
  | (k, v) :: es, h => by
      obtain ⟨h1le, h1lt, h1pres, h1store⟩ := allocJson_spec v h
      obtain ⟨h2next, h2addr, h2pres, h2store⟩ := allocObj_spec es (allocJson v h).1
      have hmono : h.next ≤ (allocJson v h).1.next := le_trans h1le (le_of_lt h1lt)
      refine ⟨?_, ?_, ?_, ?_⟩
      · show h.next ≤ (allocObj es (allocJson v h).1).1.next
        exact le_trans hmono h2next
      · intro a ha
        have ha' : a ∈ ((k, (allocJson v h).2) ::
            (allocObj es (allocJson v h).1).2).map (·.2) := ha
        rw [List.map_cons] at ha'
        rcases List.mem_cons.mp ha' with ha2 | ha2
        · rw [ha2]; exact h1le
        · exact le_trans hmono (h2addr a ha2)
      · intro b hb
        show heapGet (allocObj es (allocJson v h).1).1 b = heapGet h b
        rw [h2pres b (lt_of_lt_of_le hb hmono)]
        exact h1pres b hb
      · intro e he
        have he' : e ∈ (allocObj es (allocJson v h).1).1.store := he
        rcases h2store e he' with he2 | he2
        · rcases h1store e he2 with he3 | he3
          · exact Or.inl he3
          · exact Or.inr he3
        · exact Or.inr ⟨le_trans hmono he2.1,
            fun c' hc' => le_trans hmono (he2.2 c' hc')⟩

end

/-- The heap after `allocJson` is region-closed at any `n` at or below the
old `next` whenever the old heap is. -/
theorem allocJson_region (j : Json) (h : Heap) (n : Nat) (hreg : regionClosed h n)
    (hnn : n ≤ h.next) : regionClosed (allocJson j h).1 n := by
  intro e he hle c hc
  rcases ((allocJson_spec j h).2.2.2) e he with hold | ⟨_, h2⟩
  · exact hreg e hold hle c hc
  · exact le_trans hnn (h2 c hc)

/-- A write-back whose parent address lies in the fresh region leaves every
address below `n` untouched, keeps the region closed, and keeps `next` at
or above `n`. -/
theorem heapWriteBack_frame (h : Heap) (pa : Nat) (st : Step) (s : String) (n : Nat)
    (hpa : n ≤ pa) (hnext : n ≤ h.next) (hreg : regionClosed h n) :
    (∀ b, b < n → heapGet (heapWriteBack h pa st (.str s)) b = heapGet h b) ∧
    regionClosed (heapWriteBack h pa st (.str s)) n ∧
    n ≤ (heapWriteBack h pa st (.str s)).next := by
  have hreg1 : regionClosed (heapAlloc h (.str s)).1 n :=
    heapAlloc_region h _ n hreg (by intro c hc; simp [HVal.children] at hc)
  have hpres1 : ∀ b, b < n → heapGet (heapAlloc h (.str s)).1 b = heapGet h b :=
    fun b hb => heapGet_alloc_lt h _ b (lt_of_lt_of_le hb hnext)
  have hnext1 : n ≤ (heapAlloc h (.str s)).1.next := le_trans hnext (Nat.le_succ _)
  cases hg : heapGet (heapAlloc h (.str s)).1 pa with
  | none =>
      have hw : heapWriteBack h pa st (.str s) = (heapAlloc h (.str s)).1 := by
        cases st <;> simp [heapWriteBack, hg]
      rw [hw]
      exact ⟨hpres1, hreg1, hnext1⟩
  | some v =>
      cases v with
      | null =>
          have hw : heapWriteBack h pa st (.str s) = (heapAlloc h (.str s)).1 := by
            cases st <;> simp [heapWriteBack, hg]
          rw [hw]
          exact ⟨hpres1, hreg1, hnext1⟩
      | bool b0 =>
          have hw : heapWriteBack h pa st (.str s) = (heapAlloc h (.str s)).1 := by
            cases st <;> simp [heapWriteBack, hg]
          rw [hw]
          exact ⟨hpres1, hreg1, hnext1⟩
      | num n0 =>
          have hw : heapWriteBack h pa st (.str s) = (heapAlloc h (.str s)).1 := by
            cases st <;> simp [heapWriteBack, hg]
          rw [hw]
          exact ⟨hpres1, hreg1, hnext1⟩
      | str s0 =>
          have hw : heapWriteBack h pa st (.str s) = (heapAlloc h (.str s)).1 := by
            cases st <;> simp [heapWriteBack, hg]
          rw [hw]
          exact ⟨hpres1, hreg1, hnext1⟩
      | arr as =>
          cases st with
          | key k =>
              have hw : heapWriteBack h pa (.key k) (.str s) =
                  (heapAlloc h (.str s)).1 := by
                simp [heapWriteBack, hg]
              rw [hw]
              exact ⟨hpres1, hreg1, hnext1⟩
          | idx i =>
              have hw : heapWriteBack h pa (.idx i) (.str s) =
                  heapSet (heapAlloc h (.str s)).1 pa
                    (.arr (as.set i (heapAlloc h (.str s)).2)) := by
                simp [heapWriteBack, hg]
              rw [hw]
              refine ⟨?_, ?_, hnext1⟩
              · intro b hb
                rw [heapGet_set_ne _ _ b _ (Nat.ne_of_lt (lt_of_lt_of_le hb hpa))]
                exact hpres1 b hb
              · intro e he hle c hc
                have he' : e ∈ (pa, HVal.arr (as.set i (heapAlloc h (.str s)).2)) ::
                    (heapAlloc h (.str s)).1.store := he
                rcases List.mem_cons.mp he' with he2 | he2
                · rw [he2] at hc
                  have hc' : c ∈ as.set i (heapAlloc h (.str s)).2 := hc
                  rcases List.mem_or_eq_of_mem_set hc' with hc2 | hc2
                  · have hmem := heapGet_mem _ _ _ hg
                    exact hreg1 _ hmem hpa c hc2
                  · rw [hc2]
                    show n ≤ h.next
                    exact hnext
                · exact hreg1 e he2 hle c hc
      | obj ps =>
          cases st with
          | idx i =>
              have hw : heapWriteBack h pa (.idx i) (.str s) =
                  (heapAlloc h (.str s)).1 := by
                simp [heapWriteBack, hg]
              rw [hw]
              exact ⟨hpres1, hreg1, hnext1⟩
          | key k =>
              have hw : heapWriteBack h pa (.key k) (.str s) =
                  heapSet (heapAlloc h (.str s)).1 pa
                    (.obj (ps.map (fun e =>
                      if e.1 == k then (e.1, (heapAlloc h (.str s)).2) else e))) := by
                simp [heapWriteBack, hg]
              rw [hw]
              refine ⟨?_, ?_, hnext1⟩
              · intro b hb
                rw [heapGet_set_ne _ _ b _ (Nat.ne_of_lt (lt_of_lt_of_le hb hpa))]
                exact hpres1 b hb
              · intro e he hle c hc
                have he' : e ∈ (pa, HVal.obj (ps.map (fun e =>
                    if e.1 == k then (e.1, (heapAlloc h (.str s)).2) else e))) ::
                    (heapAlloc h (.str s)).1.store := he
                rcases List.mem_cons.mp he' with he2 | he2
                · rw [he2] at hc
                  have hc' : c ∈ (ps.map (fun e =>
                      if e.1 == k then (e.1, (heapAlloc h (.str s)).2) else e)).map
                      (·.2) := hc
                  rcases List.mem_map.mp hc' with ⟨e0, he0, hce⟩
                  rcases List.mem_map.mp he0 with ⟨e1, he1, he01⟩
                  have hmem := heapGet_mem _ _ _ hg
                  by_cases hk : (e1.1 == k) = true
                  · rw [hk] at he01
                    simp only [if_true] at he01
                    rw [← he01] at hce
                    simp only at hce
                    rw [← hce]
                    show n ≤ h.next
                    exact hnext
                  · rw [if_neg hk] at he01
                    rw [← he01] at hce
                    have : c ∈ (HVal.obj ps).children := by
                      show c ∈ ps.map (·.2)
                      exact List.mem_map.mpr ⟨e1, he1, hce⟩
                    exact hreg1 _ hmem hpa c this
                · exact hreg1 e he2 hle c hc

/-- Folding heap steps that each preserve low lookups, region closure and
the `next` bound preserves all three. -/
theorem foldl_heap_frame (f : Heap → Nat → Heap) (n : Nat)
    (hf : ∀ hh i, n ≤ hh.next → regionClosed hh n →
      (∀ b, b < n → heapGet (f hh i) b = heapGet hh b) ∧
      regionClosed (f hh i) n ∧ n ≤ (f hh i).next) :
    ∀ (l : List Nat) (hh : Heap), n ≤ hh.next → regionClosed hh n →
      (∀ b, b < n → heapGet (l.foldl f hh) b = heapGet hh b) ∧
      regionClosed (l.foldl f hh) n ∧ n ≤ (l.foldl f hh).next := by
  intro l
  induction l with
  | nil => intro hh h1 h2; exact ⟨fun _ _ => rfl, h2, h1⟩
  | cons i rest ih =>
      intro hh h1 h2
      obtain ⟨hg, hr, hn⟩ := hf hh i h1 h2
      obtain ⟨hg', hr', hn'⟩ := ih (f hh i) hn hr
      exact ⟨fun b hb => (hg' b hb).trans (hg b hb), hr', hn'⟩

/-- In a region-closed heap, collecting from an address in the region
yields only parent addresses in the region. -/
theorem heapCollect_region (h : Heap) (n : Nat) (hreg : regionClosed h n) :
    ∀ (fuel : Nat) (a : Nat) (path : List (Nat × Step)), n ≤ a →
      (∀ e ∈ path, n ≤ e.1) →
      ∀ u ∈ heapCollect fuel h a path, ∀ e ∈ u.1, n ≤ e.1 := by
  intro fuel
  induction fuel with
  | zero => intro a path _ _ u hu; simp [heapCollect] at hu
  | succ f ih =>
      intro a path ha hpath u hu e he
      rw [heapCollect] at hu
      split at hu
      case _ s0 hg =>
          by_cases hs : pyStripEmpty s0
          · rw [if_pos hs] at hu; simp at hu
          · rw [if_neg hs] at hu
            have : u = (path, s0) := by simpa using hu
            rw [this] at he
            exact hpath e he
      case _ as hg =>
          rcases List.mem_flatMap.mp hu with ⟨pr, hpr, hu2⟩
          have hmem := heapGet_mem _ _ _ hg
          have hchild : n ≤ pr.2 := by
            have hpr2 : pr.2 ∈ as := by
              have := List.of_mem_zip (by
                rw [← List.enum_eq_zip_range] ; exact hpr)
              exact this.2
            exact hreg _ hmem ha pr.2 hpr2
          have hpath' : ∀ e' ∈ path ++ [(a, Step.idx pr.1)], n ≤ e'.1 := by
            intro e' he'
            rcases List.mem_append.mp he' with h | h
            · exact hpath e' h
            · have : e' = (a, Step.idx pr.1) := by simpa using h
              rw [this]
              exact ha
          exact ih pr.2 (path ++ [(a, .idx pr.1)]) hchild hpath' u hu2 e he
      case _ ps hg =>
          rcases List.mem_flatMap.mp hu with ⟨pr, hpr, hu2⟩
          have hmem := heapGet_mem _ _ _ hg
          have hchild : n ≤ pr.2 := by
            have hpr2 : pr.2 ∈ ps.map (·.2) := List.mem_map.mpr ⟨pr, hpr, rfl⟩
            exact hreg _ hmem ha pr.2 hpr2
          have hpath' : ∀ e' ∈ path ++ [(a, Step.key pr.1)], n ≤ e'.1 := by
            intro e' he'
            rcases List.mem_append.mp he' with h | h
            · exact hpath e' h
            · have : e' = (a, Step.key pr.1) := by simpa using h
              rw [this]
              exact ha
          exact ih pr.2 (path ++ [(a, .key pr.1)]) hchild hpath' u hu2 e he
      case _ =>
          simp at hu

/-- The last element of a list is an element. -/
theorem mem_of_getLast_some : ∀ (l : List α) (a : α), l.getLast? = some a → a ∈ l
  | [], _, h => by simp at h
  | [x], a, h => by
      have hx : x = a := by simpa using h
      rw [hx]
      exact List.mem_singleton_self a
  | x :: y :: t, a, h => by
      rw [List.getLast?_cons_cons] at h
      exact List.mem_cons_of_mem x (mem_of_getLast_some (y :: t) a h)

/-- If two heaps agree below `n` and the first heap's bindings below `n`
have children below `n`, reading back from any root below `n` agrees at
every fuel. -/
theorem readBack_agree (h1 h2 : Heap) (n : Nat)
    (hag : ∀ b, b < n → heapGet h2 b = heapGet h1 b)
    (hcl : ∀ a v, a < n → heapGet h1 a = some v → ∀ c ∈ v.children, c < n) :
    ∀ (fuel a : Nat), a < n → readBack fuel h2 a = readBack fuel h1 a := by
  intro fuel
  induction fuel with
  | zero => intro a _; rfl
  | succ f ih =>
      intro a ha
      rw [readBack, readBack, hag a ha]
      cases hg : heapGet h1 a with
      | none => rfl
      | some v =>
          cases v with
          | null => rfl
          | bool b0 => rfl
          | num n0 => rfl
          | str s0 => rfl
          | arr as =>
              simp only []
              have hch := hcl a _ ha hg
              have : as.map (fun x => readBack f h2 x) =
                  as.map (fun x => readBack f h1 x) := by
                apply List.map_congr_left
                intro x hx
                exact ih x (hch x hx)
              rw [this]
          | obj ps =>
              simp only []
              have hch := hcl a _ ha hg
              have : ps.map (fun e => (readBack f h2 e.2).map (fun j => (e.1, j))) =
                  ps.map (fun e => (readBack f h1 e.2).map (fun j => (e.1, j))) := by
                apply List.map_congr_left
                intro e he
                rw [ih e.2 (hch e.2 (by
                  show e.2 ∈ ps.map (·.2)
                  exact List.mem_map.mpr ⟨e, he, rfl⟩))]
              rw [this]

end HeapLemmas

/-- Claim C8: `translate_json` never mutates the caller's tree.  In the
heap model it reads the argument, deep-copies it to fresh addresses
(`copy.deepcopy`), and every write-back of a translated string targets a
parent address inside the copied region, so the tree readable at the
caller's root is identical before and after the call — at every read
depth. -/
theorem C8_no_caller_mutation (fuel : Nat) (w : Nat → String → String) (h : Heap)
    (root : Nat) (hclosed : h.closed = true) (hroot : root < h.next) :
    ∀ fuel2, readBack fuel2 (heapTranslateJson fuel w h root).1 root =
      readBack fuel2 h root := by
  intro fuel2
  have hG : ∀ e ∈ h.store, e.1 < h.next ∧ ∀ c ∈ e.2.children, c < h.next := by
    intro e he
    have := (List.all_eq_true.mp hclosed) e he
    simp only [Bool.and_eq_true, decide_eq_true_eq, List.all_eq_true] at this
    exact ⟨this.1, fun c hc => this.2 c hc⟩
  have hregh : regionClosed h h.next := by
    intro e he hle
    exact absurd (hG e he).1 (Nat.not_lt.mpr hle)
  have hcl : ∀ a v, a < h.next → heapGet h a = some v →
      ∀ c ∈ v.children, c < h.next := by
    intro a v _ hv c hc
    exact (hG _ (heapGet_mem h a v hv)).2 c hc
  cases hrb : readBack fuel h root with
  | none =>
      simp only [heapTranslateJson, hrb]
  | some j =>
      simp only [heapTranslateJson, hrb]
      obtain ⟨hjle, hjlt, hjpres, _⟩ := allocJson_spec j h
      have hregA : regionClosed (allocJson j h).1 h.next :=
        allocJson_region j h h.next hregh (Nat.le_refl _)
      have hnextA : h.next ≤ (allocJson j h).1.next :=
        le_trans hjle (le_of_lt hjlt)
      have hsd : ∀ u ∈ heapCollect fuel (allocJson j h).1 (allocJson j h).2 [],
          ∀ e ∈ u.1, h.next ≤ e.1 :=
        heapCollect_region (allocJson j h).1 h.next hregA fuel (allocJson j h).2 []
          hjle (by intro e he; simp at he)
      have hf : ∀ hh i, h.next ≤ hh.next → regionClosed hh h.next →
          (∀ b, b < h.next →
            heapGet ((fun hh i =>
              match ((heapCollect fuel (allocJson j h).1 (allocJson j h).2 []).getD i
                  ([], "")).1.getLast? with
              | some pa => heapWriteBack hh pa.1 pa.2
                  (.str (w i ((heapCollect fuel (allocJson j h).1 (allocJson j h).2
                    []).getD i ([], "")).2))
              | none => hh) hh i) b = heapGet hh b) ∧
          regionClosed ((fun hh i =>
              match ((heapCollect fuel (allocJson j h).1 (allocJson j h).2 []).getD i
                  ([], "")).1.getLast? with
              | some pa => heapWriteBack hh pa.1 pa.2
                  (.str (w i ((heapCollect fuel (allocJson j h).1 (allocJson j h).2
                    []).getD i ([], "")).2))
              | none => hh) hh i) h.next ∧
          h.next ≤ ((fun hh i =>
              match ((heapCollect fuel (allocJson j h).1 (allocJson j h).2 []).getD i
                  ([], "")).1.getLast? with
              | some pa => heapWriteBack hh pa.1 pa.2
                  (.str (w i ((heapCollect fuel (allocJson j h).1 (allocJson j h).2
                    []).getD i ([], "")).2))
              | none => hh) hh i).next := by
        intro hh i hhn hhr
        cases hgl : ((heapCollect fuel (allocJson j h).1 (allocJson j h).2 []).getD i
            ([], "")).1.getLast? with
        | none =>
            simp only [hgl]
            exact ⟨fun _ _ => by trivial, hhr, hhn⟩
        | some pa =>
            simp only [hgl]
            have hpa : h.next ≤ pa.1 := by
              by_cases hi : i < (heapCollect fuel (allocJson j h).1 (allocJson j h).2
                  []).length
              · have hu : (heapCollect fuel (allocJson j h).1 (allocJson j h).2
                    []).getD i ([], "") ∈
                    heapCollect fuel (allocJson j h).1 (allocJson j h).2 [] := by
                  rw [List.getD_eq_getElem _ _ hi]
                  exact List.getElem_mem _
                exact hsd _ hu pa (mem_of_getLast_some _ pa hgl)
              · have : (heapCollect fuel (allocJson j h).1 (allocJson j h).2
                    []).getD i ([], "") = ([], "") :=
                  List.getD_eq_default _ _ (Nat.le_of_not_lt hi)
                rw [this] at hgl
                simp at hgl
            exact heapWriteBack_frame hh pa.1 pa.2 _ h.next hpa hhn hhr
      obtain ⟨hfold, _, _⟩ := foldl_heap_frame _ h.next hf
        (List.range (heapCollect fuel (allocJson j h).1 (allocJson j h).2 []).length)
        (allocJson j h).1 hnextA hregA
      exact readBack_agree h _ h.next
        (fun b hb => (hfold b hb).trans (hjpres b hb)) hcl fuel2 root hroot

/-- Witness for C8: a concrete two-field tree loaded into an empty heap;
running the heap-level pipeline (which does translate the copy) leaves the
caller's tree unchanged. -/
theorem C8_no_caller_mutation_witness :
    Heap.closed (allocJson (Json.obj [("a", .str "hi"), ("b", .arr [.str "yo"])])
      ⟨[], 0⟩).1 = true ∧
    (allocJson (Json.obj [("a", .str "hi"), ("b", .arr [.str "yo"])]) ⟨[], 0⟩).2 <
      (allocJson (Json.obj [("a", .str "hi"), ("b", .arr [.str "yo"])]) ⟨[], 0⟩).1.next ∧
    readBack 10
      (heapTranslateJson 10 (fun _ s => s ++ "!")
        (allocJson (Json.obj [("a", .str "hi"), ("b", .arr [.str "yo"])]) ⟨[], 0⟩).1
        (allocJson (Json.obj [("a", .str "hi"), ("b", .arr [.str "yo"])]) ⟨[], 0⟩).2).1
      (allocJson (Json.obj [("a", .str "hi"), ("b", .arr [.str "yo"])]) ⟨[], 0⟩).2 =
    readBack 10
      (allocJson (Json.obj [("a", .str "hi"), ("b", .arr [.str "yo"])]) ⟨[], 0⟩).1
      (allocJson (Json.obj [("a", .str "hi"), ("b", .arr [.str "yo"])]) ⟨[], 0⟩).2 :=
  ⟨by decide, by decide,
    C8_no_caller_mutation 10 (fun _ s => s ++ "!") _ _ (by decide) (by decide) 10⟩

section StrLemmas

/-- `pfx` as an equation. -/
theorem pfx_iff (p s : Str) : pfx p s = true ↔ ∃ t, s = p ++ t := by
  induction p generalizing s with
  | nil => simp [pfx]
  | cons a as ih =>
      cases s with
      | nil =>
          simp only [pfx]
          constructor
          · intro h; cases h
          · rintro ⟨t, ht⟩; cases ht
      | cons b bs =>
          simp only [pfx, Bool.and_eq_true, beq_iff_eq]
          constructor
          · rintro ⟨rfl, h⟩
            obtain ⟨t, rfl⟩ := (ih bs).mp h
            exact ⟨t, rfl⟩
          · rintro ⟨t, ht⟩
            rw [List.cons_append] at ht
            injection ht with h1 h2
            exact ⟨h1.symm, (ih bs).mpr ⟨t, h2⟩⟩

/-- A string is a prefix of itself followed by anything. -/
theorem pfx_refl_append (p t : Str) : pfx p (p ++ t) = true :=
  (pfx_iff p _).mpr ⟨t, rfl⟩

/-- A prefix of `x` is a prefix of `x ++ y`. -/
theorem pfx_mono (p x y : Str) (h : pfx p x = true) : pfx p (x ++ y) = true := by
  obtain ⟨t, rfl⟩ := (pfx_iff p x).mp h
  rw [List.append_assoc]
  exact pfx_refl_append p _

/-- A prefix is no longer than the string. -/
theorem pfx_length (p s : Str) (h : pfx p s = true) : p.length ≤ s.length := by
  obtain ⟨t, rfl⟩ := (pfx_iff p s).mp h
  simp

/-- The first component of a prefixing concatenation is a prefix. -/
theorem pfx_of_append (a b s : Str) (h : pfx (a ++ b) s = true) : pfx a s = true := by
  obtain ⟨t, rfl⟩ := (pfx_iff _ s).mp h
  rw [List.append_assoc]
  exact pfx_refl_append a _

/-- Whether `p` prefixes `v ++ X` only depends on `v` when `p` fits in `v`. -/
theorem pfx_le_append (p v X : Str) (hl : p.length ≤ v.length) :
    pfx p (v ++ X) = pfx p v := by
  induction p generalizing v with
  | nil => simp [pfx]
  | cons a as ih =>
      cases v with
      | nil => simp at hl
      | cons b bs =>
          simp only [List.cons_append, pfx]
          show (a == b && pfx as (bs ++ X)) = (a == b && pfx as bs)
          rw [ih bs (by simpa using hl)]

/-- `infx` as an equation. -/
theorem infx_iff (p s : Str) : infx p s = true ↔ ∃ u v, s = u ++ p ++ v := by
  induction s with
  | nil =>
      simp only [infx]
      constructor
      · intro h
        have hp : p = [] := by simpa [List.isEmpty_iff] using h
        exact ⟨[], [], by simp [hp]⟩
      · rintro ⟨u, v, huv⟩
        have h2 := huv.symm
        rw [List.append_eq_nil] at h2
        obtain ⟨h3, _⟩ := h2
        rw [List.append_eq_nil] at h3
        simp [List.isEmpty_iff, h3.2]
  | cons c cs ih =>
      simp only [infx, Bool.or_eq_true]
      constructor
      · rintro (h | h)
        · obtain ⟨t, ht⟩ := (pfx_iff p _).mp h
          exact ⟨[], t, by simpa using ht⟩
        · obtain ⟨u, v, huv⟩ := ih.mp h
          exact ⟨c :: u, v, by simp [huv]⟩
      · rintro ⟨u, v, huv⟩
        cases u with
        | nil =>
            left
            simp only [List.nil_append] at huv
            exact (pfx_iff p _).mpr ⟨v, huv⟩
        | cons u0 us =>
            right
            apply ih.mpr
            simp only [List.cons_append, List.cons.injEq] at huv
            exact ⟨us, v, huv.2⟩

/-- An infix of `x` is an infix of any two-sided extension. -/
theorem infx_mono (p x u v : Str) (h : infx p x = true) :
    infx p (u ++ x ++ v) = true := by
  obtain ⟨a, b, rfl⟩ := (infx_iff p x).mp h
  exact (infx_iff p _).mpr ⟨u ++ a, b ++ v, by simp⟩

/-- An infix of `x` is an infix of `x ++ v`. -/
theorem infx_mono_right (p x v : Str) (h : infx p x = true) :
    infx p (x ++ v) = true := by
  have := infx_mono p x [] v h
  simpa using this

/-- An infix of `x` is an infix of `u ++ x`. -/
theorem infx_mono_left (p x u : Str) (h : infx p x = true) :
    infx p (u ++ x) = true := by
  have := infx_mono p x u [] h
  simpa using this

/-- `p` occurs in `u ++ p ++ v`. -/
theorem infx_self (p u v : Str) : infx p (u ++ p ++ v) = true :=
  (infx_iff p _).mpr ⟨u, v, rfl⟩

/-- `p` occurs in `p ++ v`. -/
theorem infx_self_right (p v : Str) : infx p (p ++ v) = true := by
  have := infx_self p [] v
  simpa using this

/-- Infix is transitive. -/
theorem infx_trans (a b c : Str) (h1 : infx a b = true) (h2 : infx b c = true) :
    infx a c = true := by
  obtain ⟨u, v, rfl⟩ := (infx_iff b c).mp h2
  obtain ⟨x, y, rfl⟩ := (infx_iff a b).mp h1
  exact (infx_iff a _).mpr ⟨u ++ x, y ++ v, by simp⟩

/-- An occurrence in a concatenation lies in a part or crosses the seam. -/
theorem infx_append_split (p x y : Str) (h : infx p (x ++ y) = true) :
    infx p x = true ∨ infx p y = true ∨
      ∃ u v w, p = v ++ w ∧ v ≠ [] ∧ w ≠ [] ∧ x = u ++ v ∧ pfx w y = true := by
  obtain ⟨l, r, hlr⟩ := (infx_iff p _).mp h
  rcases List.append_eq_append_iff.mp hlr.symm with ⟨m, hm1, hm2⟩ | ⟨m, hm1, hm2⟩
  · -- hm1 : x = (l ++ p) ++ m, hm2 : r = m ++ y
    left
    exact (infx_iff p x).mpr ⟨l, m, by rw [hm1]⟩
  · -- hm1 : l ++ p = x ++ m, hm2 : y = m ++ r
    rcases List.append_eq_append_iff.mp hm1 with ⟨k, hk1, hk2⟩ | ⟨k, hk1, hk2⟩
    · -- hk1 : x = l ++ k, hk2 : p = k ++ m
      cases hm : m with
      | nil =>
          left
          rw [hm, List.append_nil] at hk2
          exact (infx_iff p x).mpr ⟨l, [], by rw [hk1, hk2, List.append_nil]⟩
      | cons m0 ms =>
          cases hk : k with
          | nil =>
              right; left
              rw [hk, List.nil_append] at hk2
              exact (infx_iff p y).mpr ⟨[], r, by rw [hm2, ← hk2, List.nil_append]⟩
          | cons k0 ks =>
              right; right
              refine ⟨l, k, m, hk2, by simp [hk], by simp [hm], hk1, ?_⟩
              rw [hm2]
              exact pfx_refl_append m r
    · -- hk1 : l = x ++ k, hk2 : m = k ++ p
      right; left
      exact (infx_iff p y).mpr ⟨k, r, by rw [hm2, hk2]⟩

/-- A prefix of a concatenation either sits inside the first part or ends
within the second. -/
theorem pfx_append_split (p x y : Str) (h : pfx p (x ++ y) = true) :
    (∃ t, x = p ++ t) ∨ ∃ w, p = x ++ w ∧ pfx w y = true := by
  obtain ⟨t, ht⟩ := (pfx_iff p _).mp h
  rcases List.append_eq_append_iff.mp ht with ⟨m, hm1, hm2⟩ | ⟨m, hm1, hm2⟩
  · exact Or.inr ⟨m, hm1, (pfx_iff m y).mpr ⟨t, hm2⟩⟩
  · exact Or.inl ⟨m, hm1⟩

/-- A suffix of a concatenation is a suffix of the second part or carries
a nonempty suffix of the first. -/
theorem sfx_append_split (w a b : Str) (h : ∃ u, a ++ b = u ++ w) :
    (∃ u, b = u ++ w) ∨ ∃ v, (∃ u, a = u ++ v) ∧ w = v ++ b := by
  obtain ⟨u, hu⟩ := h
  rcases List.append_eq_append_iff.mp hu with ⟨m, hm1, hm2⟩ | ⟨m, hm1, hm2⟩
  · exact Or.inl ⟨m, hm2⟩
  · exact Or.inr ⟨m, ⟨u, hm1⟩, hm2⟩

end StrLemmas

section ScanLemmas

/-- `replAllGo` is fuel-invariant above the string length. -/
theorem replAllGo_fuel (o : Char) (os new : Str) : ∀ (f1 f2 : Nat) (s : Str),
    s.length ≤ f1 → s.length ≤ f2 → replAllGo o os new f1 s = replAllGo o os new f2 s := by
  intro f1
  induction f1 with
  | zero =>
      intro f2 s h1 _
      cases s with
      | nil => cases f2 <;> rfl
      | cons c cs => simp at h1
  | succ f ih =>
      intro f2 s h1 h2
      cases s with
      | nil => cases f2 <;> rfl
      | cons c cs =>
          cases f2 with
          | zero => simp at h2
          | succ f2' =>
              have hf1 : cs.length ≤ f := by simp at h1; omega
              have hf2 : cs.length ≤ f2' := by simp at h2; omega
              rw [replAllGo, replAllGo]
              by_cases hp : pfx (o :: os) (c :: cs) = true
              · rw [if_pos hp, if_pos hp]
                congr 1
                have hd : ((c :: cs).drop (o :: os).length).length ≤ cs.length := by
                  simp [List.length_drop]
                exact ih f2' _ (le_trans hd hf1) (le_trans hd hf2)
              · rw [if_neg hp, if_neg hp]
                congr 1
                exact ih f2' cs hf1 hf2

/-- One scanning step of `replaceAll` for a non-empty pattern. -/
theorem replaceAll_cons (o : Char) (os new : Str) (c : Char) (cs : Str) :
    replaceAll (o :: os) new (c :: cs) =
      if pfx (o :: os) (c :: cs) = true then
        new ++ replaceAll (o :: os) new ((c :: cs).drop (o :: os).length)
      else c :: replaceAll (o :: os) new cs := by
  show replAllGo o os new (cs.length + 1) (c :: cs) = _
  rw [replAllGo]
  by_cases hp : pfx (o :: os) (c :: cs) = true
  · rw [if_pos hp, if_pos hp]
    congr 1
    apply replAllGo_fuel
    · simp [List.length_drop]
    · rfl
  · rw [if_neg hp, if_neg hp]
    rfl

/-- `replaceAll` of the empty string. -/
theorem replaceAll_nil (old new : Str) : replaceAll old new [] = [] := by
  cases old with
  | nil => rfl
  | cons o os => rfl

/-- `replaceAll` passes over a region with no match position. -/
theorem replaceAll_skip (x Y : Str) (o : Char) (os new : Str)
    (hno : ∀ u v, x = u ++ v → v ≠ [] → pfx (o :: os) (v ++ Y) = false) :
    replaceAll (o :: os) new (x ++ Y) = x ++ replaceAll (o :: os) new Y := by
  induction x with
  | nil => simp
  | cons c cs ih =>
      have h0 : pfx (o :: os) (c :: (cs ++ Y)) = false := hno [] (c :: cs) rfl (by simp)
      rw [List.cons_append, replaceAll_cons, if_neg (by simp [h0])]
      rw [ih (fun u v h hv => hno (c :: u) v (by rw [h, List.cons_append]) hv)]
      rfl

/-- `replaceAll` fires on an exact occurrence. -/
theorem replaceAll_hit (o : Char) (os R new : Str) :
    replaceAll (o :: os) new ((o :: os) ++ R) = new ++ replaceAll (o :: os) new R := by
  rw [List.cons_append, replaceAll_cons,
    if_pos (show pfx (o :: os) (o :: (os ++ R)) = true from pfx_refl_append (o :: os) R)]
  congr 1
  show replaceAll (o :: os) new ((os ++ R).drop os.length) = _
  rw [List.drop_left]

/-- One scanning step of `replaceFirst`. -/
theorem replaceFirst_cons (c : Char) (cs old new : Str) :
    replaceFirst (c :: cs) old new =
      if pfx old (c :: cs) = true then new ++ (c :: cs).drop old.length
      else c :: replaceFirst cs old new := rfl

/-- `replaceFirst` passes over a region with no match position. -/
theorem replaceFirst_skip (x Y old new : Str)
    (hno : ∀ u v, x = u ++ v → v ≠ [] → pfx old (v ++ Y) = false) :
    replaceFirst (x ++ Y) old new = x ++ replaceFirst Y old new := by
  induction x with
  | nil => simp
  | cons c cs ih =>
      have h0 : pfx old (c :: (cs ++ Y)) = false := hno [] (c :: cs) rfl (by simp)
      rw [List.cons_append, replaceFirst_cons, if_neg (by simp [h0])]
      rw [ih (fun u v h hv => hno (c :: u) v (by rw [h, List.cons_append]) hv)]
      rfl

/-- `replaceFirst` fires at the first match position. -/
theorem replaceFirst_at (x rest old new : Str) (hne : old ≠ [])
    (hno : ∀ u v, x = u ++ v → v ≠ [] → pfx old (v ++ rest) = false)
    (hc : pfx old rest = true) :
    replaceFirst (x ++ rest) old new = x ++ new ++ rest.drop old.length := by
  induction x with
  | nil =>
      simp only [List.nil_append]
      cases rest with
      | nil =>
          obtain ⟨t, ht⟩ := (pfx_iff old []).mp hc
          exact absurd (List.append_eq_nil.mp ht.symm).1 hne
      | cons r rs =>
          rw [replaceFirst_cons, if_pos hc]
  | cons c cs ih =>
      have h0 : pfx old (c :: (cs ++ rest)) = false := hno [] (c :: cs) rfl (by simp)
      rw [List.cons_append, replaceFirst_cons, if_neg (by simp [h0])]
      rw [ih (fun u v h hv => hno (c :: u) v (by rw [h, List.cons_append]) hv)]
      simp

/-- `findAllGo` is fuel-invariant above the string length. -/
theorem findAllGo_fuel (m : Str → Option Nat) : ∀ (f1 f2 : Nat) (s : Str),
    s.length ≤ f1 → s.length ≤ f2 → findAllGo m f1 s = findAllGo m f2 s := by
  intro f1
  induction f1 with
  | zero =>
      intro f2 s h1 _
      cases s with
      | nil => cases f2 <;> rfl
      | cons c cs => simp at h1
  | succ f ih =>
      intro f2 s h1 h2
      cases s with
      | nil => cases f2 <;> rfl
      | cons c cs =>
          cases f2 with
          | zero => simp at h2
          | succ f2' =>
              have hf1 : cs.length ≤ f := by simp at h1; omega
              have hf2 : cs.length ≤ f2' := by simp at h2; omega
              rw [findAllGo, findAllGo]
              cases hm : m (c :: cs) with
              | none => exact ih f2' cs hf1 hf2
              | some n =>
                  by_cases hn : n = 0
                  · simp only [if_pos hn]
                    exact ih f2' cs hf1 hf2
                  · simp only [if_neg hn]
                    congr 1
                    have hd : ((c :: cs).drop n).length ≤ cs.length := by
                      simp [List.length_drop]
                      omega
                    exact ih f2' _ (le_trans hd hf1) (le_trans hd hf2)

/-- One scanning step of `findAll`. -/
theorem findAll_cons (m : Str → Option Nat) (c : Char) (cs : Str) :
    findAll m (c :: cs) =
      match m (c :: cs) with
      | some n =>
          if n = 0 then findAll m cs
          else (c :: cs).take n :: findAll m ((c :: cs).drop n)
      | none => findAll m cs := by
  show findAllGo m (cs.length + 1) (c :: cs) = _
  rw [findAllGo]
  cases hm : m (c :: cs) with
  | none => rfl
  | some n =>
      by_cases hn : n = 0
      · simp only [if_pos hn]
        rfl
      · simp only [if_neg hn]
        congr 1
        apply findAllGo_fuel
        · simp [List.length_drop]
          omega
        · rfl

end ScanLemmas

section MarkerLemmas

/-- The marker splits into its constant prefix, the digits, and its
constant suffix. -/
theorem marker_eq (i : Nat) : marker i = mpre ++ natStr i ++ msuf := rfl

/-- `mpre` in cons form. -/
theorem mpre_eq : mpre = '_' :: '_' :: (PH ++ ['_']) := by decide

/-- `msuf` in cons form. -/
theorem msuf_eq : msuf = ['_', '_'] := by decide

/-- Length of `mpre`. -/
theorem mpre_length : mpre.length = 14 := by decide

/-- Every character produced by `natStrGo` is a decimal digit. -/
theorem natStrGo_digits : ∀ (fuel n : Nat), ∀ c ∈ natStrGo fuel n, c ∈ decDigits := by
  have hbase : ∀ k, k < 10 → Char.ofNat (48 + k) ∈ decDigits := by decide
  intro fuel
  induction fuel with
  | zero =>
      intro n c hc
      simp only [natStrGo] at hc
      have hcc : c = Char.ofNat (48 + n % 10) := by simpa using hc
      rw [hcc]
      exact hbase _ (Nat.mod_lt n (by omega))
  | succ f ih =>
      intro n c hc
      rw [natStrGo] at hc
      by_cases hn : n < 10
      · rw [if_pos hn] at hc
        have hcc : c = Char.ofNat (48 + n) := by simpa using hc
        rw [hcc]
        exact hbase _ hn
      · rw [if_neg hn] at hc
        rcases List.mem_append.mp hc with h | h
        · exact ih _ c h
        · have hcc : c = Char.ofNat (48 + n % 10) := by simpa using h
          rw [hcc]
          exact hbase _ (Nat.mod_lt n (by omega))

/-- Every character of `natStr` is a decimal digit. -/
theorem natStr_digits (n : Nat) : ∀ c ∈ natStr n, c ∈ decDigits :=
  natStrGo_digits n n

/-- The digit string is never empty. -/
theorem natStr_ne_nil (n : Nat) : natStr n ≠ [] := by
  show natStrGo n n ≠ []
  cases n with
  | zero => simp [natStrGo]
  | succ k =>
      rw [natStrGo]
      by_cases h : k + 1 < 10
      · rw [if_pos h]; simp
      · rw [if_neg h]; simp

/-- `natStrGo` is fuel-invariant above its argument. -/
theorem natStrGo_fuel : ∀ (f1 f2 n : Nat), n ≤ f1 → n ≤ f2 →
    natStrGo f1 n = natStrGo f2 n := by
  intro f1
  induction f1 with
  | zero =>
      intro f2 n h1 _
      have hn : n = 0 := Nat.le_zero.mp h1
      subst hn
      cases f2 with
      | zero => rfl
      | succ g =>
          rw [natStrGo, natStrGo, if_pos (by omega)]
  | succ f ih =>
      intro f2 n h1 h2
      cases f2 with
      | zero =>
          have hn : n = 0 := Nat.le_zero.mp h2
          subst hn
          rw [natStrGo, natStrGo, if_pos (by omega)]
      | succ g =>
          rw [natStrGo, natStrGo]
          by_cases hn : n < 10
          · rw [if_pos hn, if_pos hn]
          · rw [if_neg hn, if_neg hn]
            congr 1
            exact ih g (n / 10) (by omega) (by omega)

/-- Unfolding of `natStr`. -/
theorem natStr_unfold (n : Nat) : natStr n =
    if n < 10 then [Char.ofNat (48 + n)]
    else natStr (n / 10) ++ [Char.ofNat (48 + n % 10)] := by
  show natStrGo n n = _
  cases n with
  | zero =>
      rw [natStrGo, if_pos (by omega)]
  | succ k =>
      rw [natStrGo]
      by_cases h : k + 1 < 10
      · rw [if_pos h, if_pos h]
      · rw [if_neg h, if_neg h]
        congr 1
        exact natStrGo_fuel k ((k + 1) / 10) ((k + 1) / 10) (by omega) (le_refl _)

/-- `parseDec` over an appended digit. -/
theorem parseDec_append (s : Str) (c : Char) :
    parseDec (s ++ [c]) = 10 * parseDec s + (c.toNat - 48) := by
  simp [parseDec, List.foldl_append]

/-- `parseDec` inverts `natStr`. -/
theorem parseDec_natStr : ∀ n, parseDec (natStr n) = n := by
  have hh : ∀ k, k < 10 → (Char.ofNat (48 + k)).toNat = 48 + k := by decide
  intro n
  induction n using Nat.strong_induction_on with
  | _ n ih =>
      rw [natStr_unfold]
      by_cases h : n < 10
      · rw [if_pos h]
        have h1 : parseDec [Char.ofNat (48 + n)] =
            10 * 0 + ((Char.ofNat (48 + n)).toNat - 48) := rfl
        rw [h1, hh n h]
        omega
      · rw [if_neg h]
        rw [parseDec_append, ih (n / 10) (by omega), hh _ (by omega)]
        omega

/-- `natStr` is injective. -/
theorem natStr_inj (i j : Nat) (h : natStr i = natStr j) : i = j := by
  have h2 := congrArg parseDec h
  rwa [parseDec_natStr, parseDec_natStr] at h2

/-- No character of `PLACEHOLDER` is a start, end, underscore or digit
character. -/
theorem ph_chars : ∀ c ∈ PH, startCh c = false ∧ endCh c = false ∧ c ≠ '_' ∧
    c ∉ decDigits := by decide

/-- No digit is a start, end, or underscore character. -/
theorem dig_chars : ∀ c ∈ decDigits, startCh c = false ∧ endCh c = false ∧
    c ≠ '_' := by decide

/-- `PH` occurs in `mpre`. -/
theorem ph_infx_mpre : infx PH mpre = true := by decide

/-- No character of a marker is a start or end character. -/
theorem marker_chars (i : Nat) : ∀ c ∈ marker i,
    startCh c = false ∧ endCh c = false := by
  intro c hc
  rw [marker_eq] at hc
  rcases List.mem_append.mp hc with h | h
  · rcases List.mem_append.mp h with h2 | h2
    · have hm : ∀ c ∈ mpre, startCh c = false ∧ endCh c = false := by decide
      exact hm c h2
    · have hd := natStr_digits i c h2
      exact ⟨(dig_chars c hd).1, (dig_chars c hd).2.1⟩
  · have hm : ∀ c ∈ msuf, startCh c = false ∧ endCh c = false := by decide
    exact hm c h

/-- `PH` occurs in every marker. -/
theorem ph_infx_marker (i : Nat) : infx PH (marker i) = true := by
  rw [marker_eq]
  exact infx_mono_right _ _ _ (infx_mono_right _ _ _ ph_infx_mpre)

/-- A marker is never empty. -/
theorem marker_ne_nil (i : Nat) : marker i ≠ [] := by
  rw [marker_eq, mpre_eq]
  simp

/-- The only nonempty proper suffix of `mpre` that is also a prefix of
`mpre` is the final underscore. -/
theorem mpre_drop_pfx : ∀ q, q < 14 → 0 < q → pfx (mpre.drop q) mpre = true →
    13 ≤ q := by decide

/-- Prefixes of `mpre` of length thirteen or more contain `PH`. -/
theorem mpre_take_ph : ∀ q, q < 15 → 13 ≤ q → infx PH (List.take q mpre) = true := by
  decide

end MarkerLemmas


section CountWhileLemmas

/-- The counted run fits in the string. -/
theorem countWhile_le_length (p : Char → Bool) : ∀ s : Str, countWhile p s ≤ s.length
  | [] => by simp [countWhile]
  | c :: cs => by
      rw [countWhile]
      by_cases h : p c = true
      · rw [if_pos h]
        have := countWhile_le_length p cs
        simp
        omega
      · rw [if_neg h]
        simp

/-- Every character of the counted run satisfies the predicate. -/
theorem countWhile_take (p : Char → Bool) : ∀ s : Str,
    ∀ c ∈ s.take (countWhile p s), p c = true
  | [] => by simp [countWhile]
  | c :: cs => by
      rw [countWhile]
      by_cases h : p c = true
      · rw [if_pos h]
        intro x hx
        rw [List.take_succ_cons] at hx
        rcases List.mem_cons.mp hx with rfl | hx2
        · exact h
        · exact countWhile_take p cs x hx2
      · rw [if_neg h]
        simp

/-- `countWhile` over a fully satisfying front segment. -/
theorem countWhile_append_all (p : Char → Bool) : ∀ (a b : Str),
    (∀ c ∈ a, p c = true) → countWhile p (a ++ b) = a.length + countWhile p b
  | [], b, _ => by simp
  | c :: cs, b, h => by
      rw [List.cons_append, countWhile, if_pos (h c (by simp))]
      rw [countWhile_append_all p cs b (fun x hx => h x (by simp [hx]))]
      simp
      omega

/-- `countWhile` stops at a failing head. -/
theorem countWhile_cons_neg (p : Char → Bool) (c : Char) (hc : p c = false) (s : Str) :
    countWhile p (c :: s) = 0 := by
  rw [countWhile, if_neg (by simp [hc])]

end CountWhileLemmas

section MatcherLemmas

/-- An in-context match that fits also matches standalone. -/
theorem matcherGood_local (m : Str → Option Nat) (hm : matcherGood m) (v Y : Str)
    (k : Nat) (hk : m (v ++ Y) = some k) (hle : k ≤ v.length) : m v = some k := by
  obtain ⟨h1, _, _⟩ := hm
  obtain ⟨_, _, hmat, _⟩ := h1 _ _ hk
  have ht : (v ++ Y).take k = v.take k := List.take_append_of_le_length hle
  have h2 := hmat (v.drop k)
  rw [ht, List.take_append_drop] at h2
  exact h2

/-- A standalone match persists under any continuation. -/
theorem matcherGood_extend (m : Str → Option Nat) (hm : matcherGood m) (v Y : Str)
    (k : Nat) (hk : m v = some k) : m (v ++ Y) = some k := by
  obtain ⟨h1, _, _⟩ := hm
  obtain ⟨_, _, hmat, _⟩ := h1 _ _ hk
  have h2 := hmat (v.drop k ++ Y)
  rw [← List.append_assoc, List.take_append_drop] at h2
  exact h2

/-- A match satisfies `MatchesAt` on its own span. -/
theorem matcherGood_matchesAt (m : Str → Option Nat) (hm : matcherGood m) (s : Str)
    (n : Nat) (hs : m s = some n) : MatchesAt m (s.take n) := by
  obtain ⟨h1, _, _⟩ := hm
  obtain ⟨hpos, hlen, hmat, _⟩ := h1 _ _ hs
  constructor
  · intro h0
    have hl := congrArg List.length h0
    rw [List.length_take, Nat.min_eq_left hlen] at hl
    simp at hl
    omega
  · intro t
    rw [List.length_take, Nat.min_eq_left hlen]
    exact hmat t

/-- Inversion of `mat1` in split form. -/
theorem mat1_inv (s : Str) (n : Nat) (hs : mat1 s = some n) :
    ∃ T r2, s = '{' :: '{' :: (T ++ '}' :: '}' :: r2) ∧ 0 < T.length ∧
      (∀ c ∈ T, (c != '}') = true) ∧ n = T.length + 4 := by
  unfold mat1 at hs
  split at hs
  · rename_i rest
    simp only at hs
    by_cases hk : countWhile (fun c => c != '}') rest = 0
    · rw [if_pos hk] at hs
      cases hs
    · rw [if_neg hk] at hs
      split at hs
      · rename_i r2 hdrop
        injection hs with hn
        have hkle : countWhile (fun c => c != '}') rest ≤ rest.length :=
          countWhile_le_length _ rest
        refine ⟨rest.take (countWhile (fun c => c != '}') rest), r2, ?_, ?_, ?_, ?_⟩
        · rw [← hdrop, List.take_append_drop]
        · rw [List.length_take]
          omega
        · exact countWhile_take _ rest
        · rw [List.length_take]
          omega
      · cases hs
  · cases hs

/-- `mat1` matches its canonical span under any continuation. -/
theorem mat1_at (T t : Str) (hT0 : 0 < T.length) (hTc : ∀ c ∈ T, (c != '}') = true) :
    mat1 ('{' :: '{' :: (T ++ '}' :: '}' :: t)) = some (T.length + 4) := by
  have he : mat1 ('{' :: '{' :: (T ++ '}' :: '}' :: t)) =
      (if countWhile (fun c => c != '}') (T ++ '}' :: '}' :: t) = 0 then none
       else
         match (T ++ '}' :: '}' :: t).drop
             (countWhile (fun c => c != '}') (T ++ '}' :: '}' :: t)) with
         | '}' :: '}' :: _ =>
             some (countWhile (fun c => c != '}') (T ++ '}' :: '}' :: t) + 4)
         | _ => none) := rfl
  have hcw : countWhile (fun c => c != '}') (T ++ '}' :: '}' :: t) = T.length := by
    rw [countWhile_append_all _ _ _ hTc, countWhile_cons_neg _ _ (by decide)]
    omega
  rw [he, hcw, if_neg (by omega), List.drop_left]
  rfl

/-- `mat1` rejects a non-start head. -/
theorem mat1_none (c : Char) (s : Str) (hc : startCh c = false) :
    mat1 (c :: s) = none := by
  unfold mat1
  split
  · rename_i rest heq
    exfalso
    injection heq with h1 _
    rw [h1] at hc
    simp [startCh] at hc
  · rfl

/-- `mat1` satisfies the matcher contract. -/
theorem matcherGood_mat1 : matcherGood mat1 := by
  refine ⟨?_, mat1_none, rfl⟩
  intro s n hs
  obtain ⟨T, r2, rfl, hT0, hTc, rfl⟩ := mat1_inv s n hs
  have htake : ('{' :: '{' :: (T ++ '}' :: '}' :: r2)).take (T.length + 4) =
      '{' :: '{' :: (T ++ ['}', '}']) := by
    rw [List.take_succ_cons, List.take_succ_cons, List.take_append]
    simp
  refine ⟨by omega, by simp, ?_, ?_⟩
  · intro t
    rw [htake]
    have harg : ('{' :: '{' :: (T ++ ['}', '}'])) ++ t =
        '{' :: '{' :: (T ++ '}' :: '}' :: t) := by simp
    rw [harg]
    exact mat1_at T t hT0 hTc
  · rw [htake]
    exact ⟨'{', '{' :: T ++ ['}'], '}', by simp, by decide, by decide⟩

/-- Inversion of `mat2`. -/
theorem mat2_inv (s : Str) (n : Nat) (hs : mat2 s = some n) :
    ∃ T r2, s = '{' :: (T ++ '}' :: r2) ∧ 0 < T.length ∧
      (∀ c ∈ T, c.isDigit = true) ∧ n = T.length + 2 := by
  unfold mat2 at hs
  split at hs
  · rename_i rest
    simp only at hs
    by_cases hk : countWhile Char.isDigit rest = 0
    · rw [if_pos hk] at hs
      cases hs
    · rw [if_neg hk] at hs
      split at hs
      · rename_i r2 hdrop
        injection hs with hn
        have hkle : countWhile Char.isDigit rest ≤ rest.length :=
          countWhile_le_length _ rest
        refine ⟨rest.take (countWhile Char.isDigit rest), r2, ?_, ?_, ?_, ?_⟩
        · rw [← hdrop, List.take_append_drop]
        · rw [List.length_take]
          omega
        · exact countWhile_take _ rest
        · rw [List.length_take]
          omega
      · cases hs
  · cases hs

/-- `mat2` matches its canonical span under any continuation. -/
theorem mat2_at (T t : Str) (hT0 : 0 < T.length) (hTc : ∀ c ∈ T, c.isDigit = true) :
    mat2 ('{' :: (T ++ '}' :: t)) = some (T.length + 2) := by
  have he : mat2 ('{' :: (T ++ '}' :: t)) =
      (if countWhile Char.isDigit (T ++ '}' :: t) = 0 then none
       else
         match (T ++ '}' :: t).drop (countWhile Char.isDigit (T ++ '}' :: t)) with
         | '}' :: _ => some (countWhile Char.isDigit (T ++ '}' :: t) + 2)
         | _ => none) := rfl
  have hcw : countWhile Char.isDigit (T ++ '}' :: t) = T.length := by
    rw [countWhile_append_all _ _ _ hTc, countWhile_cons_neg _ _ (by decide)]
    omega
  rw [he, hcw, if_neg (by omega), List.drop_left]
  rfl

/-- `mat2` rejects a non-start head. -/
theorem mat2_none (c : Char) (s : Str) (hc : startCh c = false) :
    mat2 (c :: s) = none := by
  unfold mat2
  split
  · rename_i rest heq
    exfalso
    injection heq with h1 _
    rw [h1] at hc
    simp [startCh] at hc
  · rfl

/-- `mat2` satisfies the matcher contract. -/
theorem matcherGood_mat2 : matcherGood mat2 := by
  refine ⟨?_, mat2_none, rfl⟩
  intro s n hs
  obtain ⟨T, r2, rfl, hT0, hTc, rfl⟩ := mat2_inv s n hs
  have htake : ('{' :: (T ++ '}' :: r2)).take (T.length + 2) =
      '{' :: (T ++ ['}']) := by
    rw [List.take_succ_cons, List.take_append]
    simp
  refine ⟨by omega, by simp, ?_, ?_⟩
  · intro t
    rw [htake]
    have harg : ('{' :: (T ++ ['}'])) ++ t = '{' :: (T ++ '}' :: t) := by simp
    rw [harg]
    exact mat2_at T t hT0 hTc
  · rw [htake]
    exact ⟨'{', T, '}', by simp, by decide, by decide⟩

/-- Inversion of `mat3`. -/
theorem mat3_inv (s : Str) (n : Nat) (hs : mat3 s = some n) :
    ∃ c0 T r2, s = '{' :: c0 :: (T ++ '}' :: r2) ∧ isAlphaUnd c0 = true ∧
      (∀ c ∈ T, isWordCh c = true) ∧ n = T.length + 3 := by
  unfold mat3 at hs
  split at hs
  · rename_i c0 rest
    by_cases ha : isAlphaUnd c0 = true
    · rw [if_pos ha] at hs
      simp only at hs
      split at hs
      · rename_i r2 hdrop
        injection hs with hn
        have hkle : countWhile isWordCh rest ≤ rest.length :=
          countWhile_le_length _ rest
        refine ⟨c0, rest.take (countWhile isWordCh rest), r2, ?_, ha, ?_, ?_⟩
        · rw [← hdrop, List.take_append_drop]
        · exact countWhile_take _ rest
        · rw [List.length_take]
          omega
      · cases hs
    · rw [if_neg ha] at hs
      cases hs
  · cases hs

/-- `mat3` matches its canonical span under any continuation. -/
theorem mat3_at (c0 : Char) (T t : Str) (ha : isAlphaUnd c0 = true)
    (hTc : ∀ c ∈ T, isWordCh c = true) :
    mat3 ('{' :: c0 :: (T ++ '}' :: t)) = some (T.length + 3) := by
  have he : mat3 ('{' :: c0 :: (T ++ '}' :: t)) =
      (if isAlphaUnd c0 then
        match (T ++ '}' :: t).drop (countWhile isWordCh (T ++ '}' :: t)) with
        | '}' :: _ => some (countWhile isWordCh (T ++ '}' :: t) + 3)
        | _ => none
       else none) := rfl
  have hcw : countWhile isWordCh (T ++ '}' :: t) = T.length := by
    rw [countWhile_append_all _ _ _ hTc, countWhile_cons_neg _ _ (by decide)]
    omega
  rw [he, if_pos ha, hcw, List.drop_left]
  rfl

/-- `mat3` rejects a non-start head. -/
theorem mat3_none (c : Char) (s : Str) (hc : startCh c = false) :
    mat3 (c :: s) = none := by
  unfold mat3
  split
  · rename_i c0 rest heq
    exfalso
    injection heq with h1 _
    rw [h1] at hc
    simp [startCh] at hc
  · rfl

/-- `mat3` satisfies the matcher contract. -/
theorem matcherGood_mat3 : matcherGood mat3 := by
  refine ⟨?_, mat3_none, rfl⟩
  intro s n hs
  obtain ⟨c0, T, r2, rfl, ha, hTc, rfl⟩ := mat3_inv s n hs
  have htake : ('{' :: c0 :: (T ++ '}' :: r2)).take (T.length + 3) =
      '{' :: c0 :: (T ++ ['}']) := by
    rw [List.take_succ_cons, List.take_succ_cons, List.take_append]
    simp
  refine ⟨by omega, by simp, ?_, ?_⟩
  · intro t
    rw [htake]
    have harg : ('{' :: c0 :: (T ++ ['}'])) ++ t = '{' :: c0 :: (T ++ '}' :: t) := by
      simp
    rw [harg]
    exact mat3_at c0 T t ha hTc
  · rw [htake]
    exact ⟨'{', c0 :: T, '}', by simp, by decide, by decide⟩

/-- Inversion of `mat4`. -/
theorem mat4_inv (s : Str) (n : Nat) (hs : mat4 s = some n) :
    ∃ c0 r, s = '%' :: c0 :: r ∧ (c0 == 's' || c0 == 'd') = true ∧ n = 2 := by
  unfold mat4 at hs
  split at hs
  · rename_i c0 r
    by_cases hc : (c0 == 's' || c0 == 'd') = true
    · rw [if_pos hc] at hs
      injection hs with hn
      exact ⟨c0, r, rfl, hc, hn.symm⟩
    · rw [if_neg hc] at hs
      cases hs
  · cases hs

/-- An `s`/`d` flag character is an end character. -/
theorem sd_endCh (c : Char) (h : (c == 's' || c == 'd') = true) : endCh c = true := by
  have h2 : c = 's' ∨ c = 'd' := by simpa using h
  rcases h2 with h2 | h2 <;> simp [endCh, h2]

/-- `mat4` rejects a non-start head. -/
theorem mat4_none (c : Char) (s : Str) (hc : startCh c = false) :
    mat4 (c :: s) = none := by
  unfold mat4
  split
  · rename_i c0 rest heq
    exfalso
    injection heq with h1 _
    rw [h1] at hc
    simp [startCh] at hc
  · rfl

/-- `mat4` satisfies the matcher contract. -/
theorem matcherGood_mat4 : matcherGood mat4 := by
  refine ⟨?_, mat4_none, rfl⟩
  intro s n hs
  obtain ⟨c0, r, rfl, hc, rfl⟩ := mat4_inv s n hs
  have htake : ('%' :: c0 :: r).take 2 = ['%', c0] := rfl
  refine ⟨by omega, by simp, ?_, ?_⟩
  · intro t
    rw [htake]
    have he : mat4 ('%' :: c0 :: t) =
        (if c0 == 's' || c0 == 'd' then some 2 else none) := rfl
    show mat4 ('%' :: c0 :: t) = some 2
    rw [he, if_pos hc]
  · rw [htake]
    exact ⟨'%', [], c0, rfl, by decide, sd_endCh c0 hc⟩

/-- Inversion of `mat5`. -/
theorem mat5_inv (s : Str) (n : Nat) (hs : mat5 s = some n) :
    ∃ T c0 r2, s = '%' :: '(' :: (T ++ ')' :: c0 :: r2) ∧ 0 < T.length ∧
      (∀ c ∈ T, (c != ')') = true) ∧ (c0 == 's' || c0 == 'd') = true ∧
      n = T.length + 4 := by
  unfold mat5 at hs
  split at hs
  · rename_i rest
    simp only at hs
    by_cases hk : countWhile (fun c => c != ')') rest = 0
    · rw [if_pos hk] at hs
      cases hs
    · rw [if_neg hk] at hs
      split at hs
      · rename_i c0 r2 hdrop
        by_cases hc : (c0 == 's' || c0 == 'd') = true
        · rw [if_pos hc] at hs
          injection hs with hn
          have hkle : countWhile (fun c => c != ')') rest ≤ rest.length :=
            countWhile_le_length _ rest
          refine ⟨rest.take (countWhile (fun c => c != ')') rest), c0, r2, ?_, ?_,
            ?_, hc, ?_⟩
          · rw [← hdrop, List.take_append_drop]
          · rw [List.length_take]
            omega
          · exact countWhile_take _ rest
          · rw [List.length_take]
            omega
        · rw [if_neg hc] at hs
          cases hs
      · cases hs
  · cases hs

/-- `mat5` matches its canonical span under any continuation. -/
theorem mat5_at (T t : Str) (c0 : Char) (hT0 : 0 < T.length)
    (hTc : ∀ c ∈ T, (c != ')') = true) (hc : (c0 == 's' || c0 == 'd') = true) :
    mat5 ('%' :: '(' :: (T ++ ')' :: c0 :: t)) = some (T.length + 4) := by
  have he : mat5 ('%' :: '(' :: (T ++ ')' :: c0 :: t)) =
      (if countWhile (fun c => c != ')') (T ++ ')' :: c0 :: t) = 0 then none
       else
         match (T ++ ')' :: c0 :: t).drop
             (countWhile (fun c => c != ')') (T ++ ')' :: c0 :: t)) with
         | ')' :: c :: _ =>
             if c == 's' || c == 'd' then
               some (countWhile (fun c => c != ')') (T ++ ')' :: c0 :: t) + 4)
             else none
         | _ => none) := rfl
  have hcw : countWhile (fun c => c != ')') (T ++ ')' :: c0 :: t) = T.length := by
    rw [countWhile_append_all _ _ _ hTc, countWhile_cons_neg _ _ (by decide)]
    omega
  rw [he, hcw, if_neg (by omega), List.drop_left]
  show (if c0 == 's' || c0 == 'd' then some (T.length + 4) else none) =
    some (T.length + 4)
  rw [if_pos hc]

/-- `mat5` rejects a non-start head. -/
theorem mat5_none (c : Char) (s : Str) (hc : startCh c = false) :
    mat5 (c :: s) = none := by
  unfold mat5
  split
  · rename_i rest heq
    exfalso
    injection heq with h1 _
    rw [h1] at hc
    simp [startCh] at hc
  · rfl

/-- `mat5` satisfies the matcher contract. -/
theorem matcherGood_mat5 : matcherGood mat5 := by
  refine ⟨?_, mat5_none, rfl⟩
  intro s n hs
  obtain ⟨T, c0, r2, rfl, hT0, hTc, hc, rfl⟩ := mat5_inv s n hs
  have htake : ('%' :: '(' :: (T ++ ')' :: c0 :: r2)).take (T.length + 4) =
      '%' :: '(' :: (T ++ [')', c0]) := by
    rw [List.take_succ_cons, List.take_succ_cons, List.take_append]
    simp
  refine ⟨by omega, by simp, ?_, ?_⟩
  · intro t
    rw [htake]
    have harg : ('%' :: '(' :: (T ++ [')', c0])) ++ t =
        '%' :: '(' :: (T ++ ')' :: c0 :: t) := by simp
    rw [harg]
    exact mat5_at T t c0 hT0 hTc hc
  · rw [htake]
    exact ⟨'%', '(' :: T ++ [')'], c0, by simp, by decide, sd_endCh c0 hc⟩

/-- Inversion of `mat6`. -/
theorem mat6_inv (s : Str) (n : Nat) (hs : mat6 s = some n) :
    ∃ T r2, s = '$' :: '{' :: (T ++ '}' :: r2) ∧ 0 < T.length ∧
      (∀ c ∈ T, (c != '}') = true) ∧ n = T.length + 3 := by
  unfold mat6 at hs
  split at hs
  · rename_i rest
    simp only at hs
    by_cases hk : countWhile (fun c => c != '}') rest = 0
    · rw [if_pos hk] at hs
      cases hs
    · rw [if_neg hk] at hs
      split at hs
      · rename_i r2 hdrop
        injection hs with hn
        have hkle : countWhile (fun c => c != '}') rest ≤ rest.length :=
          countWhile_le_length _ rest
        refine ⟨rest.take (countWhile (fun c => c != '}') rest), r2, ?_, ?_, ?_, ?_⟩
        · rw [← hdrop, List.take_append_drop]
        · rw [List.length_take]
          omega
        · exact countWhile_take _ rest
        · rw [List.length_take]
          omega
      · cases hs
  · cases hs

/-- `mat6` matches its canonical span under any continuation. -/
theorem mat6_at (T t : Str) (hT0 : 0 < T.length) (hTc : ∀ c ∈ T, (c != '}') = true) :
    mat6 ('$' :: '{' :: (T ++ '}' :: t)) = some (T.length + 3) := by
  have he : mat6 ('$' :: '{' :: (T ++ '}' :: t)) =
      (if countWhile (fun c => c != '}') (T ++ '}' :: t) = 0 then none
       else
         match (T ++ '}' :: t).drop
             (countWhile (fun c => c != '}') (T ++ '}' :: t)) with
         | '}' :: _ => some (countWhile (fun c => c != '}') (T ++ '}' :: t) + 3)
         | _ => none) := rfl
  have hcw : countWhile (fun c => c != '}') (T ++ '}' :: t) = T.length := by
    rw [countWhile_append_all _ _ _ hTc, countWhile_cons_neg _ _ (by decide)]
    omega
  rw [he, hcw, if_neg (by omega), List.drop_left]
  rfl

/-- `mat6` rejects a non-start head. -/
theorem mat6_none (c : Char) (s : Str) (hc : startCh c = false) :
    mat6 (c :: s) = none := by
  unfold mat6
  split
  · rename_i rest heq
    exfalso
    injection heq with h1 _
    rw [h1] at hc
    simp [startCh] at hc
  · rfl

/-- `mat6` satisfies the matcher contract. -/
theorem matcherGood_mat6 : matcherGood mat6 := by
  refine ⟨?_, mat6_none, rfl⟩
  intro s n hs
  obtain ⟨T, r2, rfl, hT0, hTc, rfl⟩ := mat6_inv s n hs
  have htake : ('$' :: '{' :: (T ++ '}' :: r2)).take (T.length + 3) =
      '$' :: '{' :: (T ++ ['}']) := by
    rw [List.take_succ_cons, List.take_succ_cons, List.take_append]
    simp
  refine ⟨by omega, by simp, ?_, ?_⟩
  · intro t
    rw [htake]
    have harg : ('$' :: '{' :: (T ++ ['}'])) ++ t = '$' :: '{' :: (T ++ '}' :: t) := by
      simp
    rw [harg]
    exact mat6_at T t hT0 hTc
  · rw [htake]
    exact ⟨'$', '{' :: T, '}', by simp, by decide, by decide⟩

/-- Inversion of `mat7`. -/
theorem mat7_inv (s : Str) (n : Nat) (hs : mat7 s = some n) :
    ∃ T r2, s = '[' :: '[' :: (T ++ ']' :: ']' :: r2) ∧ 0 < T.length ∧
      (∀ c ∈ T, isWordSpaceCh c = true) ∧ n = T.length + 4 := by
  unfold mat7 at hs
  split at hs
  · rename_i rest
    simp only at hs
    by_cases hk : countWhile isWordSpaceCh rest = 0
    · rw [if_pos hk] at hs
      cases hs
    · rw [if_neg hk] at hs
      split at hs
      · rename_i r2 hdrop
        injection hs with hn
        have hkle : countWhile isWordSpaceCh rest ≤ rest.length :=
          countWhile_le_length _ rest
        refine ⟨rest.take (countWhile isWordSpaceCh rest), r2, ?_, ?_, ?_, ?_⟩
        · rw [← hdrop, List.take_append_drop]
        · rw [List.length_take]
          omega
        · exact countWhile_take _ rest
        · rw [List.length_take]
          omega
      · cases hs
  · cases hs

/-- `mat7` matches its canonical span under any continuation. -/
theorem mat7_at (T t : Str) (hT0 : 0 < T.length)
    (hTc : ∀ c ∈ T, isWordSpaceCh c = true) :
    mat7 ('[' :: '[' :: (T ++ ']' :: ']' :: t)) = some (T.length + 4) := by
  have he : mat7 ('[' :: '[' :: (T ++ ']' :: ']' :: t)) =
      (if countWhile isWordSpaceCh (T ++ ']' :: ']' :: t) = 0 then none
       else
         match (T ++ ']' :: ']' :: t).drop
             (countWhile isWordSpaceCh (T ++ ']' :: ']' :: t)) with
         | ']' :: ']' :: _ =>
             some (countWhile isWordSpaceCh (T ++ ']' :: ']' :: t) + 4)
         | _ => none) := rfl
  have hcw : countWhile isWordSpaceCh (T ++ ']' :: ']' :: t) = T.length := by
    rw [countWhile_append_all _ _ _ hTc, countWhile_cons_neg _ _ (by decide)]
    omega
  rw [he, hcw, if_neg (by omega), List.drop_left]
  rfl

/-- `mat7` rejects a non-start head. -/
theorem mat7_none (c : Char) (s : Str) (hc : startCh c = false) :
    mat7 (c :: s) = none := by
  unfold mat7
  split
  · rename_i rest heq
    exfalso
    injection heq with h1 _
    rw [h1] at hc
    simp [startCh] at hc
  · rfl

/-- `mat7` satisfies the matcher contract. -/
theorem matcherGood_mat7 : matcherGood mat7 := by
  refine ⟨?_, mat7_none, rfl⟩
  intro s n hs
  obtain ⟨T, r2, rfl, hT0, hTc, rfl⟩ := mat7_inv s n hs
  have htake : ('[' :: '[' :: (T ++ ']' :: ']' :: r2)).take (T.length + 4) =
      '[' :: '[' :: (T ++ [']', ']']) := by
    rw [List.take_succ_cons, List.take_succ_cons, List.take_append]
    simp
  refine ⟨by omega, by simp, ?_, ?_⟩
  · intro t
    rw [htake]
    have harg : ('[' :: '[' :: (T ++ [']', ']'])) ++ t =
        '[' :: '[' :: (T ++ ']' :: ']' :: t) := by simp
    rw [harg]
    exact mat7_at T t hT0 hTc
  · rw [htake]
    exact ⟨'[', '[' :: T ++ [']'], ']', by simp, by decide, by decide⟩

/-- All seven patterns satisfy the matcher contract. -/
theorem patterns_good : ∀ m ∈ patterns, matcherGood m := by
  intro m hm
  simp only [patterns, List.mem_cons] at hm
  rcases hm with rfl | rfl | rfl | rfl | rfl | rfl | rfl | h
  · exact matcherGood_mat1
  · exact matcherGood_mat2
  · exact matcherGood_mat3
  · exact matcherGood_mat4
  · exact matcherGood_mat5
  · exact matcherGood_mat6
  · exact matcherGood_mat7
  · simp at h

end MatcherLemmas

section CrossLemmas

/-- `pfx` on two cons cells. -/
theorem pfx_cons (a b : Char) (as bs : Str) :
    pfx (a :: as) (b :: bs) = (a == b && pfx as bs) := rfl

/-- Head mismatch refutes a prefix. -/
theorem pfx_cons_ne (a b : Char) (as bs : Str) (h : a ≠ b) :
    pfx (a :: as) (b :: bs) = false := by
  rw [pfx_cons]
  simp [h]

/-- `PLACEHOLDER` does not start with an underscore. -/
theorem ph_pfx_underscore (Y : Str) : pfx PH ('_' :: Y) = false := rfl

/-- The marker written with its leading underscores peeled off. -/
theorem marker_cons2 (i : Nat) :
    marker i = '_' :: '_' :: ((PH ++ ['_']) ++ (natStr i ++ msuf)) := by
  rw [marker_eq, mpre_eq]
  simp

/-- `mpre` with one underscore peeled off. -/
theorem mpre_drop1 : mpre.drop 1 = '_' :: (PH ++ ['_']) := by decide

/-- A shaped chunk never prefixes a string that starts at or inside a
marker. -/
theorem shaped_no_pfx_marker (c : Str) (hsh : shaped c) (i : Nat) (u w R : Str)
    (hm : marker i = u ++ w) (hw : w ≠ []) : pfx c (w ++ R) = false := by
  obtain ⟨a, mid, z, rfl, hsa, _⟩ := hsh
  cases w with
  | nil => exact absurd rfl hw
  | cons w0 ws =>
      have hw0 : w0 ∈ marker i := by
        rw [hm]
        exact List.mem_append.mpr (Or.inr (by simp))
      have hst := (marker_chars i w0 hw0).1
      show pfx (a :: (mid ++ [z])) (w0 :: (ws ++ R)) = false
      apply pfx_cons_ne
      intro he
      rw [he] at hsa
      rw [hsa] at hst
      cases hst

/-- A clean shaped chunk cannot extend from a literal into a marker. -/
theorem shaped_no_cross (c v w : Str) (i : Nat) (R : Str) (hsh : shaped c)
    (hcl : infx PH c = false) (hc : c = v ++ w) (hw : w ≠ [])
    (hp : pfx w (marker i ++ R) = true) : False := by
  obtain ⟨t, ht⟩ := (pfx_iff _ _).mp hp
  rcases List.append_eq_append_iff.mp ht with ⟨m, hm1, hm2⟩ | ⟨m, hm1, hm2⟩
  · -- hm1 : w = marker i ++ m : the chunk swallows the marker
    have : infx PH c = true := by
      rw [hc, hm1]
      have h1 : infx PH (marker i) := ph_infx_marker i
      have h2 := infx_mono PH (marker i) v m h1
      simpa [List.append_assoc] using h2
    rw [this] at hcl
    cases hcl
  · -- hm1 : marker i = w ++ m : the chunk ends inside the marker
    obtain ⟨a, mid, z, hcz, _, hez⟩ := hsh
    -- w ends with z
    have hc2 : v ++ w = (a :: mid) ++ [z] := by
      rw [← hc, hcz]
    rcases List.append_eq_append_iff.mp hc2 with ⟨m2, hk1, hk2⟩ | ⟨m2, hk1, hk2⟩
    · -- hk2 : w = m2 ++ [z]
      have hz : z ∈ marker i := by
        rw [hm1, hk2]
        simp
      have := (marker_chars i z hz).2
      rw [hez] at this
      cases this
    · -- hk2 : [z] = m2 ++ w
      have hwz : w = [z] := by
        cases m2 with
        | nil => simpa using hk2.symm
        | cons x xs =>
            rw [List.cons_append] at hk2
            injection hk2 with _ h2
            exact absurd (List.append_eq_nil.mp h2.symm).2 hw
      have hz : z ∈ marker i := by
        rw [hm1, hwz]
        simp
      have := (marker_chars i z hz).2
      rw [hez] at this
      cases this

/-- Two digit strings followed by an underscore align. -/
theorem digits_align (d1 d2 X Y : Str) (h1 : ∀ c ∈ d1, c ∈ decDigits)
    (h2 : ∀ c ∈ d2, c ∈ decDigits)
    (he : d1 ++ '_' :: X = d2 ++ '_' :: Y) : d1 = d2 := by
  rcases List.append_eq_append_iff.mp he with ⟨m, hm1, hm2⟩ | ⟨m, hm1, hm2⟩
  · -- hm1 : d2 = d1 ++ m, hm2 : '_' :: X = m ++ '_' :: Y
    cases m with
    | nil => rw [hm1]; simp
    | cons m0 ms =>
        exfalso
        have hm0 : m0 ∈ decDigits :=
          h2 m0 (by rw [hm1]; exact List.mem_append.mpr (Or.inr (by simp)))
        rw [List.cons_append] at hm2
        injection hm2 with hu _
        exact (dig_chars m0 hm0).2.2 hu.symm
  · -- hm1 : d1 = d2 ++ m, hm2 : '_' :: Y = m ++ '_' :: X
    cases m with
    | nil => rw [hm1]; simp
    | cons m0 ms =>
        exfalso
        have hm0 : m0 ∈ decDigits :=
          h1 m0 (by rw [hm1]; exact List.mem_append.mpr (Or.inr (by simp)))
        rw [List.cons_append] at hm2
        injection hm2 with hu _
        exact (dig_chars m0 hm0).2.2 hu.symm

/-- A marker prefixing another marker's render forces equal indices. -/
theorem marker_pfx_marker (i j : Nat) (R : Str)
    (hp : pfx (marker i) (marker j ++ R) = true) : i = j := by
  obtain ⟨t, ht⟩ := (pfx_iff _ _).mp hp
  rw [marker_eq, marker_eq, msuf_eq] at ht
  have ht2 : mpre ++ (natStr j ++ '_' :: '_' :: R) =
      mpre ++ (natStr i ++ '_' :: '_' :: t) := by
    simpa [List.append_assoc] using ht
  have ht3 := List.append_cancel_left ht2
  have hd := digits_align (natStr j) (natStr i) ('_' :: R) ('_' :: t)
    (natStr_digits j) (natStr_digits i) ht3
  exact natStr_inj i j hd.symm

/-- `PLACEHOLDER` is never a prefix of a rendering with clean literals. -/
theorem no_ph_pfx : ∀ (segs : List (Str × Nat)) (last : Str),
    (∀ pr ∈ segs, infx PH pr.1 = false) → infx PH last = false →
    pfx PH (rendM segs last) = false
  | [], last, _, hl => by
      rw [rendM]
      by_contra h
      rw [Bool.not_eq_false] at h
      obtain ⟨t, ht⟩ := (pfx_iff _ _).mp h
      have : infx PH last = true := by
        rw [ht]
        exact infx_self_right PH t
      rw [this] at hl
      cases hl
  | (s, i) :: rest, last, hc, hl => by
      rw [rendM]
      by_contra h
      rw [Bool.not_eq_false] at h
      have hs : infx PH s = false := hc (s, i) (by simp)
      have h2 : pfx PH (s ++ (marker i ++ rendM rest last)) = true := by
        simpa [List.append_assoc] using h
      rcases pfx_append_split PH s _ h2 with ⟨t, ht⟩ | ⟨w, hw1, hw2⟩
      · have : infx PH s = true := by
          rw [ht]
          exact infx_self_right PH t
        rw [this] at hs
        cases hs
      · cases w with
        | nil =>
            rw [List.append_nil] at hw1
            have : infx PH s = true := by
              rw [← hw1]
              have := infx_self PH [] []
              simpa using this
            rw [this] at hs
            cases hs
        | cons w0 ws =>
            have hw0 : w0 ∈ PH := by
              rw [hw1]
              exact List.mem_append.mpr (Or.inr (by simp))
            obtain ⟨mt, hmt⟩ : ∃ mt, marker i = '_' :: mt :=
              ⟨'_' :: ((PH ++ ['_']) ++ (natStr i ++ msuf)), marker_cons2 i⟩
            rw [hmt, List.cons_append] at hw2
            rw [pfx_cons_ne w0 '_' ws _ (ph_chars w0 hw0).2.2.1] at hw2
            cases hw2

end CrossLemmas


section CrossLemmas2

/-- `mpre` from position 13. -/
theorem mpre_drop13 : mpre.drop 13 = ['_'] := by decide

/-- A marker never matches at a digit. -/
theorem marker_pfx_digit (i : Nat) (d : Char) (hd : d ∈ decDigits) (Z : Str) :
    pfx (marker i) (d :: Z) = false := by
  rw [marker_cons2]
  exact pfx_cons_ne '_' d _ _ (fun h => (dig_chars d hd).2.2 h.symm)

/-- A marker cannot start inside a clean literal and cross into the marker
that follows the literal. -/
theorem marker_no_cross (i j : Nat) (v w R : Str) (hm : marker i = v ++ w)
    (hv : v ≠ []) (hcl : infx PH v = false)
    (hp : pfx w (marker j ++ R) = true) : False := by
  have hm2 : mpre ++ (natStr i ++ msuf) = v ++ w := by
    rw [← hm, marker_eq]
    simp [List.append_assoc]
  rcases List.append_eq_append_iff.mp hm2 with ⟨m, hm3, hm4⟩ | ⟨m, hm3, hm4⟩
  · -- hm3 : v = mpre ++ m : v contains mpre, hence PH
    have : infx PH v = true := by
      rw [hm3]
      exact infx_mono_right _ _ _ ph_infx_mpre
    rw [this] at hcl
    cases hcl
  · -- hm3 : mpre = v ++ m, hm4 : w = m ++ (natStr i ++ msuf)
    have hq1 : 0 < v.length := List.length_pos.mpr hv
    have hqlen : v.length + m.length = 14 := by
      have h2 := congrArg List.length hm3
      simp only [List.length_append] at h2
      rw [mpre_length] at h2
      omega
    by_cases hq : 13 ≤ v.length
    · have hvt : mpre.take v.length = v := by
        rw [hm3]
        exact List.take_left v m
      have : infx PH v = true := by
        rw [← hvt]
        exact mpre_take_ph v.length (by omega) hq
      rw [this] at hcl
      cases hcl
    · have hm5 : pfx m (marker j ++ R) = true := by
        rw [hm4] at hp
        exact pfx_of_append m _ _ hp
      rcases pfx_append_split m (marker j) R hm5 with ⟨t, htj⟩ | ⟨w2, hw2, _⟩
      · -- htj : marker j = m ++ t : m prefixes marker j, hence prefixes mpre
        have hmj : marker j = m ++ t := htj
        have hmj2 : mpre ++ (natStr j ++ msuf) = m ++ t := by
          rw [← hmj, marker_eq]
          simp [List.append_assoc]
        have hpm : pfx m mpre = true := by
          rcases List.append_eq_append_iff.mp hmj2 with ⟨k, hk1, _⟩ | ⟨k, hk1, _⟩
          · -- hk1 : m = mpre ++ k : too long
            exfalso
            have h2 := congrArg List.length hk1
            simp only [List.length_append] at h2
            rw [mpre_length] at h2
            omega
          · -- hk1 : mpre = m ++ k
            exact (pfx_iff _ _).mpr ⟨k, hk1⟩
        have hmd : mpre.drop v.length = m := by
          rw [hm3]
          exact List.drop_left v m
        have h13 := mpre_drop_pfx v.length (by omega) hq1 (by rw [hmd]; exact hpm)
        omega
      · -- hw2 : m = marker j ++ w2 : m is far too short to contain a marker
        have h2 := congrArg List.length hw2
        simp only [List.length_append] at h2
        have hmj : 17 ≤ (marker j).length := by
          rw [marker_eq]
          have hne := natStr_ne_nil j
          have hpos : 1 ≤ (natStr j).length := List.length_pos.mpr hne
          simp only [List.length_append]
          rw [mpre_length]
          have : msuf.length = 2 := by decide
          omega
        omega

end CrossLemmas2

section CrossLemmas3

/-- A marker cannot match at the two-underscore tail of another marker. -/
theorem marker_at_msuf (i : Nat) (segs : List (Str × Nat)) (last : Str)
    (hC : ∀ pr ∈ segs, infx PH pr.1 = false) (hl : infx PH last = false)
    (hp : pfx (marker i) ('_' :: '_' :: rendM segs last) = true) : False := by
  rw [marker_cons2, pfx_cons] at hp
  simp only [beq_self_eq_true, Bool.true_and] at hp
  rw [pfx_cons] at hp
  simp only [beq_self_eq_true, Bool.true_and] at hp
  have hp2 : pfx PH (rendM segs last) = true := by
    have hre : (PH ++ ['_']) ++ (natStr i ++ msuf) =
        PH ++ (['_'] ++ (natStr i ++ msuf)) := by simp
    rw [hre] at hp
    exact pfx_of_append _ _ _ hp
  rw [no_ph_pfx segs last hC hl] at hp2
  cases hp2

/-- A marker cannot match at the final underscore of another marker. -/
theorem marker_at_last_underscore (i : Nat) (segs : List (Str × Nat)) (last : Str)
    (hC : ∀ pr ∈ segs, infx PH pr.1 = false) (hl : infx PH last = false)
    (hp : pfx (marker i) ('_' :: rendM segs last) = true) : False := by
  rw [marker_cons2, pfx_cons] at hp
  simp only [beq_self_eq_true, Bool.true_and] at hp
  cases segs with
  | nil =>
      rw [rendM] at hp
      obtain ⟨t, ht⟩ := (pfx_iff _ _).mp hp
      have : infx PH last = true := by
        rw [ht]
        exact (infx_iff _ _).mpr ⟨['_'], ['_'] ++ (natStr i ++ msuf) ++ t, by simp⟩
      rw [this] at hl
      cases hl
  | cons pr rest =>
      obtain ⟨s2, j2⟩ := pr
      rw [rendM] at hp
      have hp2 : pfx ('_' :: ((PH ++ ['_']) ++ (natStr i ++ msuf)))
          (s2 ++ (marker j2 ++ rendM rest last)) = true := by
        simpa [List.append_assoc] using hp
      have hs2 : infx PH s2 = false := hC (s2, j2) (by simp)
      rcases pfx_append_split _ s2 _ hp2 with ⟨t, ht⟩ | ⟨w2, hw2, hpw2⟩
      · have : infx PH s2 = true := by
          rw [ht]
          exact (infx_iff _ _).mpr ⟨['_'], ['_'] ++ (natStr i ++ msuf) ++ t, by simp⟩
        rw [this] at hs2
        cases hs2
      · cases s2 with
        | nil =>
            rw [List.nil_append] at hw2
            rw [← hw2] at hpw2
            rw [marker_cons2 j2, List.cons_append, pfx_cons] at hpw2
            simp only [beq_self_eq_true, Bool.true_and] at hpw2
            have hp3 : pfx PH
                (('_' :: ((PH ++ ['_']) ++ (natStr j2 ++ msuf))) ++
                  rendM rest last) = true := by
              have hre : (PH ++ ['_']) ++ (natStr i ++ msuf) =
                  PH ++ (['_'] ++ (natStr i ++ msuf)) := by simp
              rw [hre] at hpw2
              exact pfx_of_append _ _ _ hpw2
            rw [List.cons_append, ph_pfx_underscore] at hp3
            cases hp3
        | cons c2 s2' =>
            rw [List.cons_append] at hw2
            injection hw2 with hczz htail
            have htail2 : PH ++ (['_'] ++ (natStr i ++ msuf)) = s2' ++ w2 := by
              simpa [List.append_assoc] using htail
            rcases List.append_eq_append_iff.mp htail2 with ⟨m3, hm31, _⟩ |
              ⟨m3, hm31, hm32⟩
            · -- hm31 : s2' = PH ++ m3
              have hinf : infx PH (c2 :: s2') = true := by
                rw [hm31]
                exact (infx_iff _ _).mpr ⟨[c2], m3, by simp⟩
              rw [hinf] at hs2
              cases hs2
            · -- hm31 : PH = s2' ++ m3, hm32 : w2 = m3 ++ (['_'] ++ ...)
              cases m3 with
              | nil =>
                  rw [List.append_nil] at hm31
                  have hinf : infx PH (c2 :: s2') = true := by
                    rw [← hm31]
                    exact (infx_iff _ _).mpr ⟨[c2], [], by simp⟩
                  rw [hinf] at hs2
                  cases hs2
              | cons p0 ps =>
                  have hp0 : p0 ∈ PH := by
                    rw [hm31]
                    exact List.mem_append.mpr (Or.inr (by simp))
                  rw [hm32] at hpw2
                  obtain ⟨t2, ht2⟩ := (pfx_iff _ _).mp hpw2
                  rw [marker_cons2 j2] at ht2
                  simp only [List.cons_append, List.append_assoc] at ht2
                  injection ht2 with hu2 _
                  exact (ph_chars p0 hp0).2.2.1 hu2.symm

/-- A marker never matches starting strictly inside another marker. -/
theorem marker_inside_marker (i j : Nat) (u w : Str) (segs : List (Str × Nat))
    (last : Str) (hC : ∀ pr ∈ segs, infx PH pr.1 = false)
    (hl : infx PH last = false) (hm : marker j = u ++ w) (hu : u ≠ []) (hw : w ≠ [])
    (hp : pfx (marker i) (w ++ rendM segs last) = true) : False := by
  have hm2 : mpre ++ (natStr j ++ msuf) = u ++ w := by
    rw [← hm, marker_eq]
    simp [List.append_assoc]
  rcases sfx_append_split w mpre (natStr j ++ msuf) ⟨u, hm2⟩ with
    ⟨u2, hsf⟩ | ⟨v1, ⟨u1, hpre⟩, hwv⟩
  · -- w is a suffix of the digits-plus-suffix part
    rcases sfx_append_split w (natStr j) msuf ⟨u2, hsf⟩ with
      ⟨u3, hsf2⟩ | ⟨v2, ⟨u4, hd⟩, hwv2⟩
    · -- w is a suffix of msuf
      rw [msuf_eq] at hsf2
      cases u3 with
      | nil =>
          rw [List.nil_append] at hsf2
          rw [← hsf2] at hp
          exact marker_at_msuf i segs last hC hl hp
      | cons a3 u3' =>
          rw [List.cons_append] at hsf2
          injection hsf2 with _ h5
          cases u3' with
          | nil =>
              rw [List.nil_append] at h5
              rw [← h5] at hp
              exact marker_at_last_underscore i segs last hC hl hp
          | cons a4 u4' =>
              rw [List.cons_append] at h5
              injection h5 with _ h6
              exact hw (List.append_eq_nil.mp h6.symm).2
    · -- w = v2 ++ msuf with v2 a suffix of the digits
      cases v2 with
      | nil =>
          rw [List.nil_append] at hwv2
          rw [hwv2, msuf_eq] at hp
          exact marker_at_msuf i segs last hC hl hp
      | cons d ds =>
          have hdd : d ∈ decDigits := by
            apply natStr_digits j
            rw [hd]
            exact List.mem_append.mpr (Or.inr (by simp))
          rw [hwv2, List.cons_append, List.cons_append] at hp
          rw [marker_pfx_digit i d hdd] at hp
          cases hp
  · -- w = v1 ++ digits ++ msuf with v1 a suffix of mpre
    cases v1 with
    | nil =>
        rw [List.nil_append] at hwv
        obtain ⟨d, ds, hds⟩ : ∃ d ds, natStr j = d :: ds := by
          cases hnd : natStr j with
          | nil => exact absurd hnd (natStr_ne_nil j)
          | cons d ds => exact ⟨d, ds, rfl⟩
        have hdd : d ∈ decDigits := by
          apply natStr_digits j
          rw [hds]
          simp
        rw [hwv, hds, List.cons_append, List.cons_append] at hp
        rw [marker_pfx_digit i d hdd] at hp
        cases hp
    | cons a1 v1' =>
        -- u = u1 and v1 nonempty
        have hueq : u = u1 := by
          have h5 : u ++ w = u1 ++ w := by
            calc u ++ w = mpre ++ (natStr j ++ msuf) := hm2.symm
              _ = (u1 ++ (a1 :: v1')) ++ (natStr j ++ msuf) := by rw [← hpre]
              _ = u1 ++ w := by rw [hwv]; simp [List.append_assoc]
          exact List.append_cancel_right h5
        have hu1 : u1 ≠ [] := by
          rw [← hueq]
          exact hu
        have hq1 : 0 < u1.length := List.length_pos.mpr hu1
        have hqlen : u1.length + (a1 :: v1').length = 14 := by
          have h2 := congrArg List.length hpre
          simp only [List.length_append] at h2
          rw [mpre_length] at h2
          omega
        have hp2 : pfx mpre ((a1 :: v1') ++ ((natStr j ++ msuf) ++ rendM segs last)) =
            true := by
          have hre : marker i = mpre ++ (natStr i ++ msuf) := by
            rw [marker_eq]
            simp [List.append_assoc]
          rw [hre] at hp
          have := pfx_of_append mpre _ _ hp
          rw [hwv] at this
          simpa [List.append_assoc] using this
        rcases pfx_append_split mpre (a1 :: v1') _ hp2 with ⟨t, ht⟩ | ⟨w2, hw2, hpw2⟩
        · -- a1 :: v1' = mpre ++ t : too long
          have h2 := congrArg List.length ht
          simp only [List.length_append] at h2
          rw [mpre_length] at h2
          omega
        · -- hw2 : mpre = (a1 :: v1') ++ w2 : v1 is a prefix of mpre
          have hvp : pfx (mpre.drop u1.length) mpre = true := by
            have hdrp : mpre.drop u1.length = a1 :: v1' := by
              rw [hpre]
              exact List.drop_left u1 _
            rw [hdrp]
            exact (pfx_iff _ _).mpr ⟨w2, hw2⟩
          have hpos1 : 0 < (a1 :: v1').length := by simp
          have h13 := mpre_drop_pfx u1.length (by omega) hq1 hvp
          have hq13 : u1.length = 13 := by omega
          -- v1 = mpre.drop 13 = ['_']
          have hv1 : a1 :: v1' = ['_'] := by
            have hdrp : mpre.drop u1.length = a1 :: v1' := by
              rw [hpre]
              exact List.drop_left u1 _
            rw [← hdrp, hq13, mpre_drop13]
          -- so w = '_' :: digits ++ msuf and the match must put mpre there
          rw [hv1] at hp2
          -- pfx mpre ('_' :: (digits ++ msuf ++ rend))
          rw [mpre_eq, List.singleton_append, pfx_cons] at hp2
          simp only [beq_self_eq_true, Bool.true_and] at hp2
          -- pfx ('_' :: (PH ++ ['_'])) ((natStr j ++ msuf) ++ rend)
          obtain ⟨d, ds, hds⟩ : ∃ d ds, natStr j = d :: ds := by
            cases hnd : natStr j with
            | nil => exact absurd hnd (natStr_ne_nil j)
            | cons d ds => exact ⟨d, ds, rfl⟩
          have hdd : d ∈ decDigits := by
            apply natStr_digits j
            rw [hds]
            simp
          rw [hds] at hp2
          have hp3 : pfx ('_' :: (PH ++ ['_'])) (d :: ((ds ++ msuf) ++ rendM segs last)) =
              true := by
            simpa [List.append_assoc] using hp2
          rw [pfx_cons_ne '_' d _ _ (fun h => (dig_chars d hdd).2.2 h.symm)] at hp3
          cases hp3

end CrossLemmas3

section FindSpansLemmas

/-- `findAll` of the empty string. -/
theorem findAll_nil (m : Str → Option Nat) : findAll m [] = [] := rfl

/-- Prepending a non-matching character extends the first gap. -/
theorem findSpans_consGap (m : Str → Option Nat) (c : Char) (cs : Str) (ms : List Str)
    (hmc : m (c :: cs) = none ∨ m (c :: cs) = some 0)
    (hfs : FindSpans m cs ms) : FindSpans m (c :: cs) ms := by
  cases hfs with
  | last g hg =>
      apply FindSpans.last
      intro u v huv hv
      cases u with
      | nil =>
          rw [List.nil_append] at huv
          rw [← huv]
          simpa using hmc
      | cons u0 us =>
          rw [List.cons_append] at huv
          injection huv with _ h2
          exact hg us v h2 hv
  | step g cc rest ms' hg hmat hrest =>
      have hstep := FindSpans.step (c :: g) cc rest ms' ?_ hmat hrest
      · simpa using hstep
      · intro u v huv hv
        cases u with
        | nil =>
            rw [List.nil_append] at huv
            rw [← huv]
            simpa [List.append_assoc] using hmc
        | cons u0 us =>
            rw [List.cons_append] at huv
            injection huv with _ h2
            exact hg us v h2 hv

/-- `findAll` really is a gap/match decomposition. -/
theorem findSpans_sound (m : Str → Option Nat) (hm : matcherGood m) :
    ∀ (n : Nat) (s : Str), s.length ≤ n → FindSpans m s (findAll m s) := by
  intro n
  induction n with
  | zero =>
      intro s hs
      have hnil : s = [] := List.eq_nil_of_length_eq_zero (Nat.le_zero.mp hs)
      subst hnil
      exact .last [] (fun u v huv hv => absurd (List.append_eq_nil.mp huv.symm).2 hv)
  | succ k ih =>
      intro s hs
      cases s with
      | nil =>
          exact .last [] (fun u v huv hv => absurd (List.append_eq_nil.mp huv.symm).2 hv)
      | cons c cs =>
          cases hmc : m (c :: cs) with
          | none =>
              rw [findAll_cons]
              simp only [hmc]
              exact findSpans_consGap m c cs _ (Or.inl hmc)
                (ih cs (by simp at hs; omega))
          | some nn =>
              obtain ⟨hpos, hlen, hmat, _⟩ := hm.1 _ _ hmc
              rw [findAll_cons]
              simp only [hmc]
              rw [if_neg (by omega)]
              have hdrop : FindSpans m ((c :: cs).drop nn)
                  (findAll m ((c :: cs).drop nn)) := by
                apply ih
                simp only [List.length_drop, List.length_cons]
                simp only [List.length_cons] at hs
                omega
              have hstep := FindSpans.step [] ((c :: cs).take nn) ((c :: cs).drop nn)
                (findAll m ((c :: cs).drop nn))
                (fun u v huv hv => absurd (List.append_eq_nil.mp huv.symm).2 hv)
                (matcherGood_matchesAt m hm _ nn hmc) hdrop
              simpa [List.take_append_drop] using hstep

/-- The scan makes no matches inside a run of non-start characters. -/
theorem findAll_skip_run (m : Str → Option Nat) (hm : matcherGood m) :
    ∀ (w : Str), (∀ ch ∈ w, startCh ch = false) → ∀ R,
      findAll m (w ++ R) = findAll m R
  | [], _, R => by simp
  | c :: cs, hw, R => by
      have hmc : m (c :: (cs ++ R)) = none := hm.2.1 c _ (hw c (by simp))
      rw [List.cons_append, findAll_cons]
      simp only [hmc]
      exact findAll_skip_run m hm cs (fun x hx => hw x (by simp [hx])) R

/-- Scanning a clean literal followed by a marker agrees with the
standalone scan of the literal. -/
theorem findAll_lit (m : Str → Option Nat) (hm : matcherGood m) :
    ∀ (n : Nat) (v : Str), v.length ≤ n → ∀ (i : Nat) (R : Str),
      (∀ c ∈ findAll m (v ++ (marker i ++ R)), infx PH c = false) →
      findAll m (v ++ (marker i ++ R)) = findAll m v ++ findAll m (marker i ++ R) := by
  intro n
  induction n with
  | zero =>
      intro v hv i R _
      have hnil : v = [] := List.eq_nil_of_length_eq_zero (Nat.le_zero.mp hv)
      subst hnil
      simp [findAll_nil]
  | succ k ih =>
      intro v hv i R hcl
      cases v with
      | nil => simp [findAll_nil]
      | cons c cs =>
          cases hmc : m (c :: (cs ++ (marker i ++ R))) with
          | none =>
              have hs : m (c :: cs) = none := by
                cases hs2 : m (c :: cs) with
                | none => rfl
                | some nn =>
                    have hext := matcherGood_extend m hm (c :: cs) (marker i ++ R)
                      nn hs2
                    rw [List.cons_append] at hext
                    rw [hext] at hmc
                    cases hmc
              rw [List.cons_append, findAll_cons]
              simp only [hmc]
              rw [findAll_cons m c cs]
              simp only [hs]
              apply ih cs (by simp at hv; omega) i R
              intro x hx
              apply hcl
              rw [List.cons_append, findAll_cons]
              simp only [hmc]
              exact hx
          | some nn =>
              obtain ⟨hpos, hlen, hmat, hshape⟩ := hm.1 _ _ hmc
              by_cases hle : nn ≤ (c :: cs).length
              · have hsl : m (c :: cs) = some nn := by
                  apply matcherGood_local m hm (c :: cs) (marker i ++ R) nn
                  · simpa using hmc
                  · exact hle
                have htk : (c :: (cs ++ (marker i ++ R))).take nn = (c :: cs).take nn := by
                  have h3 : ((c :: cs) ++ (marker i ++ R)).take nn = (c :: cs).take nn :=
                    List.take_append_of_le_length hle
                  simpa using h3
                have hdr : (c :: (cs ++ (marker i ++ R))).drop nn =
                    (c :: cs).drop nn ++ (marker i ++ R) := by
                  have h3 : ((c :: cs) ++ (marker i ++ R)).drop nn =
                      (c :: cs).drop nn ++ (marker i ++ R) :=
                    List.drop_append_of_le_length hle
                  simpa using h3
                rw [List.cons_append, findAll_cons]
                simp only [hmc]
                rw [if_neg (by omega), htk, hdr]
                rw [findAll_cons m c cs]
                simp only [hsl]
                rw [if_neg (by omega)]
                rw [List.cons_append]
                congr 1
                apply ih ((c :: cs).drop nn)
                  (by
                    simp only [List.length_drop, List.length_cons]
                    simp only [List.length_cons] at hv
                    omega) i R
                intro x hx
                apply hcl
                rw [List.cons_append, findAll_cons]
                simp only [hmc]
                rw [if_neg (by omega)]
                apply List.mem_cons_of_mem
                rw [hdr]
                exact hx
              · exfalso
                have hmem : (c :: (cs ++ (marker i ++ R))).take nn ∈
                    findAll m (c :: (cs ++ (marker i ++ R))) := by
                  rw [findAll_cons]
                  simp only [hmc]
                  rw [if_neg (by omega)]
                  exact List.mem_cons_self _ _
                have hclean : infx PH ((c :: (cs ++ (marker i ++ R))).take nn) =
                    false := by
                  apply hcl
                  rw [List.cons_append]
                  exact hmem
                apply shaped_no_cross ((c :: (cs ++ (marker i ++ R))).take nn)
                  (c :: cs) ((marker i ++ R).take (nn - (c :: cs).length)) i R hshape
                  hclean ?_ ?_ ?_
                · have h3 : ((c :: cs) ++ (marker i ++ R)).take nn =
                      (c :: cs).take nn ++
                        (marker i ++ R).take (nn - (c :: cs).length) :=
                    List.take_append_eq_append_take
                  have h4 : (c :: cs).take nn = c :: cs :=
                    List.take_of_length_le (by omega)
                  rw [h4] at h3
                  rw [← h3, List.cons_append]
                · rw [Ne, List.take_eq_nil_iff]
                  push_neg
                  refine ⟨by omega, ?_⟩
                  intro hnil
                  exact marker_ne_nil i (List.append_eq_nil.mp hnil).1
                · exact (pfx_iff _ _).mpr ⟨(marker i ++ R).drop (nn - (c :: cs).length),
                    (List.take_append_drop _ _).symm⟩

/-- The scan of a clean rendering distributes over the alternation. -/
theorem findAll_rend (m : Str → Option Nat) (hm : matcherGood m) :
    ∀ (segs : List (Str × Nat)) (last : Str),
      (∀ c ∈ findAll m (rendM segs last), infx PH c = false) →
      findAll m (rendM segs last) =
        segs.flatMap (fun pr => findAll m pr.1) ++ findAll m last
  | [], last, _ => by simp [rendM]
  | (s, i) :: rest, last, hcl => by
      have h1 : rendM ((s, i) :: rest) last = s ++ (marker i ++ rendM rest last) := by
        rw [rendM]
        simp [List.append_assoc]
      have hcl2 : ∀ c ∈ findAll m (s ++ (marker i ++ rendM rest last)),
          infx PH c = false := by
        rw [← h1]
        exact hcl
      have h2 : findAll m (marker i ++ rendM rest last) =
          findAll m (rendM rest last) := by
        apply findAll_skip_run m hm
        intro ch hch
        exact (marker_chars i ch hch).1
      have h3 := findAll_lit m hm s.length s (le_refl _) i (rendM rest last) hcl2
      have hcl3 : ∀ c ∈ findAll m (rendM rest last), infx PH c = false := by
        intro x hx
        apply hcl2
        rw [h3, h2]
        exact List.mem_append.mpr (Or.inr hx)
      rw [h1, h3, h2, findAll_rend m hm rest last hcl3]
      simp

end FindSpansLemmas

section RendLemmas

/-- `rendM` over an appended alternation. -/
theorem rendM_append : ∀ (A B : List (Str × Nat)) (last : Str),
    rendM (A ++ B) last = rendM A [] ++ rendM B last
  | [], B, last => by simp [rendM]
  | (s, i) :: A', B, last => by
      rw [List.cons_append, rendM, rendM, rendM_append A' B last]
      simp [List.append_assoc]

/-- Attaching a tail to a closed `rendM`. -/
theorem rendM_append_last : ∀ (A : List (Str × Nat)) (t : Str),
    rendM A [] ++ t = rendM A t
  | [], t => by simp [rendM]
  | (s, i) :: A', t => by
      rw [rendM, rendM, ← rendM_append_last A' t]
      simp [List.append_assoc]

/-- `rendP` over an appended alternation. -/
theorem rendP_append (ps : List Str) : ∀ (A B : List (Str × Nat)) (last : Str),
    rendP ps (A ++ B) last = rendP ps A [] ++ rendP ps B last
  | [], B, last => by simp [rendP]
  | (s, i) :: A', B, last => by
      rw [List.cons_append, rendP, rendP, rendP_append ps A' B last]
      simp [List.append_assoc]

/-- Attaching a tail to a closed `rendP`. -/
theorem rendP_append_last (ps : List Str) : ∀ (A : List (Str × Nat)) (t : Str),
    rendP ps A [] ++ t = rendP ps A t
  | [], t => by simp [rendP]
  | (s, i) :: A', t => by
      rw [rendP, rendP, ← rendP_append_last ps A' t]
      simp [List.append_assoc]

/-- `rendP` ignores placeholders beyond the marks in use. -/
theorem rendP_extend (ps qs : List Str) : ∀ (segs : List (Str × Nat)) (last : Str),
    (∀ j ∈ marks segs, j < ps.length) →
    rendP (ps ++ qs) segs last = rendP ps segs last
  | [], _, _ => rfl
  | (s, i) :: rest, last, h => by
      rw [rendP, rendP]
      have hi : i < ps.length := h i (by simp [marks])
      rw [List.getD_append _ _ _ _ hi]
      rw [rendP_extend ps qs rest last (fun j hj => h j (by simp [marks] at hj ⊢; exact Or.inr hj))]

/-- Element lookup at the seam of an appended list. -/
theorem getD_middle (ps : List Str) (c : Str) (X : List Str) :
    (ps ++ c :: X).getD ps.length [] = c := by
  rw [List.getD_eq_getElem _ _ (by simp)]
  rw [List.getElem_append_right (le_refl ps.length)]
  simp

/-- A gap of the scan refutes any fitted match. -/
theorem GapFit_of_NMS (m : Str → Option Nat) (g d : Str)
    (h : NoMatchSplit m g d) : GapFit m g := by
  intro u v huv hv c hma
  by_contra hcc
  rw [Bool.not_eq_false] at hcc
  obtain ⟨t, ht⟩ := (pfx_iff _ _).mp hcc
  have h2 := hma.2 (t ++ d)
  have h3 : v ++ d = c ++ (t ++ d) := by rw [ht]; simp
  rw [← h3] at h2
  rcases h u v huv hv with h4 | h4
  · rw [h4] at h2; cases h2
  · rw [h4] at h2
    injection h2 with h5
    have := List.length_pos.mpr hma.1
    omega

/-- A gap of the scan refutes any match within sight of the next match. -/
theorem GapFree_of_NMS (m : Str → Option Nat) (g c rest : Str)
    (h : NoMatchSplit m g (c ++ rest)) : GapFree m g c := by
  intro u v huv hv c2 hma
  by_contra hcc
  rw [Bool.not_eq_false] at hcc
  have hcc2 : pfx c2 ((v ++ c) ++ rest) = true := pfx_mono _ _ _ hcc
  obtain ⟨t, ht⟩ := (pfx_iff _ _).mp hcc2
  have h2 := hma.2 t
  have h3 : v ++ (c ++ rest) = c2 ++ t := by rw [← ht]; simp
  rw [← h3] at h2
  rcases h u v huv hv with h4 | h4
  · rw [h4] at h2; cases h2
  · rw [h4] at h2
    injection h2 with h5
    have := List.length_pos.mpr hma.1
    omega

/-- Every string the scan emits is shaped, clean of nothing, and a true
match at its position. -/
theorem findAll_shaped (m : Str → Option Nat) (hm : matcherGood m) :
    ∀ (n : Nat) (s : Str), s.length ≤ n → ∀ c ∈ findAll m s,
      shaped c ∧ MatchesAt m c := by
  intro n
  induction n with
  | zero =>
      intro s hs c hc
      have hnil : s = [] := List.eq_nil_of_length_eq_zero (Nat.le_zero.mp hs)
      subst hnil
      simp [findAll_nil] at hc
  | succ k ih =>
      intro s hs c hc
      cases s with
      | nil => simp [findAll_nil] at hc
      | cons c0 cs =>
          cases hmc : m (c0 :: cs) with
          | none =>
              rw [findAll_cons] at hc
              simp only [hmc] at hc
              exact ih cs (by simp at hs; omega) c hc
          | some nn =>
              obtain ⟨hpos, hlen, hmat, hshape⟩ := hm.1 _ _ hmc
              rw [findAll_cons] at hc
              simp only [hmc] at hc
              rw [if_neg (by omega)] at hc
              rcases List.mem_cons.mp hc with rfl | hc2
              · exact ⟨hshape, matcherGood_matchesAt m hm _ nn hmc⟩
              · apply ih ((c0 :: cs).drop nn)
                · simp only [List.length_drop, List.length_cons]
                  simp only [List.length_cons] at hs
                  omega
                · exact hc2

/-- The placeholder list of the extraction fold only grows by the match
list. -/
theorem extract_fold_snd : ∀ (ms : List Str) (st : Str × List Str),
    (ms.foldl (fun st mt =>
      (replaceFirst st.1 mt (marker st.2.length), st.2 ++ [mt])) st).2 =
      st.2 ++ ms
  | [], st => by simp
  | mt :: ms', st => by
      rw [List.foldl_cons, extract_fold_snd ms']
      simp

end RendLemmas

section ExtractStep

/-- `replaceFirst` for a clean shaped pending match passes over all
processed segments. -/
theorem replaceFirst_skip_rend (m : Str → Option Nat) (c mk2 : Str)
    (hsh : shaped c) (hcl : infx PH c = false) (hma : MatchesAt m c) :
    ∀ (segs : List (Str × Nat)) (Y : Str),
      (∀ pr ∈ segs, GapFit m pr.1) →
      replaceFirst (rendM segs [] ++ Y) c mk2 = rendM segs [] ++ replaceFirst Y c mk2
  | [], Y, _ => by simp [rendM]
  | (s, i) :: rest, Y, hfit => by
      have hnos : ∀ u v, s = u ++ v → v ≠ [] →
          pfx c (v ++ (marker i ++ (rendM rest [] ++ Y))) = false := by
        intro u v huv hv
        by_contra hcc
        rw [Bool.not_eq_false] at hcc
        rcases pfx_append_split c v _ hcc with ⟨t, htv⟩ | ⟨w, hw1, hw2⟩
        · have hfit1 := hfit (s, i) (by simp)
          have hp2 : pfx c v = true := by rw [htv]; exact pfx_refl_append c t
          rw [hfit1 u v huv hv c hma] at hp2
          cases hp2
        · cases hwe : w with
          | nil =>
              rw [hwe, List.append_nil] at hw1
              have hfit1 := hfit (s, i) (by simp)
              have hp2 : pfx c v = true := by
                rw [← hw1]
                simpa using pfx_refl_append c []
              rw [hfit1 u v huv hv c hma] at hp2
              cases hp2
          | cons w0 ws =>
              exact shaped_no_cross c v w i (rendM rest [] ++ Y) hsh hcl hw1
                (by rw [hwe]; simp) hw2
      have hnom : ∀ u v, marker i = u ++ v → v ≠ [] →
          pfx c (v ++ (rendM rest [] ++ Y)) = false := by
        intro u v huv hv
        exact shaped_no_pfx_marker c hsh i u v _ huv hv
      have hre : (rendM ((s, i) :: rest) [] ++ Y) =
          s ++ (marker i ++ (rendM rest [] ++ Y)) := by
        rw [rendM]
        simp [List.append_assoc]
      rw [hre, replaceFirst_skip s _ c mk2 hnos, replaceFirst_skip (marker i) _ c mk2 hnom]
      rw [replaceFirst_skip_rend m c mk2 hsh hcl hma rest Y
        (fun pr hpr => hfit pr (by simp [hpr]))]
      rw [rendM]
      simp [List.append_assoc]

/-- One `replaceFirst` of the extraction fold lands exactly on the
structural occurrence of its match. -/
theorem replaceFirst_step (m : Str → Option Nat) (c mk2 : Str)
    (hsh : shaped c) (hcl : infx PH c = false) (hma : MatchesAt m c)
    (done : List (Str × Nat)) (hfit : ∀ pr ∈ done, GapFit m pr.1)
    (g : Str) (hgap : GapFree m g c) (Y : Str) :
    replaceFirst (rendM done [] ++ (g ++ (c ++ Y))) c mk2 =
      rendM done [] ++ (g ++ (mk2 ++ Y)) := by
  rw [replaceFirst_skip_rend m c mk2 hsh hcl hma done _ hfit]
  congr 1
  have hnog : ∀ u v, g = u ++ v → v ≠ [] → pfx c (v ++ (c ++ Y)) = false := by
    intro u v huv hv
    by_contra hcc
    rw [Bool.not_eq_false] at hcc
    have hfit2 : pfx c (v ++ c) = true := by
      have hlen : c.length ≤ (v ++ c).length := by simp
      rw [← pfx_le_append c (v ++ c) Y hlen]
      simpa [List.append_assoc] using hcc
    rw [hgap u v huv hv c hma] at hfit2
    cases hfit2
  rw [replaceFirst_skip g _ c mk2 hnog]
  congr 1
  have hat := replaceFirst_at [] (c ++ Y) c mk2 hma.1
    (fun u v huv hv => absurd (List.append_eq_nil.mp huv.symm).2 hv)
    (pfx_refl_append c Y)
  simpa [List.drop_left] using hat

end ExtractStep

section ExtractFold

/-- Cleanliness descends to the parts of a concatenation. -/
theorem infx_false_of_append (p x y : Str) (h : infx p (x ++ y) = false) :
    infx p x = false ∧ infx p y = false := by
  constructor
  · by_contra hc
    rw [Bool.not_eq_false] at hc
    rw [infx_mono_right p x y hc] at h
    cases h
  · by_contra hc
    rw [Bool.not_eq_false] at hc
    rw [infx_mono_left p y x hc] at h
    cases h

/-- Processing all matches of one literal, left to right. -/
theorem extract_fold_lit (m : Str → Option Nat) (ℓ : Str) (ms : List Str)
    (hfs : FindSpans m ℓ ms) :
    ∀ (done : List (Str × Nat)) (ps : List Str) (Y : Str),
      (∀ pr ∈ done, GapFit m pr.1) →
      (∀ c ∈ ms, shaped c ∧ infx PH c = false ∧ MatchesAt m c) →
      infx PH ℓ = false →
      ∃ (ins : List (Str × Nat)) (gN : Str),
        (ms.foldl (fun st mt =>
            (replaceFirst st.1 mt (marker st.2.length), st.2 ++ [mt]))
          (rendM done [] ++ (ℓ ++ Y), ps)) =
          (rendM (done ++ ins) [] ++ (gN ++ Y), ps ++ ms) ∧
        (∀ pr ∈ ins, infx PH pr.1 = false ∧ GapFit m pr.1) ∧
        infx PH gN = false ∧ GapFit m gN ∧
        (∀ j ∈ marks ins, ps.length ≤ j ∧ j < ps.length + ms.length) ∧
        rendP (ps ++ ms) ins gN = ℓ := by
  induction hfs with
  | last g hg =>
      intro done ps Y hfit hms hcll
      exact ⟨[], g, by simp, by simp, hcll, GapFit_of_NMS m g [] hg,
        by simp [marks], by simp [rendP]⟩
  | step g c rest ms' hg hmat hrest ih =>
      intro done ps Y hfit hms hcll
      have hgc := infx_false_of_append PH (g ++ c) rest
        (by simpa [List.append_assoc] using hcll)
      have hgcl := infx_false_of_append PH g c hgc.1
      have hcx := hms c (by simp)
      have hstep := replaceFirst_step m c (marker ps.length) hcx.1 hcx.2.1 hcx.2.2
        done hfit g (GapFree_of_NMS m g c rest hg) (rest ++ Y)
      have hst : replaceFirst (rendM done [] ++ (g ++ c ++ rest ++ Y)) c
          (marker ps.length) = rendM (done ++ [(g, ps.length)]) [] ++ (rest ++ Y) := by
        rw [show rendM done [] ++ (g ++ c ++ rest ++ Y) =
            rendM done [] ++ (g ++ (c ++ (rest ++ Y))) from by simp [List.append_assoc]]
        rw [hstep, rendM_append]
        simp [rendM, List.append_assoc]
      obtain ⟨ins', gN, hfold, hinp, hgNcl, hgNfit, hmk, hval⟩ :=
        ih (done ++ [(g, ps.length)]) (ps ++ [c]) Y
          (by
            intro pr hpr
            rcases List.mem_append.mp hpr with h2 | h2
            · exact hfit pr h2
            · have hpr2 : pr = (g, ps.length) := by simpa using h2
              rw [hpr2]
              exact GapFit_of_NMS m g (c ++ rest) hg)
          (fun c' hc' => hms c' (by simp [hc']))
          hgc.2
      refine ⟨(g, ps.length) :: ins', gN, ?_, ?_, hgNcl, hgNfit, ?_, ?_⟩
      · rw [List.foldl_cons]
        rw [show rendM done [] ++ ((g ++ c ++ rest) ++ Y) =
            rendM done [] ++ (g ++ c ++ rest ++ Y) from by simp [List.append_assoc]]
        rw [hst, hfold]
        simp
      · intro pr hpr
        rcases List.mem_cons.mp hpr with rfl | h2
        · exact ⟨hgcl.1, GapFit_of_NMS m g (c ++ rest) hg⟩
        · exact hinp pr h2
      · intro j hj
        have hmkc : marks ((g, ps.length) :: ins') = ps.length :: marks ins' := by
          simp [marks]
        rw [hmkc] at hj
        rcases List.mem_cons.mp hj with rfl | h2
        · refine ⟨le_refl _, ?_⟩
          simp only [List.length_cons]
          omega
        · have h3 := hmk j h2
          simp only [List.length_append, List.length_cons, List.length_nil] at h3
          simp only [List.length_cons]
          exact ⟨by omega, by omega⟩
      · rw [rendP, getD_middle ps c ms']
        have hval2 : rendP (ps ++ c :: ms') ins' gN = rest := by
          rw [show ps ++ c :: ms' = (ps ++ [c]) ++ ms' from by simp]
          exact hval
        rw [hval2]

end ExtractFold

section ExtractRound

/-- One pattern round over the rendered alternation, literal by literal. -/
theorem extract_round_go (m : Str → Option Nat) (hm : matcherGood m) :
    ∀ (segs : List (Str × Nat)) (last : Str) (done : List (Str × Nat)) (ps : List Str),
      (∀ pr ∈ segs, infx PH pr.1 = false) →
      infx PH last = false →
      (∀ pr ∈ done, GapFit m pr.1) →
      (∀ c ∈ segs.flatMap (fun pr => findAll m pr.1) ++ findAll m last,
        infx PH c = false) →
      ∃ (ins : List (Str × Nat)) (last' : Str),
        ((segs.flatMap (fun pr => findAll m pr.1) ++ findAll m last).foldl
            (fun st mt =>
              (replaceFirst st.1 mt (marker st.2.length), st.2 ++ [mt]))
            (rendM done [] ++ rendM segs last, ps)) =
          (rendM (done ++ ins) last',
            ps ++ (segs.flatMap (fun pr => findAll m pr.1) ++ findAll m last)) ∧
        (∀ pr ∈ ins, infx PH pr.1 = false ∧ GapFit m pr.1) ∧
        infx PH last' = false ∧ GapFit m last' ∧
        (∀ j ∈ marks ins, j ∈ marks segs ∨
          (ps.length ≤ j ∧ j < ps.length +
            (segs.flatMap (fun pr => findAll m pr.1) ++ findAll m last).length)) ∧
        rendP (ps ++ (segs.flatMap (fun pr => findAll m pr.1) ++ findAll m last))
            ins last' =
          rendP (ps ++ (segs.flatMap (fun pr => findAll m pr.1) ++ findAll m last))
            segs last
  | [], last, done, ps, hsegcl, hlastcl, hfit, hcl => by
      simp only [List.flatMap_nil, List.nil_append] at hcl ⊢
      have hfs := findSpans_sound m hm last.length last (le_refl _)
      have hms : ∀ c ∈ findAll m last, shaped c ∧ infx PH c = false ∧ MatchesAt m c := by
        intro c hc
        obtain ⟨hsh, hma⟩ := findAll_shaped m hm last.length last (le_refl _) c hc
        exact ⟨hsh, hcl c hc, hma⟩
      obtain ⟨ins, gN, hfold, hinp, hgNcl, hgNfit, hmk, hval⟩ :=
        extract_fold_lit m last (findAll m last) hfs done ps [] hfit hms hlastcl
      refine ⟨ins, gN, ?_, hinp, hgNcl, hgNfit, ?_, ?_⟩
      · rw [show rendM done [] ++ rendM [] last = rendM done [] ++ (last ++ []) from by
          simp [rendM]]
        rw [hfold]
        simp [rendM_append_last]
      · intro j hj
        exact Or.inr (hmk j hj)
      · show rendP (ps ++ findAll m last) ins gN = last
        exact hval
  | (ℓ, i) :: rest, last, done, ps, hsegcl, hlastcl, hfit, hcl => by
      have hlcl : infx PH ℓ = false := hsegcl (ℓ, i) (by simp)
      have hfs := findSpans_sound m hm ℓ.length ℓ (le_refl _)
      have hcl1 : ∀ c ∈ findAll m ℓ, infx PH c = false := by
        intro c hc
        have hin : c ∈ (((ℓ, i) :: rest).flatMap (fun pr => findAll m pr.1) ++
            findAll m last) := by
          rw [List.flatMap_cons, List.append_assoc]
          exact List.mem_append.mpr (Or.inl hc)
        exact hcl c hin
      have hms1 : ∀ c ∈ findAll m ℓ, shaped c ∧ infx PH c = false ∧ MatchesAt m c := by
        intro c hc
        obtain ⟨hsh, hma⟩ := findAll_shaped m hm ℓ.length ℓ (le_refl _) c hc
        exact ⟨hsh, hcl1 c hc, hma⟩
      obtain ⟨ins1, gN, hfold1, hinp1, hgNcl, hgNfit, hmk1, hval1⟩ :=
        extract_fold_lit m ℓ (findAll m ℓ) hfs done ps (marker i ++ rendM rest last)
          hfit hms1 hlcl
      have hfit2 : ∀ pr ∈ done ++ ins1 ++ [(gN, i)], GapFit m pr.1 := by
        intro pr hpr
        rcases List.mem_append.mp hpr with h2 | h2
        · rcases List.mem_append.mp h2 with h3 | h3
          · exact hfit pr h3
          · exact (hinp1 pr h3).2
        · have hpr2 : pr = (gN, i) := by simpa using h2
          rw [hpr2]
          exact hgNfit
      have hcl2 : ∀ c ∈ rest.flatMap (fun pr => findAll m pr.1) ++ findAll m last,
          infx PH c = false := by
        intro c hc
        have hin : c ∈ (((ℓ, i) :: rest).flatMap (fun pr => findAll m pr.1) ++
            findAll m last) := by
          rw [List.flatMap_cons, List.append_assoc]
          exact List.mem_append.mpr (Or.inr hc)
        exact hcl c hin
      obtain ⟨ins2, last', hfold2, hinp2, hlcl2, hlfit2, hmk2, hval2⟩ :=
        extract_round_go m hm rest last (done ++ ins1 ++ [(gN, i)]) (ps ++ findAll m ℓ)
          (fun pr hpr => hsegcl pr (by simp [hpr]))
          hlastcl hfit2 hcl2
      refine ⟨ins1 ++ (gN, i) :: ins2, last', ?_, ?_, hlcl2, hlfit2, ?_, ?_⟩
      · rw [List.flatMap_cons, List.append_assoc, List.foldl_append]
        rw [show rendM done [] ++ rendM ((ℓ, i) :: rest) last =
            rendM done [] ++ (ℓ ++ (marker i ++ rendM rest last)) from by
          rw [rendM]; simp [List.append_assoc]]
        rw [hfold1]
        rw [show rendM (done ++ ins1) [] ++ (gN ++ (marker i ++ rendM rest last)) =
            rendM (done ++ ins1 ++ [(gN, i)]) [] ++ rendM rest last from by
          rw [rendM_append (done ++ ins1) [(gN, i)] []]
          simp [rendM, List.append_assoc]]
        rw [hfold2]
        simp [List.append_assoc]
      · intro pr hpr
        rcases List.mem_append.mp hpr with h2 | h2
        · exact hinp1 pr h2
        · rcases List.mem_cons.mp h2 with rfl | h3
          · exact ⟨hgNcl, hgNfit⟩
          · exact hinp2 pr h3
      · intro j hj
        have hjd : j ∈ marks ins1 ∨ j = i ∨ j ∈ marks ins2 := by
          simp only [marks, List.map_append, List.map_cons, List.mem_append,
            List.mem_cons] at hj ⊢
          tauto
        have hlentot : (((ℓ, i) :: rest).flatMap (fun pr => findAll m pr.1) ++
            findAll m last).length =
            (findAll m ℓ).length +
              (rest.flatMap (fun pr => findAll m pr.1) ++ findAll m last).length := by
          rw [List.flatMap_cons]
          simp [List.append_assoc]
        rcases hjd with h2 | h2 | h2
        · have h3 := hmk1 j h2
          right
          refine ⟨h3.1, ?_⟩
          rw [hlentot]
          omega
        · left
          rw [h2]
          simp [marks]
        · rcases hmk2 j h2 with h3 | h3
          · left
            simp only [marks, List.map_cons, List.mem_cons] at h3 ⊢
            exact Or.inr h3
          · right
            rw [List.length_append] at h3
            refine ⟨by omega, ?_⟩
            rw [hlentot]
            omega
      · have hPSeq : ps ++ (((ℓ, i) :: rest).flatMap (fun pr => findAll m pr.1) ++
            findAll m last) =
            (ps ++ findAll m ℓ) ++
              (rest.flatMap (fun pr => findAll m pr.1) ++ findAll m last) := by
          rw [List.flatMap_cons]
          simp [List.append_assoc]
        rw [hPSeq]
        set PS := (ps ++ findAll m ℓ) ++
          (rest.flatMap (fun pr => findAll m pr.1) ++ findAll m last) with hPSdef
        have hmk1b : ∀ j ∈ marks ins1, j < (ps ++ findAll m ℓ).length := by
          intro j hj
          have h3 := (hmk1 j hj).2
          rw [List.length_append]
          omega
        have h1 : rendP PS ins1 gN = ℓ := by
          rw [hPSdef, rendP_extend (ps ++ findAll m ℓ) _ ins1 gN hmk1b]
          exact hval1
        have h2 : rendP PS ins2 last' = rendP PS rest last := by
          rw [hPSdef]
          exact hval2
        rw [rendP_append PS ins1 ((gN, i) :: ins2) last']
        rw [show rendP PS ((gN, i) :: ins2) last' =
            gN ++ (PS.getD i [] ++ rendP PS ins2 last') from by
          rw [rendP, List.append_assoc]]
        rw [h2]
        rw [show rendP PS ((ℓ, i) :: rest) last =
            ℓ ++ (PS.getD i [] ++ rendP PS rest last) from by
          rw [rendP, List.append_assoc]]
        calc rendP PS ins1 [] ++ (gN ++ (PS.getD i [] ++ rendP PS rest last))
            = (rendP PS ins1 [] ++ gN) ++ (PS.getD i [] ++ rendP PS rest last) := by
              simp [List.append_assoc]
          _ = ℓ ++ (PS.getD i [] ++ rendP PS rest last) := by
              rw [rendP_append_last, h1]

end ExtractRound

section ExtractRounds

/-- The placeholder list only ever grows across pattern rounds. -/
theorem extract_rounds_snd : ∀ (pats : List (Str → Option Nat)) (st : Str × List Str),
    ∃ qs, (pats.foldl (fun st m => extractStep m st) st).2 = st.2 ++ qs
  | [], st => ⟨[], by simp⟩
  | m :: pats2, st => by
      obtain ⟨qs, hqs⟩ := extract_rounds_snd pats2 (extractStep m st)
      refine ⟨findAll m st.1 ++ qs, ?_⟩
      rw [List.foldl_cons, hqs,
        show (extractStep m st).2 = st.2 ++ findAll m st.1 from
          extract_fold_snd (findAll m st.1) st]
      simp

/-- Running the remaining pattern rounds over a clean rendered alternation
keeps the alternation shape, preserves the encoded value, and emits only
shaped placeholders. -/
theorem extract_rounds_go : ∀ (pats : List (Str → Option Nat)),
    (∀ m ∈ pats, matcherGood m) →
    ∀ (segs : List (Str × Nat)) (last : Str) (ps : List Str),
      (∀ pr ∈ segs, infx PH pr.1 = false) →
      infx PH last = false →
      (∀ j ∈ marks segs, j < ps.length) →
      (∀ p ∈ (pats.foldl (fun st m => extractStep m st) (rendM segs last, ps)).2,
        infx PH p = false) →
      ∃ (segs2 : List (Str × Nat)) (last2 : Str) (ps2 : List Str),
        pats.foldl (fun st m => extractStep m st) (rendM segs last, ps) =
          (rendM segs2 last2, ps2) ∧
        (∀ pr ∈ segs2, infx PH pr.1 = false) ∧
        infx PH last2 = false ∧
        (∀ j ∈ marks segs2, j < ps2.length) ∧
        (∀ p ∈ ps2, p ∈ ps ∨ shaped p) ∧
        rendP ps2 segs2 last2 = rendP ps segs last
  | [], _, segs, last, ps, hsegcl, hlastcl, hmks, _ =>
      ⟨segs, last, ps, by simp, hsegcl, hlastcl, hmks, fun p hp => Or.inl hp, rfl⟩
  | m :: pats2, hpats, segs, last, ps, hsegcl, hlastcl, hmks, hcl => by
      have hm : matcherGood m := hpats m (by simp)
      -- the matches of this round are placeholders of the final list
      have hsnd1 : (extractStep m (rendM segs last, ps)).2 =
          ps ++ findAll m (rendM segs last) :=
        extract_fold_snd (findAll m (rendM segs last)) _
      obtain ⟨qs, hqs⟩ := extract_rounds_snd pats2 (extractStep m (rendM segs last, ps))
      have hscl : ∀ c ∈ findAll m (rendM segs last), infx PH c = false := by
        intro c hc
        apply hcl
        rw [List.foldl_cons, hqs, hsnd1]
        exact List.mem_append.mpr (Or.inl (List.mem_append.mpr (Or.inr hc)))
      -- the scan distributes over the alternation
      have hdist := findAll_rend m hm segs last hscl
      have hclR : ∀ c ∈ segs.flatMap (fun pr => findAll m pr.1) ++ findAll m last,
          infx PH c = false := by
        rw [← hdist]
        exact hscl
      obtain ⟨ins, last1, hfold, hinp, hl1cl, _, hmk, hval⟩ :=
        extract_round_go m hm segs last [] ps hsegcl hlastcl (by simp) hclR
      have hstep1 : extractStep m (rendM segs last, ps) =
          (rendM ins last1,
            ps ++ (segs.flatMap (fun pr => findAll m pr.1) ++ findAll m last)) := by
        show (findAll m (rendM segs last)).foldl
            (fun st mt => (replaceFirst st.1 mt (marker st.2.length), st.2 ++ [mt]))
            (rendM segs last, ps) = _
        rw [hdist]
        rw [show (rendM segs last, ps) =
            ((rendM [] [] ++ rendM segs last : Str), ps) from by simp [rendM]]
        rw [hfold]
        simp [rendM]
      have hmks1 : ∀ j ∈ marks ins,
          j < (ps ++ (segs.flatMap (fun pr => findAll m pr.1) ++ findAll m last)).length := by
        intro j hj
        rw [List.length_append]
        rcases hmk j hj with h2 | h2
        · have := hmks j h2
          omega
        · omega
      obtain ⟨segs2, last2, ps2, hfold2, hseg2cl, hl2cl, hmks2, hshape2, hval2⟩ :=
        extract_rounds_go pats2 (fun m2 hm2 => hpats m2 (by simp [hm2]))
          ins last1 (ps ++ (segs.flatMap (fun pr => findAll m pr.1) ++ findAll m last))
          (fun pr hpr => (hinp pr hpr).1) hl1cl hmks1
          (by
            intro p hp
            apply hcl
            rw [List.foldl_cons, hstep1]
            exact hp)
      refine ⟨segs2, last2, ps2, ?_, hseg2cl, hl2cl, hmks2, ?_, ?_⟩
      · rw [List.foldl_cons, hstep1]
        exact hfold2
      · intro p hp
        rcases hshape2 p hp with h2 | h2
        · rcases List.mem_append.mp h2 with h3 | h3
          · exact Or.inl h3
          · right
            have hmem : p ∈ findAll m (rendM segs last) := by
              rw [hdist]
              exact h3
            exact (findAll_shaped m hm (rendM segs last).length _ (le_refl _) p hmem).1
        · exact Or.inr h2
      · rw [hval2, hval]
        exact rendP_extend ps _ segs last hmks

end ExtractRounds

section ExtractionStructure

/-- `_extract_placeholders` of a clean text whose extracted placeholders
are clean yields a rendered alternation: clean literals interleaved with
in-range markers, whose by-index substitution restores the original text,
and every extracted placeholder is shaped. -/
theorem extraction_structure (text : Str) (h1 : infx PH text = false)
    (h2 : ∀ p ∈ (extractPlaceholders text).2, infx PH p = false) :
    ∃ (segs : List (Str × Nat)) (last : Str),
      extractPlaceholders text = (rendM segs last, (extractPlaceholders text).2) ∧
      (∀ pr ∈ segs, infx PH pr.1 = false) ∧
      infx PH last = false ∧
      (∀ j ∈ marks segs, j < (extractPlaceholders text).2.length) ∧
      (∀ p ∈ (extractPlaceholders text).2, shaped p) ∧
      rendP (extractPlaceholders text).2 segs last = text := by
  have he : extractPlaceholders text =
      patterns.foldl (fun st m => extractStep m st) (rendM [] text, []) := rfl
  obtain ⟨segs, last, ps2, hfold, hsegcl, hlcl, hmks, hshape, hval⟩ :=
    extract_rounds_go patterns patterns_good [] text []
      (by simp) h1 (by simp [marks])
      (by rw [← he]; exact h2)
  have hps2 : (extractPlaceholders text).2 = ps2 := by
    rw [he, hfold]
  refine ⟨segs, last, ?_, hsegcl, hlcl, ?_, ?_, ?_⟩
  · rw [he, hfold]
  · rw [hps2]
    exact hmks
  · intro p hp
    rw [hps2] at hp
    rcases hshape p hp with h3 | h3
    · simp at h3
    · exact h3
  · rw [hps2, hval]
    rfl

end ExtractionStructure

section CleanMergeLemmas

/-- An occurrence of `P` in a concatenation sits in one part or splits
into a nonempty suffix of the first and a nonempty prefix of the second. -/
theorem infx_append_cases (P x y : Str) (h : infx P (x ++ y) = true) :
    infx P x = true ∨ infx P y = true ∨
      ∃ a b, P = a ++ b ∧ a ≠ [] ∧ b ≠ [] ∧ (∃ u, x = u ++ a) ∧ pfx b y = true := by
  obtain ⟨u, v, huv⟩ := (infx_iff _ _).mp h
  have huv2 : x ++ y = u ++ (P ++ v) := by simpa [List.append_assoc] using huv
  rcases List.append_eq_append_iff.mp huv2 with ⟨k, hk1, hk2⟩ | ⟨k, hk1, hk2⟩
  · right; left
    exact (infx_iff _ _).mpr ⟨k, v, by rw [hk2]; simp [List.append_assoc]⟩
  · rcases List.append_eq_append_iff.mp hk2 with ⟨t, ht1, ht2⟩ | ⟨t, ht1, ht2⟩
    · left
      exact (infx_iff _ _).mpr ⟨u, t, by rw [hk1, ht1]; simp [List.append_assoc]⟩
    · cases hke : k with
      | nil =>
          right; left
          rw [hke, List.nil_append] at ht1
          exact (infx_iff _ _).mpr ⟨[], v, by rw [ht2, ← ht1]; simp⟩
      | cons k0 ks =>
          cases hte : t with
          | nil =>
              left
              rw [hte, List.append_nil] at ht1
              exact (infx_iff _ _).mpr ⟨u, [], by rw [hk1, ← ht1]; simp⟩
          | cons t0 ts =>
              right; right
              refine ⟨k, t, ht1, by rw [hke]; simp, by rw [hte]; simp, ⟨u, hk1⟩, ?_⟩
              rw [ht2]
              exact pfx_refl_append t v

/-- The last element of a list lies in any nonempty suffix. -/
theorem last_mem_suffix (p u a q : Str) (z : Char) (h1 : p = u ++ a) (ha : a ≠ [])
    (h2 : p = q ++ [z]) : z ∈ a := by
  have h3 : u ++ a = q ++ [z] := by rw [← h1, h2]
  rcases List.append_eq_append_iff.mp h3 with ⟨m, hm1, hm2⟩ | ⟨m, hm1, hm2⟩
  · rw [hm2]; simp
  · cases m with
    | nil =>
        have haz : a = [z] := by simpa using hm2.symm
        rw [haz]; simp
    | cons m0 ms =>
        exfalso
        rw [List.cons_append] at hm2
        injection hm2 with _ h4
        exact ha (List.append_eq_nil.mp h4.symm).2

/-- A seam onto a start character cannot host `PLACEHOLDER`. -/
theorem clean_seam_start (s p : Str) (c0 : Char) (q : Str) (hs : infx PH s = false)
    (hp : infx PH p = false) (hpc : p = c0 :: q) (hc0 : startCh c0 = true) :
    infx PH (s ++ p) = false := by
  by_contra hcc
  rw [Bool.not_eq_false] at hcc
  rcases infx_append_cases PH s p hcc with h2 | h2 | ⟨a, b, hab, ha, hb, ⟨u, hu⟩, hpb⟩
  · rw [h2] at hs; cases hs
  · rw [h2] at hp; cases hp
  · cases b with
    | nil => exact hb rfl
    | cons b0 bs =>
        have hb0 : b0 ∈ PH := by rw [hab]; exact List.mem_append.mpr (Or.inr (by simp))
        have hne : b0 ≠ c0 := by
          intro he
          have h5 := (ph_chars b0 hb0).1
          rw [he, hc0] at h5
          cases h5
        rw [hpc, pfx_cons_ne b0 c0 bs q hne] at hpb
        cases hpb

/-- A seam off an end character cannot host `PLACEHOLDER`. -/
theorem clean_seam_end (p y : Str) (q : Str) (z : Char) (hp : infx PH p = false)
    (hy : infx PH y = false) (hpz : p = q ++ [z]) (hz : endCh z = true) :
    infx PH (p ++ y) = false := by
  by_contra hcc
  rw [Bool.not_eq_false] at hcc
  rcases infx_append_cases PH p y hcc with h2 | h2 | ⟨a, b, hab, ha, hb, ⟨u, hu⟩, hpb⟩
  · rw [h2] at hp; cases hp
  · rw [h2] at hy; cases hy
  · have hzmem : z ∈ a := last_mem_suffix p u a q z hu ha hpz
    have hzPH : z ∈ PH := by rw [hab]; exact List.mem_append.mpr (Or.inl hzmem)
    have h5 := (ph_chars z hzPH).2.1
    rw [hz] at h5
    cases h5

/-- Substituting a clean shaped placeholder between clean literals keeps
the result clean. -/
theorem cleanMerge (s p s2 : Str) (hs : infx PH s = false) (hp : infx PH p = false)
    (hs2 : infx PH s2 = false) (hsh : shaped p) : infx PH (s ++ p ++ s2) = false := by
  obtain ⟨a, mid, z, hpz, hsa, hez⟩ := hsh
  have h1 : infx PH (p ++ s2) = false :=
    clean_seam_end p s2 (a :: mid) z hp hs2 (by rw [hpz]) hez
  have h2 : infx PH (s ++ (p ++ s2)) = false := by
    apply clean_seam_start s (p ++ s2) a (mid ++ [z] ++ s2) hs h1 ?_ hsa
    rw [hpz]
    simp
  rw [show s ++ p ++ s2 = s ++ (p ++ s2) from by simp [List.append_assoc]]
  exact h2

end CleanMergeLemmas

section RestoreLemmas

/-- One round of `_restore_placeholders` on a clean alternation: the
occurrences of marker `i` are exactly its rendered marks. -/
theorem restore_one : ∀ (segs : List (Str × Nat)) (last : Str) (i : Nat) (p : Str),
    (∀ pr ∈ segs, infx PH pr.1 = false) →
    infx PH last = false →
    replaceAll (marker i) p (rendM segs last) =
      rendM (mergeMark i p segs last).1 (mergeMark i p segs last).2
  | [], last, i, p, _, hl => by
      obtain ⟨mt, hmt⟩ : ∃ mt, marker i = '_' :: mt :=
        ⟨'_' :: ((PH ++ ['_']) ++ (natStr i ++ msuf)), marker_cons2 i⟩
      have hno : ∀ u v, last = u ++ v → v ≠ [] →
          pfx (marker i) (v ++ ([] : Str)) = false := by
        intro u v huv hv
        by_contra hcc
        rw [Bool.not_eq_false] at hcc
        obtain ⟨t, ht⟩ := (pfx_iff _ _).mp hcc
        have hvm : v = marker i ++ t := by simpa using ht
        have h5 : infx PH last = true := by
          rw [huv, hvm]
          have h2 := infx_mono PH (marker i) u t (ph_infx_marker i)
          simpa [List.append_assoc] using h2
        rw [h5] at hl
        cases hl
      show replaceAll (marker i) p last = last
      rw [hmt]
      calc replaceAll ('_' :: mt) p last
          = replaceAll ('_' :: mt) p (last ++ []) := by simp
        _ = last ++ replaceAll ('_' :: mt) p [] := by
              exact replaceAll_skip last [] '_' mt p (by rw [← hmt]; exact hno)
        _ = last := by
              rw [show replaceAll ('_' :: mt) p [] = [] from rfl]
              simp
  | (s, j0) :: rest, last, i, p, hC, hl => by
      have hscl : infx PH s = false := hC (s, j0) (by simp)
      have hrestC : ∀ pr ∈ rest, infx PH pr.1 = false :=
        fun pr hpr => hC pr (by simp [hpr])
      obtain ⟨mt, hmt⟩ : ∃ mt, marker i = '_' :: mt :=
        ⟨'_' :: ((PH ++ ['_']) ++ (natStr i ++ msuf)), marker_cons2 i⟩
      have hnos : ∀ u v, s = u ++ v → v ≠ [] →
          pfx (marker i) (v ++ (marker j0 ++ rendM rest last)) = false := by
        intro u v huv hv
        by_contra hcc
        rw [Bool.not_eq_false] at hcc
        rcases pfx_append_split (marker i) v (marker j0 ++ rendM rest last) hcc with
          ⟨t, ht⟩ | ⟨w, hw, hpw⟩
        · have h5 : infx PH s = true := by
            rw [huv, ht]
            have h2 := infx_mono PH (marker i) u t (ph_infx_marker i)
            simpa [List.append_assoc] using h2
          rw [h5] at hscl
          cases hscl
        · have hvcl : infx PH v = false := by
            by_contra hvc
            rw [Bool.not_eq_false] at hvc
            rw [huv, infx_mono_left PH v u hvc] at hscl
            cases hscl
          exact marker_no_cross i j0 v w (rendM rest last) hw hv hvcl hpw
      by_cases hji : j0 = i
      · rw [hji] at hnos ⊢
        rw [show rendM ((s, i) :: rest) last = s ++ (marker i ++ rendM rest last) from by
          rw [rendM]; simp [List.append_assoc]]
        rw [hmt]
        rw [replaceAll_skip s (('_' :: mt) ++ rendM rest last) '_' mt p
          (by rw [← hmt]; exact hnos)]
        rw [replaceAll_hit '_' mt (rendM rest last) p]
        rw [← hmt, restore_one rest last i p hrestC hl]
        cases hpr : (mergeMark i p rest last).1 with
        | nil =>
            rw [show mergeMark i p ((s, i) :: rest) last =
                ([], s ++ p ++ (mergeMark i p rest last).2) from by
              rw [mergeMark]; simp [hpr]]
            simp [rendM, List.append_assoc]
        | cons pr2 rest2 =>
            obtain ⟨s2, j2⟩ := pr2
            rw [show mergeMark i p ((s, i) :: rest) last =
                ((s ++ p ++ s2, j2) :: rest2, (mergeMark i p rest last).2) from by
              rw [mergeMark]; simp [hpr]]
            simp [rendM, List.append_assoc]
      · have hnom : ∀ u v, marker j0 = u ++ v → v ≠ [] →
            pfx (marker i) (v ++ rendM rest last) = false := by
          intro u v huv hv
          by_contra hcc
          rw [Bool.not_eq_false] at hcc
          cases u with
          | nil =>
              rw [List.nil_append] at huv
              rw [← huv] at hcc
              exact hji (marker_pfx_marker i j0 (rendM rest last) hcc).symm
          | cons u0 us =>
              exact marker_inside_marker i j0 (u0 :: us) v rest last hrestC hl huv
                (by simp) hv hcc
        rw [show rendM ((s, j0) :: rest) last = s ++ (marker j0 ++ rendM rest last) from by
          rw [rendM]; simp [List.append_assoc]]
        rw [hmt]
        rw [replaceAll_skip s (marker j0 ++ rendM rest last) '_' mt p
          (by rw [← hmt]; exact hnos)]
        rw [replaceAll_skip (marker j0) (rendM rest last) '_' mt p
          (by rw [← hmt]; exact hnom)]
        rw [← hmt, restore_one rest last i p hrestC hl]
        rw [show mergeMark i p ((s, j0) :: rest) last =
            ((s, j0) :: (mergeMark i p rest last).1, (mergeMark i p rest last).2) from by
          rw [mergeMark]; simp [hji]]
        rw [rendM]
        simp [List.append_assoc]

/-- `mergeMark` removes exactly the marks at the substituted index. -/
theorem mergeMark_marks (i : Nat) (p : Str) : ∀ (segs : List (Str × Nat)) (last : Str),
    ∀ j ∈ marks (mergeMark i p segs last).1, j ∈ marks segs ∧ j ≠ i
  | [], last, j, hj => by simp [mergeMark, marks] at hj
  | (s, j0) :: rest, last, j, hj => by
      by_cases hji : j0 = i
      · cases hpr : (mergeMark i p rest last).1 with
        | nil =>
            rw [show mergeMark i p ((s, j0) :: rest) last =
                ([], s ++ p ++ (mergeMark i p rest last).2) from by
              rw [mergeMark]; simp [hji, hpr]] at hj
            simp [marks] at hj
        | cons pr2 rest2 =>
            obtain ⟨s2, j2⟩ := pr2
            rw [show mergeMark i p ((s, j0) :: rest) last =
                ((s ++ p ++ s2, j2) :: rest2, (mergeMark i p rest last).2) from by
              rw [mergeMark]; simp [hji, hpr]] at hj
            have hj2 : j ∈ marks ((s2, j2) :: rest2) := by
              simpa [marks] using hj
            rw [← hpr] at hj2
            have h5 := mergeMark_marks i p rest last j hj2
            refine ⟨?_, h5.2⟩
            simp only [marks, List.map_cons, List.mem_cons]
            right
            simpa [marks] using h5.1
      · rw [show mergeMark i p ((s, j0) :: rest) last =
            ((s, j0) :: (mergeMark i p rest last).1, (mergeMark i p rest last).2) from by
          rw [mergeMark]; simp [hji]] at hj
        simp only [marks, List.map_cons, List.mem_cons] at hj
        rcases hj with rfl | hj2
        · exact ⟨by simp [marks], hji⟩
        · have h5 := mergeMark_marks i p rest last j (by simpa [marks] using hj2)
          refine ⟨?_, h5.2⟩
          simp only [marks, List.map_cons, List.mem_cons]
          right
          simpa [marks] using h5.1

/-- Substituting a mark by its own placeholder preserves the encoded
value. -/
theorem mergeMark_val (ps : List Str) (i : Nat) :
    ∀ (segs : List (Str × Nat)) (last : Str),
      rendP ps (mergeMark i (ps.getD i []) segs last).1
          (mergeMark i (ps.getD i []) segs last).2 =
        rendP ps segs last
  | [], last => by
      rw [show mergeMark i (ps.getD i []) [] last = ([], last) from rfl]
  | (s, j0) :: rest, last => by
      by_cases hji : j0 = i
      · cases hpr : (mergeMark i (ps.getD i []) rest last).1 with
        | nil =>
            rw [show mergeMark i (ps.getD i []) ((s, j0) :: rest) last =
                ([], s ++ ps.getD i [] ++
                  (mergeMark i (ps.getD i []) rest last).2) from by
              rw [mergeMark]; simp only [hji, eq_self_iff_true, if_true, hpr]]
            have hv := mergeMark_val ps i rest last
            rw [hpr] at hv
            simp only [rendP, hji] at hv ⊢
            rw [← hv]
        | cons pr2 rest2 =>
            obtain ⟨s2, j2⟩ := pr2
            rw [show mergeMark i (ps.getD i []) ((s, j0) :: rest) last =
                ((s ++ ps.getD i [] ++ s2, j2) :: rest2,
                  (mergeMark i (ps.getD i []) rest last).2) from by
              rw [mergeMark]; simp only [hji, eq_self_iff_true, if_true, hpr]]
            have hv := mergeMark_val ps i rest last
            rw [hpr] at hv
            simp only [rendP, hji] at hv ⊢
            rw [← hv]
            simp [List.append_assoc]
      · rw [show mergeMark i (ps.getD i []) ((s, j0) :: rest) last =
            ((s, j0) :: (mergeMark i (ps.getD i []) rest last).1,
              (mergeMark i (ps.getD i []) rest last).2) from by
          rw [mergeMark]; simp [hji]]
        simp only [rendP]
        rw [mergeMark_val ps i rest last]

/-- `mergeMark` with a clean shaped placeholder keeps the alternation
clean. -/
theorem mergeMark_clean (i : Nat) (p : Str) (hpcl : infx PH p = false)
    (hpsh : shaped p) : ∀ (segs : List (Str × Nat)) (last : Str),
    (∀ pr ∈ segs, infx PH pr.1 = false) → infx PH last = false →
    (∀ pr ∈ (mergeMark i p segs last).1, infx PH pr.1 = false) ∧
      infx PH (mergeMark i p segs last).2 = false
  | [], last, _, hl => ⟨by simp [mergeMark], by simpa [mergeMark] using hl⟩
  | (s, j0) :: rest, last, hC, hl => by
      have hscl : infx PH s = false := hC (s, j0) (by simp)
      obtain ⟨hC2, hl2⟩ := mergeMark_clean i p hpcl hpsh rest last
        (fun pr hpr => hC pr (by simp [hpr])) hl
      by_cases hji : j0 = i
      · cases hpr : (mergeMark i p rest last).1 with
        | nil =>
            rw [show mergeMark i p ((s, j0) :: rest) last =
                ([], s ++ p ++ (mergeMark i p rest last).2) from by
              rw [mergeMark]; simp [hji, hpr]]
            exact ⟨by simp, cleanMerge s p (mergeMark i p rest last).2 hscl hpcl hl2 hpsh⟩
        | cons pr2 rest2 =>
            obtain ⟨s2, j2⟩ := pr2
            have hs2cl : infx PH s2 = false := hC2 (s2, j2) (by rw [hpr]; simp)
            rw [show mergeMark i p ((s, j0) :: rest) last =
                ((s ++ p ++ s2, j2) :: rest2, (mergeMark i p rest last).2) from by
              rw [mergeMark]; simp [hji, hpr]]
            refine ⟨?_, hl2⟩
            intro pr hpr2
            rcases List.mem_cons.mp hpr2 with rfl | h3
            · exact cleanMerge s p s2 hscl hpcl hs2cl hpsh
            · exact hC2 pr (by rw [hpr]; simp [h3])
      · rw [show mergeMark i p ((s, j0) :: rest) last =
            ((s, j0) :: (mergeMark i p rest last).1, (mergeMark i p rest last).2) from by
          rw [mergeMark]; simp [hji]]
        refine ⟨?_, hl2⟩
        intro pr hpr2
        rcases List.mem_cons.mp hpr2 with rfl | h3
        · exact hscl
        · exact hC2 pr h3

/-- The restore fold over a range covering all remaining marks recovers
the encoded value. -/
theorem restore_fold (ps : List Str)
    (hpscl : ∀ p ∈ ps, infx PH p = false) (hpssh : ∀ p ∈ ps, shaped p) :
    ∀ (k i : Nat) (segs : List (Str × Nat)) (last : Str),
      (∀ pr ∈ segs, infx PH pr.1 = false) → infx PH last = false →
      (∀ j ∈ marks segs, i ≤ j ∧ j < i + k) →
      i + k ≤ ps.length →
      (List.range' i k).foldl (fun t j => replaceAll (marker j) (ps.getD j []) t)
        (rendM segs last) = rendP ps segs last
  | 0, i, segs, last, hC, hl, hmks, hlen => by
      have hnil : segs = [] := by
        cases segs with
        | nil => rfl
        | cons pr rest =>
            exfalso
            have h5 := hmks pr.2 (by simp [marks])
            omega
      subst hnil
      simp [rendM, rendP]
  | k + 1, i, segs, last, hC, hl, hmks, hlen => by
      have hi : i < ps.length := by omega
      have hpi : ps.getD i [] ∈ ps := by
        rw [List.getD_eq_getElem _ _ hi]
        exact List.getElem_mem hi
      have hone := restore_one segs last i (ps.getD i []) hC hl
      have hmm := mergeMark_clean i (ps.getD i []) (hpscl _ hpi) (hpssh _ hpi)
        segs last hC hl
      have hrec := restore_fold ps hpscl hpssh k (i + 1)
        (mergeMark i (ps.getD i []) segs last).1
        (mergeMark i (ps.getD i []) segs last).2 hmm.1 hmm.2
        (by
          intro j hj
          obtain ⟨hj1, hj2⟩ := mergeMark_marks i (ps.getD i []) segs last j hj
          have h4 := hmks j hj1
          omega)
        (by omega)
      rw [show List.range' i (k + 1) = i :: List.range' (i + 1) k from rfl]
      rw [List.foldl_cons, hone, hrec, mergeMark_val ps i segs last]

end RestoreLemmas

section ClaimC2

/-- C2 counterexample: the string `\x7ba\x7b0\x7d\x7d` contains the
recognized placeholder `\x7b0\x7d`, yet extract → identity → restore does
not return the original string: the inner match is replaced by a marker
that the named-brace pattern then captures inside a larger match, so the
restored text still carries the marker. -/
theorem C2_counterexample :
    (extractPlaceholders ('{' :: 'a' :: '{' :: '0' :: '}' :: '}' :: [])).2 ≠ [] ∧
    restorePlaceholders
        (extractPlaceholders ('{' :: 'a' :: '{' :: '0' :: '}' :: '}' :: [])).1
        (extractPlaceholders ('{' :: 'a' :: '{' :: '0' :: '}' :: '}' :: [])).2 ≠
      '{' :: 'a' :: '{' :: '0' :: '}' :: '}' :: [] := by
  constructor
  · decide
  · decide

/-- C2 (amended): for every string in which the token `PLACEHOLDER` does
not occur and whose extraction yields only placeholders free of that
token (which excludes captures of earlier markers by later patterns),
composing `_extract_placeholders` with the identity in place of
translation and then `_restore_placeholders` returns the original string
exactly; restoration replaces markers by index, so this holds even when
two extracted placeholders are textually identical. -/
theorem C2_round_trip (text : Str)
    (h1 : infx PH text = false)
    (h2 : ∀ p ∈ (extractPlaceholders text).2, infx PH p = false) :
    restorePlaceholders (extractPlaceholders text).1 (extractPlaceholders text).2 =
      text := by
  obtain ⟨segs, last, hfe, hsegcl, hlcl, hmks, hshape, hval⟩ :=
    extraction_structure text h1 h2
  have hfst : (extractPlaceholders text).1 = rendM segs last := by rw [hfe]
  show (List.range (extractPlaceholders text).2.length).foldl
      (fun t i => replaceAll (marker i) ((extractPlaceholders text).2.getD i []) t)
      (extractPlaceholders text).1 = text
  rw [hfst, List.range_eq_range']
  rw [restore_fold (extractPlaceholders text).2 h2 hshape
    (extractPlaceholders text).2.length 0 segs last hsegcl hlcl
    (by
      intro j hj
      have h5 := hmks j hj
      omega)
    (by omega)]
  exact hval

/-- C2 witness: a string with two textually identical placeholders
round-trips exactly, restored by index. -/
theorem C2_round_trip_witness :
    restorePlaceholders
        (extractPlaceholders
          ('a' :: '{' :: '0' :: '}' :: 'b' :: '{' :: '0' :: '}' :: [])).1
        (extractPlaceholders
          ('a' :: '{' :: '0' :: '}' :: 'b' :: '{' :: '0' :: '}' :: [])).2 =
      'a' :: '{' :: '0' :: '}' :: 'b' :: '{' :: '0' :: '}' :: [] :=
  C2_round_trip ('a' :: '{' :: '0' :: '}' :: 'b' :: '{' :: '0' :: '}' :: [])
    (by decide) (by decide)

end ClaimC2
